import Mathlib

/- Shallow embedding of the mh-dm/slicer-scripts repository: the post
   processing scripts BedCool.py, TempRamp.py, CoastRetract.py and
   TestingTower.py in their standalone (argument-parsing, dialect A) mode.

   Modelling conventions:
   . text is a list of characters (abbrev Str below);
   . Python floats are exact rationals: every arithmetic step the scripts
     perform on the values exercised by the theorems below (integral
     temperatures, speeds, whole or few-digit decimal extrusion amounts)
     is exact in binary floating point, so the rational model agrees with
     CPython on them;
   . Python round is round-half-to-even, modelled by pyRound;
   . a raised Python exception (AttributeError on a None entry, ValueError
     from float parsing, NameError on an unknown command) is modelled by
     an Option-valued function returning none;
   . the regular expressions of the scripts are embedded as deterministic
     matchers; for these particular patterns greedy matching never needs
     backtracking to succeed, so the matchers agree with re.match. -/

namespace Slicer

abbrev Str := List Char

/-- Python s.split with separator a single newline: split into pieces at
every newline character, keeping empty pieces. -/
def splitNl : Str → List Str
  | [] => [[]]
  | c :: rest =>
    if c = '\n' then [] :: splitNl rest
    else
      match splitNl rest with
      | [] => [[c]]
      | l :: ls => (c :: l) :: ls

/-- Python newline join of a list of strings. -/
def joinNl : List Str → Str
  | [] => []
  | [l] => l
  | l :: ls => l ++ '\n' :: joinNl ls

/-- Python list slice assignment l[i:i] = xs, i nonnegative: insert xs at
position i (clamped to the length). -/
def pyInsertAt (i : Nat) (xs : List α) (l : List α) : List α :=
  l.take i ++ xs ++ l.drop i

/-- Python list.insert with index -1: insert just before the last element
(at the front of an empty list). -/
def pyInsertBeforeLast (x : α) (l : List α) : List α :=
  l.take (l.length - 1) ++ [x] ++ l.drop (l.length - 1)

/-- Python str.find restricted to a search from the front: the least
offset at which pat occurs in s, or none. -/
def findIn : Str → Str → Option Nat
  | [], pat => if pat.isPrefixOf ([] : Str) then some 0 else none
  | c :: rest, pat =>
    if pat.isPrefixOf (c :: rest) then some 0
    else (findIn rest pat).map (· + 1)

/-- Python str.rfind: the greatest offset at which pat occurs in s. -/
def rfindIn : Str → Str → Option Nat
  | [], pat => if pat.isPrefixOf ([] : Str) then some 0 else none
  | c :: rest, pat =>
    match rfindIn rest pat with
    | some r => some (r + 1)
    | none => if pat.isPrefixOf (c :: rest) then some 0 else none

/-- Value of a decimal digit character. -/
def digitVal (c : Char) : Nat := c.toNat - ('0').toNat

/-- Numeric value of a string of decimal digits (most significant first). -/
def digitsToNat (l : Str) : Nat := l.foldl (fun a c => 10 * a + digitVal c) 0

/-- Absolute part of a Python float literal: digits with an optional
fraction, as accepted by float() for the strings these scripts meet
(plain decimal literals; exponents and the inf and nan forms, which no
slicer G-code line uses, are not modelled). -/
def pyFloatAbs (r : Str) : Option ℚ :=
  let ip := r.takeWhile Char.isDigit
  let rest := r.dropWhile Char.isDigit
  match rest with
  | [] => if ip = [] then none else some (digitsToNat ip)
  | '.' :: fr =>
    if fr.all Char.isDigit ∧ ¬(ip = [] ∧ fr = []) then
      some ((digitsToNat ip : ℚ) + mkRat (digitsToNat fr) (10 ^ fr.length))
    else none
  | _ => none

/-- Python float() on a string: optional surrounding whitespace, optional
sign, then a decimal literal; none models the ValueError raised on
anything else. -/
def pyFloat? (s : Str) : Option ℚ :=
  let t := ((s.dropWhile Char.isWhitespace).reverse.dropWhile Char.isWhitespace).reverse
  match t with
  | '+' :: r => pyFloatAbs r
  | '-' :: r => (pyFloatAbs r).map Neg.neg
  | r => pyFloatAbs r

/-- Floor of a rational, written on the raw numerator and denominator so
that it evaluates by kernel reduction. -/
def ratFloor (q : ℚ) : ℤ := q.num.fdiv q.den

/-- Python round to an integer: round half to even.  The comparisons of
the fractional part against one half are written multiplied out by two
so that the definition evaluates by kernel reduction. -/
def pyRound (q : ℚ) : ℤ :=
  let f := ratFloor q
  let r := q - (f : ℚ)
  if 2 * r < 1 then f
  else if 1 < 2 * r then f + 1
  else if f % 2 = 0 then f else f + 1

/-- Decimal digits of n accumulated onto acc, with structural bound b on
the number of digit steps; b is always passed large enough (n itself),
so the bound never runs out before n reaches zero. -/
def natDigitsGo : Nat → Nat → Str → Str
  | 0, _, acc => acc
  | b + 1, n, acc =>
    if n = 0 then acc
    else natDigitsGo b (n / 10) (Char.ofNat (('0').toNat + n % 10) :: acc)

/-- Decimal rendering of a natural number. -/
def natStr (n : Nat) : Str := if n = 0 then ['0'] else natDigitsGo n n []

/-- Python str() of an int (as produced by format on a round result). -/
def intStr (i : ℤ) : Str := if i < 0 then '-' :: natStr i.natAbs else natStr i.toNat

/-- Zero-pad a digit string on the left to length k. -/
def padZeros (k : Nat) (l : Str) : Str := List.replicate (k - l.length) '0' ++ l

/-- Python fixed-point formatting with prec digits after the point, as in
format specifications .2f and .3f: round half to even at the last kept
digit, keep the sign of the value. -/
def fmtFixed (prec : Nat) (q : ℚ) : Str :=
  let m := (pyRound (|q| * ((10 : ℚ) ^ prec))).toNat
  let ip := m / 10 ^ prec
  let fp := m % 10 ^ prec
  (if q < 0 then ['-'] else []) ++ natStr ip ++ '.' :: padZeros prec (natStr fp)

/-- Python str.rstrip with a single-character argument. -/
def rstripChar (c : Char) (s : Str) : Str :=
  (s.reverse.dropWhile (fun d => d = c)).reverse

/-- Line j of layer i of a layer stream. -/
def lineAt (data : List Str) (i j : Nat) : Option Str :=
  (data.get? i).bind (fun s => (splitNl s).get? j)

/-- The start-gcode marker searched by the standalone drivers. -/
def startMark : Str := ( "; custom gcode: start_gcode").toList

/-- The end-gcode marker. -/
def endMark : Str := ( "; custom gcode: end_gcode").toList

/-- The layer-change marker including its newline, as searched by find. -/
def nlPat : Str := ( ";LAYER_CHANGE\n").toList

/-- The layer-change marker as a single line. -/
def markerLine : Str := ( ";LAYER_CHANGE").toList

/-- Command word of a bed-temperature set line. -/
def m140SPre : Str := ( "M140 S").toList

/-- Command word of a nozzle-temperature set line. -/
def m104SPre : Str := ( "M104 S").toList

/-- Bed-temperature set line for a value, temperature rounded to integer. -/
def m140Line (q : ℚ) : Str := m140SPre ++ intStr (pyRound q)

/-- Nozzle-temperature set line for an integer value. -/
def m104Line (i : ℤ) : Str := m104SPre ++ intStr i

/-- Matcher for the dialect A retract move template, a G1 line with a
negative extrusion amount followed by a feed rate; returns the two raw
captured operand texts (amount with its sign, then the feed rate). -/
def matchRetractA (l : Str) : Option (Str × Str) :=
  match l with
  | 'G' :: '1' :: ' ' :: 'E' :: '-' :: rest =>
    let ds := rest.takeWhile Char.isDigit
    let r1 := rest.dropWhile Char.isDigit
    if ds = [] then none
    else
      let fr : Str × Str :=
        match r1 with
        | '.' :: r => ('.' :: r.takeWhile Char.isDigit, r.dropWhile Char.isDigit)
        | r => ([], r)
      match fr.2 with
      | ' ' :: 'F' :: r3 =>
        let fs := r3.takeWhile Char.isDigit
        if fs = [] then none else some ('-' :: (ds ++ fr.1), fs)
      | _ => none
  | _ => none

/-- Matcher for the dialect A prime move template, a G1 line with a
nonnegative extrusion amount followed by a feed rate. -/
def matchPrimeA (l : Str) : Option (Str × Str) :=
  match l with
  | 'G' :: '1' :: ' ' :: 'E' :: rest =>
    let ds := rest.takeWhile Char.isDigit
    let r1 := rest.dropWhile Char.isDigit
    if ds = [] then none
    else
      let fr : Str × Str :=
        match r1 with
        | '.' :: r => ('.' :: r.takeWhile Char.isDigit, r.dropWhile Char.isDigit)
        | r => ([], r)
      match fr.2 with
      | ' ' :: 'F' :: r3 =>
        let fs := r3.takeWhile Char.isDigit
        if fs = [] then none else some (ds ++ fr.1, fs)
      | _ => none
  | _ => none

/-- Matcher for the dialect A travel template, a G1 line with at least one
further character; the capture is the rest of the line. -/
def matchTravelA (l : Str) : Option Str :=
  match l with
  | 'G' :: '1' :: ' ' :: rest =>
    let g := rest.takeWhile (fun c => c ≠ '\n')
    if g = [] then none else some g
  | _ => none

/-- Whether a line contains a space followed by the letter E, the test the
coast-retract merge uses to reject candidate moves that already extrude. -/
def hasSpaceE (l : Str) : Bool := (findIn l (( " E").toList)).isSome

/-- Whether a line starts with the letter G. -/
def headIsG : Str → Bool
  | 'G' :: _ => true
  | _ => false

/-- The drivers segmentation loop, in coordinates relative to the current
marker: u is the file text from the current marker position onward.  Each
iteration searches for the next layer-change marker strictly after the
current position; on a hit the chunk up to it is emitted, on a miss the
final chunk is the rest of the file with its very last character dropped,
because the source slices file up to index -1, the failed find result. -/
def segChunksGo : Nat → Str → List Str
  | 0, u => [u.dropLast]
  | b + 1, u =>
    match findIn (u.drop 1) nlPat with
    | none => [u.dropLast]
    | some r => u.take (1 + r) :: segChunksGo b (u.drop (1 + r))

/-- Entry to the chunk loop: every iteration consumes at least one
character of u, so a structural bound of length u suffices and the
bound-exhausted branch (which coincides with the failed-find branch) is
never taken. -/
def segChunks (u : Str) : List Str := segChunksGo u.length u

/-- Split of the final chunk at the end-gcode marker: the source replaces
the last stream entry by the part before the marker, the part from the
marker on, and an empty placeholder; a failed rfind yields index -1,
which as a slice bound drops one more character and keeps the last
character alone. -/
def segEnd (t : Str) : List Str :=
  match rfindIn t endMark with
  | some j => [t.take j, t.drop j, []]
  | none => [t.take (t.length - 1), t.drop (t.length - 1), []]

/-- The standalone drivers segmentation of a whole file into the layer
stream: prelude before the start marker, marker-to-marker chunks, and the
final chunk split at the end-gcode marker.  A missing start marker is the
find result -1, so the prelude slice file[0:idx] silently drops the last
character of the file and no chunk loop runs. -/
def segment (file : Str) : List Str :=
  let data :=
    match findIn file startMark with
    | none => [file.dropLast]
    | some idx => file.take idx :: segChunks (file.drop idx)
  data.dropLast ++ segEnd (data.getLastD [])

/-- Python f.writelines on the stream: plain concatenation. -/
def joinData (data : List Str) : Str := data.flatten

/-- One line of the BedCool scan: a bed-temp set line replaces the tracked
temperature by its rounded operand; none models the ValueError float()
would raise on a malformed operand. -/
def bcScanLine (t : ℚ) (l : Str) : Option ℚ :=
  if m140SPre.isPrefixOf l then
    (pyFloat? (l.drop 6)).map (fun q => ((pyRound q : ℤ) : ℚ))
  else some t

/-- BedCool scan of the lines of one layer. -/
def bcScan (t : ℚ) : List Str → Option ℚ
  | [] => some t
  | l :: ls =>
    match bcScanLine t l with
    | none => none
    | some t1 => bcScan t1 ls

/-- The BedCool layer loop over data[:-2]: i is the absolute layer index,
stop the number of processed layers, changeStart the first index of the
cooling window and t the tracked bed temperature. -/
def bcGo (changeStart : ℤ) (stop : Nat) (reduceBy : ℚ) :
    List Str → Nat → ℚ → Option (List Str)
  | [], _, _ => some []
  | layer :: rest, i, t =>
    if stop ≤ i then some (layer :: rest)
    else
      match bcScan t (splitNl layer) with
      | none => none
      | some t1 =>
        if changeStart ≤ (i : ℤ) ∧ 0 < t1 then
          let t2 := t1 - reduceBy
          match bcGo changeStart stop reduceBy rest (i + 1) t2 with
          | none => none
          | some out => some (joinNl (pyInsertAt 1 [m140Line t2] (splitNl layer)) :: out)
        else
          match bcGo changeStart stop reduceBy rest (i + 1) t1 with
          | none => none
          | some out => some (joinNl (splitNl layer) :: out)

/-- BedCool.execute. -/
def bcExecute (numFinal : Nat) (reduceBy : ℚ) (data : List Str) : Option (List Str) :=
  bcGo ((data.length : ℤ) - 2 - numFinal) (data.length - 2) reduceBy data 0 0

/-- One line of the TempRamp scan over (current, target): the first
nozzle-temp line initialises both, later ones either snap the current
temperature to the new target or take one bounded step and overwrite the
line with the clamped intermediate value. -/
def tmLine (increaseBy : ℚ) (cur tgt : ℚ) (l : Str) : Option (Str × ℚ × ℚ) :=
  if m104SPre.isPrefixOf l then
    match pyFloat? (l.drop 6) with
    | none => none
    | some q =>
      if cur = 0 then some (l, q, q)
      else if q ≤ cur + increaseBy then some (l, q, q)
      else some (m104Line (pyRound (cur + increaseBy)), cur + increaseBy, q)
  else some (l, cur, tgt)

/-- TempRamp scan-and-rewrite over the lines of one layer. -/
def tmLines (increaseBy : ℚ) : List Str → ℚ → ℚ → Option (List Str × ℚ × ℚ)
  | [], cur, tgt => some ([], cur, tgt)
  | l :: ls, cur, tgt =>
    match tmLine increaseBy cur tgt l with
    | none => none
    | some (l2, st) =>
      match tmLines increaseBy ls st.1 st.2 with
      | none => none
      | some (ls2, st2) => some (l2 :: ls2, st2)

/-- TempRamp handling of one layer: rewrite the lines, then if the current
temperature still trails the target take one more step and insert a new
nozzle-temp line just before the last line of the layer.  The source
joins through a filter on None entries which it never creates, so the
join is direct here. -/
def tmLayer (increaseBy : ℚ) (layer : Str) (cur tgt : ℚ) : Option (Str × ℚ × ℚ) :=
  match tmLines increaseBy (splitNl layer) cur tgt with
  | none => none
  | some (lines2, st) =>
    if st.1 < st.2 then
      let cur3 := min (st.1 + increaseBy) st.2
      some (joinNl (pyInsertAt (lines2.length - 1) [m104Line (pyRound cur3)] lines2),
        cur3, st.2)
    else some (joinNl lines2, st.1, st.2)

/-- The TempRamp layer loop over data[:-2]. -/
def tmGo (increaseBy : ℚ) (stop : Nat) :
    List Str → Nat → ℚ → ℚ → Option (List Str)
  | [], _, _, _ => some []
  | layer :: rest, i, cur, tgt =>
    if stop ≤ i then some (layer :: rest)
    else
      match tmLayer increaseBy layer cur tgt with
      | none => none
      | some (layer2, st) =>
        match tmGo increaseBy stop rest (i + 1) st.1 st.2 with
        | none => none
        | some out => some (layer2 :: out)

/-- TempRamp.execute. -/
def tmExecute (increaseBy : ℚ) (data : List Str) : Option (List Str) :=
  tmGo increaseBy (data.length - 2) data 0 0 0

/-- The CoastRetract backward scan from a retract at index jp (the
argument is one past the highest probed index): walk down over the lines,
skipping entries that do not start with G, until a G line breaks the
loop.  The outer none models the AttributeError raised when the probe
meets a deleted (None) entry; some none is the no-merge outcome (loop
exhausted, or the G line found already extrudes or is not a travel
match); some (some (j, g)) is a merge with target index j and captured
travel operand text g. -/
def crFindTarget (lines : List (Option Str)) : Nat → Option (Option (Nat × Str))
  | 0 => some none
  | j + 1 =>
    match lines.get? j with
    | none => some none
    | some none => none
    | some (some s) =>
      if headIsG s then
        if hasSpaceE s then some none
        else
          match matchTravelA s with
          | none => some none
          | some g => some (some (j, g))
      else crFindTarget lines j

/-- The combined coast-retract move: feed rate first, then the travel
operands, then the extrusion amount at three decimals with trailing
zeros and a trailing point stripped.  The none branch models the
ValueError float() would raise, which the regex captures never do. -/
def crMerge (aStr sStr g : Str) : Option Str :=
  match pyFloat? aStr, pyFloat? sStr with
  | some amt, some spd =>
    some (rstripChar '.' (rstripChar '0'
      (( "G1 F").toList ++ intStr (pyRound spd) ++ ' ' ::
        (g ++ ( " E").toList ++ fmtFixed 3 amt))))
  | _, _ => none

/-- The CoastRetract line loop of one layer, over Option-valued entries so
a merged retract leaves a None placeholder exactly as the source does.
The none result models an uncaught exception: a deleted entry met by the
match call or the backward scan. -/
def crGoF : Nat → List (Option Str) → Nat → Option (List (Option Str))
  | 0, lines, _ => some lines
  | b + 1, lines, idx =>
    if h : idx < lines.length then
      match lines.get ⟨idx, h⟩ with
      | none => none
      | some line =>
        match matchRetractA line with
        | none => crGoF b lines (idx + 1)
        | some (aStr, sStr) =>
          match crFindTarget lines idx with
          | none => none
          | some none => crGoF b lines (idx + 1)
          | some (some (j, g)) =>
            match crMerge aStr sStr g with
            | none => none
            | some newLine => crGoF b ((lines.set j (some newLine)).set idx none) (idx + 1)
    else some lines

/-- Entry to the line loop: idx advances by one per iteration and the
list keeps its length under set, so a structural bound of the remaining
distance to the end is exact; the bound-exhausted branch coincides with
the loop-exit branch. -/
def crGo (lines : List (Option Str)) (idx : Nat) : Option (List (Option Str)) :=
  crGoF (lines.length - idx) lines idx

/-- CoastRetract processing of one layer: run the line loop from index 0,
then join the surviving lines. -/
def crLayer (layer : Str) : Option Str :=
  match crGo ((splitNl layer).map some) 0 with
  | none => none
  | some lines2 => some (joinNl (lines2.filterMap id))

/-- CoastRetract.execute: every layer of the stream is processed (this
script reserves no tail). -/
def crExecute : List Str → Option (List Str)
  | [] => some []
  | layer :: rest =>
    match crLayer layer, crExecute rest with
    | some l2, some r2 => some (l2 :: r2)
    | _, _ => none

/-- The setter and status lines TestingTower emits for one qualifying
layer: the first component is the setter G-code if the command has one,
the second the status line; none models the NameError an unknown command
would raise when the unbound status line is used.  On the very first
affected layer the speed setter is preceded by a remember-baseline
command joined into the same inserted entry with a newline. -/
def ttGcode (cmd : String) (startLayerHit : Bool) (v : ℚ) : Option (Option Str × Str) :=
  if cmd = "speed" then
    let g := ( "M220 S").toList ++ intStr (pyRound v)
    some (some (if startLayerHit then ( "M220 B\n").toList ++ g else g),
      ( "M117 Speed ").toList ++ g)
  else if cmd = "acceleration" then
    let g := ( "M204 S").toList ++ intStr (pyRound v)
    some (some g, ( "M117 Accel ").toList ++ g)
  else if cmd = "tacceleration" then
    let g := ( "M204 T").toList ++ intStr (pyRound v)
    some (some g, ( "M117 TAccel ").toList ++ g)
  else if cmd = "pacceleration" then
    let g := ( "M204 P").toList ++ intStr (pyRound v)
    some (some g, ( "M117 PAccel ").toList ++ g)
  else if cmd = "racceleration" then
    let g := ( "M204 R").toList ++ intStr (pyRound v)
    some (some g, ( "M117 RAccel ").toList ++ g)
  else if cmd = "eacceleration" then
    let g := ( "M201 E").toList ++ intStr (pyRound v)
    some (some g, ( "M117 EAccel ").toList ++ g)
  else if cmd = "jerk" then
    let g := ( "M205 X").toList ++ fmtFixed 2 v ++ ( " Y").toList ++ fmtFixed 2 v
    some (some g, ( "M117 XYJerk ").toList ++ g)
  else if cmd = "zjerk" then
    let g := ( "M205 Z").toList ++ fmtFixed 2 v
    some (some g, ( "M117 ZJerk ").toList ++ g)
  else if cmd = "ejerk" then
    let g := ( "M205 E").toList ++ fmtFixed 2 v
    some (some g, ( "M117 EJerk ").toList ++ g)
  else if cmd = "junction" then
    let g := ( "M205 J").toList ++ fmtFixed 3 v
    some (some g, ( "M117 Junction ").toList ++ g)
  else if cmd = "lin-advance" then
    let g := ( "M900 K").toList ++ fmtFixed 3 v
    some (some g, ( "M117 Lin Adv ").toList ++ g)
  else if cmd = "nozzle-temp" then
    let g := ( "M104 S").toList ++ intStr (pyRound v)
    some (some g, ( "M117 Nozzle Temp ").toList ++ g)
  else if cmd = "bed-temp" then
    let g := ( "M104 S").toList ++ intStr (pyRound v)
    some (some g, ( "M117 Bed Temp ").toList ++ g)
  else if cmd = "retract-speed" then
    some (none, ( "M117 Retract Speed ").toList ++ intStr (pyRound v))
  else if cmd = "retract-distance" then
    some (none, ( "M117 Retract Dist ").toList ++ fmtFixed 3 v)
  else if cmd = "prime-speed" then
    some (none, ( "M117 Prime Speed ").toList ++ intStr (pyRound v))
  else if cmd = "extra-prime" then
    some (none, ( "M117 Extra Prime ").toList ++ fmtFixed 3 v)
  else none

/-- The TestingTower per-line rewriting for the move-rewriting commands,
threading the remembered prime distance cp; all other commands leave
every line unchanged.  The inner none models the ValueError float() never
raises on a regex capture. -/
def ttLine (cmd : String) (v cp : ℚ) (l : Str) : Option (Str × ℚ) :=
  if cmd = "retract-speed" then
    match matchRetractA l with
    | some cap =>
      some (( "G1 F").toList ++ intStr (pyRound (v * 60)) ++ ( " E").toList ++ cap.1, cp)
    | none => some (l, cp)
  else if cmd = "retract-distance" then
    match matchRetractA l with
    | some cap =>
      some (( "G1 F").toList ++ cap.2 ++ ( " E").toList ++ fmtFixed 3 (-v), v)
    | none =>
      match matchPrimeA l with
      | some cap =>
        if cp ≠ -1 then
          some (( "G1 F").toList ++ cap.2 ++ ( " E").toList ++ fmtFixed 3 cp, cp)
        else some (l, cp)
      | none => some (l, cp)
  else if cmd = "prime-speed" then
    match matchPrimeA l with
    | some cap =>
      some (( "G1 F").toList ++ intStr (pyRound (v * 60)) ++ ( " E").toList ++ cap.1, cp)
    | none => some (l, cp)
  else if cmd = "extra-prime" then
    match matchPrimeA l with
    | some cap =>
      match pyFloat? cap.1 with
      | none => none
      | some amt =>
        some (( "G1 F").toList ++ cap.2 ++ ( " E").toList ++ fmtFixed 3 (amt + v), cp)
    | none => some (l, cp)
  else some (l, cp)

/-- TestingTower per-line loop over the lines of one layer. -/
def ttLines (cmd : String) (v : ℚ) : List Str → ℚ → Option (List Str × ℚ)
  | [], cp => some ([], cp)
  | l :: ls, cp =>
    match ttLine cmd v cp l with
    | none => none
    | some (l2, cp2) =>
      match ttLines cmd v ls cp2 with
      | none => none
      | some (ls2, cp3) => some (l2 :: ls2, cp3)

/-- TestingTower handling of one processed layer at absolute index i:
on a qualifying layer bump the value and insert the setter and status
lines at position 1; run the per-line rewriting; on the third-from-last
layer of a speed sweep insert the restore-baseline command before the
last line.  A zero changeEvery models the ZeroDivisionError of the
modulus. -/
def ttLayer (cmd : String) (valueChange : ℚ) (changeEvery sl2 lastIdx i : Nat)
    (layer : Str) (v cp : ℚ) : Option (Str × ℚ × ℚ) :=
  if changeEvery = 0 then none
  else
    let lines := splitNl layer
    let qual := (i - sl2) % changeEvery = 0
    let v2 := if qual then v + valueChange else v
    let step1 : Option (List Str) :=
      if qual then
        match ttGcode cmd (i = sl2) v2 with
        | none => none
        | some (some g, lcd) => some (pyInsertAt 1 [g, lcd] lines)
        | some (none, lcd) => some (pyInsertAt 1 [lcd] lines)
      else some lines
    match step1 with
    | none => none
    | some lines2 =>
      match ttLines cmd v2 lines2 cp with
      | none => none
      | some (lines3, cp2) =>
        let lines4 :=
          if i = lastIdx ∧ cmd = "speed" then
            pyInsertBeforeLast (( "M220 R").toList) lines3
          else lines3
        some (joinNl lines4, v2, cp2)

/-- The TestingTower layer loop over data[:-2]: layers before the
(offset) start layer are skipped without even being rejoined. -/
def ttGo (cmd : String) (valueChange : ℚ) (changeEvery sl2 stop lastIdx : Nat) :
    List Str → Nat → ℚ → ℚ → Option (List Str)
  | [], _, _, _ => some []
  | layer :: rest, i, v, cp =>
    if stop ≤ i then some (layer :: rest)
    else if i < sl2 then
      match ttGo cmd valueChange changeEvery sl2 stop lastIdx rest (i + 1) v cp with
      | none => none
      | some out => some (layer :: out)
    else
      match ttLayer cmd valueChange changeEvery sl2 lastIdx i layer v cp with
      | none => none
      | some (layer2, st) =>
        match ttGo cmd valueChange changeEvery sl2 stop lastIdx rest (i + 1) st.1 st.2 with
        | none => none
        | some out => some (layer2 :: out)

/-- TestingTower.execute: the user start layer is offset by two reserved
leading layers, the tracked value starts one change below the start
value, and the remembered prime distance starts at -1. -/
def ttExecute (cmd : String) (startValue valueChange : ℚ)
    (changeEvery startLayer : Nat) (data : List Str) : Option (List Str) :=
  ttGo cmd valueChange changeEvery (startLayer + 2) (data.length - 2)
    (data.length - 3) data 0 (startValue - valueChange) (-1)

/-- The standalone BedCool driver on a whole file: segment, execute (in
place), write the stream back by concatenation.  There is no marker
validation anywhere on this path. -/
def bcRun (numFinal : Nat) (reduceBy : ℚ) (file : Str) : Option Str :=
  (bcExecute numFinal reduceBy (segment file)).map joinData

/-- The standalone TempRamp driver on a whole file. -/
def tmRun (increaseBy : ℚ) (file : Str) : Option Str :=
  (tmExecute increaseBy (segment file)).map joinData

/-- TempRamp processing of a whole list of layers, with no stop bound:
the restriction of the layer loop to a fully processed segment of the
stream, returning the rewritten layers and the final temperature state. -/
def tmGoF (increaseBy : ℚ) : List Str → ℚ → ℚ → Option (List Str × ℚ × ℚ)
  | [], cur, tgt => some ([], cur, tgt)
  | layer :: rest, cur, tgt =>
    match tmLayer increaseBy layer cur tgt with
    | none => none
    | some (layer2, st) =>
      match tmGoF increaseBy rest st.1 st.2 with
      | none => none
      | some (out, st2) => some (layer2 :: out, st2)

/-- The layers a warm-up ramp era produces: each layer receives one
nozzle-temp line inserted just before its last line, with integer values
counting up from c. -/
def tmRampOut : ℤ → List Str → List Str
  | _, [] => []
  | c, layer :: rest =>
    joinNl (pyInsertAt ((splitNl layer).length - 1) [m104Line c] (splitNl layer)) ::
      tmRampOut (c + 1) rest

/-- A layer with no nozzle-temp set line. -/
def m104Free (s : Str) : Prop :=
  ∀ l ∈ splitNl s, m104SPre.isPrefixOf l = false

instance (s : Str) : Decidable (m104Free s) :=
  inferInstanceAs (Decidable (∀ l ∈ splitNl s, m104SPre.isPrefixOf l = false))

/-- Whether some line of a layer is a bed-temp set line. -/
def hasM140 (lines : List Str) : Bool :=
  lines.any (fun l => m140SPre.isPrefixOf l)

/-- Nozzle-temp value of a line, when it is a nozzle-temp set line with a
parseable operand. -/
def m104Val (l : Str) : Option ℚ :=
  if m104SPre.isPrefixOf l then pyFloat? (l.drop 6) else none

/-- All nozzle-temp values appearing in the first k layers of a stream,
in stream order. -/
def m104ValsUpTo (k : Nat) (data : List Str) : List ℚ :=
  ((data.take k).map (fun s => (splitNl s).filterMap m104Val)).flatten

/-- Number of layers of out that differ from the matching layer of data. -/
def affectedCount (out data : List Str) : Nat :=
  (out.zip data).countP (fun p => !(p.1 == p.2))

/-- Marker lines appear at most at the head of the line list. -/
def markersOnlyAtHead (lines : List Str) : Prop :=
  ∀ j, lines.get? j = some markerLine → j = 0

/-- Number of marker lines in a line list. -/
def markerCount (lines : List Str) : Nat :=
  lines.countP (fun l => l == markerLine)

/-- Well-formedness of a layer as the segmenter produces it: marker lines
sit only at the head, and a layer that starts with the marker has at
least one further line, because in segmented output the marker is always
followed by its newline. -/
def wfLayer (s : Str) : Prop :=
  markersOnlyAtHead (splitNl s) ∧
    ((splitNl s).head? = some markerLine → 2 ≤ (splitNl s).length)

/-- The marker lines of a rewritten layer b are those of the original
layer a: same presence at the head, still nowhere else, same count, so
no layer-change marker was created, removed or relocated. -/
def markerPreserved (a b : Str) : Prop :=
  ((splitNl b).head? = some markerLine ↔ (splitNl a).head? = some markerLine) ∧
    markersOnlyAtHead (splitNl b) ∧
    markerCount (splitNl b) = markerCount (splitNl a)

/-- A well-formed input file for the round-trip claim: prelude, start
marker, two layer-change markers, end marker, trailing newline. -/
def cFileA : Str :=
  ( "pre\n; custom gcode: start_gcode\nS\n;LAYER_CHANGE\nA\n;LAYER_CHANGE\nB\n; custom gcode: end_gcode\nE\n").toList

/-- An input file with no marker at all but one bed-temp set line. -/
def cFileB : Str := ( "hello\nM140 S60\nworld\n").toList

/-- A nine-layer stream, constant 60 degree bed temperature set before
the cooling window, no bed-temp line inside the window. -/
def cBed : List Str :=
  [( "p\n").toList, ( "s\nM140 S60\n").toList,
    ( ";LAYER_CHANGE\na\n").toList, ( ";LAYER_CHANGE\nb\n").toList,
    ( ";LAYER_CHANGE\nc\n").toList, ( ";LAYER_CHANGE\nd\n").toList,
    ( ";LAYER_CHANGE\ne\n").toList, ( "end\n").toList, []]

/-- As cBed but with a second 60 degree bed-temp set line inside the
cooling window (layer 3). -/
def cBedWin : List Str :=
  [( "p\n").toList, ( "s\nM140 S60\n").toList,
    ( ";LAYER_CHANGE\na\n").toList, ( ";LAYER_CHANGE\nM140 S60\nb\n").toList,
    ( ";LAYER_CHANGE\nc\n").toList, ( ";LAYER_CHANGE\nd\n").toList,
    ( ";LAYER_CHANGE\ne\n").toList, ( "end\n").toList, []]

/-- A stream whose first nozzle-temp line sets 190 (layer 1) and whose
only later one requests 210 (layer 3), with enough further layers for
the warm-up ramp to complete. -/
def cTemp : List Str :=
  [( "p\n").toList, ( "s\nM104 S190\n").toList, ( ";LAYER_CHANGE\na\n").toList,
    ( ";LAYER_CHANGE\nM104 S210\nb\n").toList] ++
    (List.range 22).map (fun _ => ( ";LAYER_CHANGE\nG1 X1 Y1\n").toList) ++
    [( "end\n").toList, []]

/-- A six-layer stream for the parameter sweep runs. -/
def cTower : List Str :=
  [( "p\n").toList, ( "s\n").toList,
    ( ";LAYER_CHANGE\nG1 X1 Y1\n").toList, ( ";LAYER_CHANGE\nG1 X2 Y2\n").toList,
    ( "end\n").toList, []]

/-- One layer with a travel move immediately followed by a retract. -/
def cCoastLayer : Str := ( "x\nG1 X10 Y10\nG1 E-2 F2400\ny\n").toList

/-- One layer in which a merged-and-deleted retract line stands between a
later retract and its candidate preceding move, separated only by a line
that does not start with G. -/
def cCoastCrash : Str := ( "G1 X10 Y10\nG1 E-2 F2400\n;c\nG1 E-3 F2400\n").toList

/-- A stream jumping from 190 to 210 for the zero-increase run. -/
def cTempZero : List Str :=
  [( "p\n").toList, ( "s\nM104 S190\n").toList,
    ( ";LAYER_CHANGE\nM104 S210\na\n").toList, ( ";LAYER_CHANGE\nb\n").toList,
    ( "end\n").toList, []]

set_option maxRecDepth 40000

/-- The layer BedCool is expected to produce at absolute index j for an
input layer s, when the stream scan keeps a constant 60 degree
temperature outside the window: inside the processed window the reduced
bed-temp line is inserted at position 1, elsewhere the layer is kept. -/
def bcExpected (stop : Nat) (cs : ℤ) (rb : ℚ) (j : Nat) (s : Str) : Str :=
  if j < stop ∧ cs ≤ (j : ℤ) then
    joinNl (pyInsertAt 1
      [m140Line (60 - (((j : ℤ) - cs + 1 : ℤ) : ℚ) * rb)] (splitNl s))
  else s

/-- The line list a processed speed-sweep layer at absolute index i with
post-increment value v2 becomes: setter (preceded on the very first
affected layer by the remember-baseline command inside the same entry)
and status line inserted at position 1, and on the third-from-last layer
the restore-baseline command inserted before the last line. -/
def ttSpeedLines (sl2 lastIdx i : Nat) (v2 : ℚ) (lines : List Str) : List Str :=
  let g := ( "M220 S").toList ++ intStr (pyRound v2)
  let g2 := if i = sl2 then ( "M220 B\n").toList ++ g else g
  let lcd := ( "M117 Speed ").toList ++ g
  let base := pyInsertAt 1 [g2, lcd] lines
  if i = lastIdx then pyInsertBeforeLast (( "M220 R").toList) base else base

/-- The layer a speed sweep with changeValueEvery 1 is expected to
produce at absolute index j, where w is the tracked value on entry to
the first processed layer. -/
def ttSpeedExpected (vc w : ℚ) (sl2 stop lastIdx : Nat) (j : Nat) (s : Str) : Str :=
  if j < stop ∧ sl2 ≤ j then
    joinNl (ttSpeedLines sl2 lastIdx j
      (w + ((j - sl2 + 1 : ℕ) : ℚ) * vc) (splitNl s))
  else s

theorem splitNl_ne_nil (s : Str) : splitNl s ≠ [] := by
  cases s with
  | nil => simp [splitNl]
  | cons c rest =>
    simp only [splitNl]
    split
    · simp
    · cases h : splitNl rest <;> simp

theorem joinNl_splitNl (s : Str) : joinNl (splitNl s) = s := by
  induction s with
  | nil => rfl
  | cons c rest ih =>
    simp only [splitNl]
    split
    · next hc =>
      subst hc
      obtain ⟨l, ls, h⟩ : ∃ l ls, splitNl rest = l :: ls := by
        cases h : splitNl rest with
        | nil => exact absurd h (splitNl_ne_nil rest)
        | cons l ls => exact ⟨l, ls, rfl⟩
      rw [h]
      rw [h] at ih
      simpa [joinNl] using ih
    · next hc =>
      obtain ⟨l, ls, h⟩ : ∃ l ls, splitNl rest = l :: ls := by
        cases h : splitNl rest with
        | nil => exact absurd h (splitNl_ne_nil rest)
        | cons l ls => exact ⟨l, ls, rfl⟩
      rw [h]
      rw [h] at ih
      cases ls with
      | nil => simpa [joinNl] using ih
      | cons l2 ls2 => simpa [joinNl] using ih

theorem splitNl_append (s t : Str) :
    splitNl (s ++ '\n' :: t) = splitNl s ++ splitNl t := by
  induction s with
  | nil => simp [splitNl]
  | cons c rest ih =>
    by_cases hc : c = '\n'
    · subst hc
      simp [splitNl, ih]
    · obtain ⟨l, ls, h⟩ : ∃ l ls, splitNl rest = l :: ls := by
        cases h : splitNl rest with
        | nil => exact absurd h (splitNl_ne_nil rest)
        | cons l ls => exact ⟨l, ls, rfl⟩
      have h2 : splitNl (rest ++ '\n' :: t) = l :: (ls ++ splitNl t) := by
        rw [ih, h]; simp
      simp [splitNl, if_neg hc, h, h2]

theorem no_nl_of_mem_splitNl (s : Str) : ∀ l ∈ splitNl s, '\n' ∉ l := by
  induction s with
  | nil =>
    intro l hl
    simp [splitNl] at hl
    subst hl
    simp
  | cons c rest ih =>
    intro l hl
    by_cases hc : c = '\n'
    · subst hc
      rw [show splitNl ('\n' :: rest) = [] :: splitNl rest from by simp [splitNl]] at hl
      rcases List.mem_cons.mp hl with hl | hl
      · subst hl; simp
      · exact ih l hl
    · obtain ⟨a, as, h⟩ : ∃ a as, splitNl rest = a :: as := by
        cases h : splitNl rest with
        | nil => exact absurd h (splitNl_ne_nil rest)
        | cons a as => exact ⟨a, as, rfl⟩
      rw [show splitNl (c :: rest) = (c :: a) :: as from by
        simp [splitNl, if_neg hc, h]] at hl
      rcases List.mem_cons.mp hl with hl | hl
      · subst hl
        intro hm
        rcases List.mem_cons.mp hm with hm | hm
        · exact hc hm.symm
        · exact ih a (by rw [h]; exact List.mem_cons_self a as) hm
      · exact ih l (by rw [h]; exact List.mem_cons_of_mem a hl)

theorem splitNl_of_no_nl (s : Str) (h : '\n' ∉ s) : splitNl s = [s] := by
  induction s with
  | nil => rfl
  | cons c rest ih =>
    have hc : ¬ c = '\n' := fun he => h (he ▸ List.mem_cons_self c rest)
    have hr : '\n' ∉ rest := fun hm => h (List.mem_cons_of_mem c hm)
    simp only [splitNl, if_neg hc, ih hr]

theorem splitNl_joinNl (ls : List Str) (h : ls ≠ []) :
    splitNl (joinNl ls) = (ls.map splitNl).flatten := by
  induction ls with
  | nil => exact absurd rfl h
  | cons l t ih =>
    cases t with
    | nil => simp [joinNl]
    | cons l2 t2 =>
      have : joinNl (l :: l2 :: t2) = l ++ '\n' :: joinNl (l2 :: t2) := rfl
      rw [this, splitNl_append, ih (by simp)]
      simp

theorem pyInsertAt_one (xs : List α) (a : α) (t : List α) :
    pyInsertAt 1 xs (a :: t) = a :: (xs ++ t) := by
  simp [pyInsertAt]

theorem pyRound_intCast (n : ℤ) : pyRound (n : ℚ) = n := by
  have hf : ratFloor (n : ℚ) = n := by
    simp [ratFloor, Rat.intCast_num, Rat.intCast_den]
  simp [pyRound, hf]

theorem no_nl_natDigitsGo (b : Nat) :
    ∀ n acc, '\n' ∉ acc → '\n' ∉ natDigitsGo b n acc := by
  induction b with
  | zero => intro n acc h; exact h
  | succ b ih =>
    intro n acc h
    simp only [natDigitsGo]
    split
    · exact h
    · refine ih (n / 10) _ ?_
      intro hm
      rcases List.mem_cons.mp hm with hm | hm
      · have hd : n % 10 < 10 := Nat.mod_lt n (by omega)
        revert hm
        have : ∀ d, d < 10 → ¬ ('\n' = Char.ofNat (('0').toNat + d)) := by decide
        exact this (n % 10) hd
      · exact h hm

theorem no_nl_natStr (n : Nat) : '\n' ∉ natStr n := by
  rw [natStr]
  split
  · decide
  · exact no_nl_natDigitsGo n n [] (by simp)

theorem no_nl_intStr (i : ℤ) : '\n' ∉ intStr i := by
  rw [intStr]
  split
  · intro hm
    rcases List.mem_cons.mp hm with hm | hm
    · exact absurd hm (by decide)
    · exact no_nl_natStr _ hm
  · exact no_nl_natStr _

theorem no_nl_m140Line (q : ℚ) : '\n' ∉ m140Line q := by
  intro hm
  rcases List.mem_append.mp hm with hm | hm
  · exact absurd hm (by decide)
  · exact no_nl_intStr _ hm

theorem flatten_map_splitNl (t : List Str) (h : ∀ l ∈ t, '\n' ∉ l) :
    (t.map splitNl).flatten = t := by
  induction t with
  | nil => rfl
  | cons a rest ih =>
    simp only [List.map_cons, List.flatten_cons]
    rw [splitNl_of_no_nl a (h a (List.mem_cons_self a rest)),
      ih (fun l hl => h l (List.mem_cons_of_mem a hl))]
    rfl

theorem splitNl_joinNl_id (ls : List Str) (h : ls ≠ []) (h2 : ∀ l ∈ ls, '\n' ∉ l) :
    splitNl (joinNl ls) = ls := by
  rw [splitNl_joinNl ls h, flatten_map_splitNl ls h2]

theorem no_nl_append {x y : Str} (hx : '\n' ∉ x) (hy : '\n' ∉ y) : '\n' ∉ x ++ y := by
  intro hm
  rcases List.mem_append.mp hm with h | h
  · exact hx h
  · exact hy h

theorem get_insertBeforeLast (x : α) (xs : List α) (h : xs ≠ []) :
    (pyInsertBeforeLast x xs).length = xs.length + 1 ∧
    (pyInsertBeforeLast x xs).get? (xs.length - 1) = some x := by
  have hlen : 0 < xs.length := List.length_pos.mpr h
  constructor
  · simp [pyInsertBeforeLast]
    omega
  · have hl1 : (xs.take (xs.length - 1)).length = xs.length - 1 := by
      simp [List.length_take]
    rw [pyInsertBeforeLast, List.append_assoc,
      List.get?_append_right (le_of_eq hl1), hl1, Nat.sub_self]
    rfl

theorem countP_zero_of_not_hasM140 (lines : List Str) (h : hasM140 lines = false) :
    lines.countP (fun ln => m140SPre.isPrefixOf ln) = 0 := by
  induction lines with
  | nil => rfl
  | cons a t ih =>
    simp only [hasM140, List.any_cons, Bool.or_eq_false_iff] at h
    rw [List.countP_cons_of_neg _ _ (by simp [h.1]), ih (by simpa [hasM140] using h.2)]

theorem bcScan_spec (lines : List Str) :
    ∀ t : ℚ,
    (∀ l ∈ lines, m140SPre.isPrefixOf l → pyFloat? (l.drop 6) = some 60) →
    bcScan t lines = some (if hasM140 lines then 60 else t) := by
  induction lines with
  | nil =>
    intro t _
    simp [bcScan, hasM140]
  | cons l ls ih =>
    intro t h
    by_cases hp : m140SPre.isPrefixOf l
    · have h60 := h l (List.mem_cons_self l ls) hp
      have hline : bcScanLine t l = some 60 := by
        have : pyRound 60 = 60 := by
          have := pyRound_intCast 60
          push_cast at this
          exact this
        simp [bcScanLine, hp, h60, this]
      have hm : hasM140 (l :: ls) = true := by
        simp only [hasM140, List.any_cons, hp, Bool.true_or]
      rw [show bcScan t (l :: ls) = bcScan 60 ls from by
        simp [bcScan, hline]]
      rw [ih 60 (fun x hx => h x (List.mem_cons_of_mem l hx))]
      simp [hm]
    · have hline : bcScanLine t l = some t := by simp [bcScanLine, hp]
      rw [show bcScan t (l :: ls) = bcScan t ls from by simp [bcScan, hline]]
      rw [ih t (fun x hx => h x (List.mem_cons_of_mem l hx))]
      have : hasM140 (l :: ls) = hasM140 ls := by simp [hasM140, hp]
      rw [this]

theorem bcGo_spec (stop : Nat) (cs : ℤ) (rb : ℚ)
    (hcs : cs + 5 = (stop : ℤ)) (hrb0 : 0 ≤ rb) (hrb : 5 * rb < 60) :
    ∀ (l : List Str) (i : Nat) (t : ℚ),
    (∀ s ∈ l, ∀ ln ∈ splitNl s, m140SPre.isPrefixOf ln → pyFloat? (ln.drop 6) = some 60) →
    (∀ k s, l.get? k = some s → cs ≤ (i : ℤ) + k → ((i : ℤ) + k < (stop : ℤ)) →
        hasM140 (splitNl s) = false) →
    (cs ≤ (i : ℤ) → t = 60 - (((i : ℤ) - cs : ℤ) : ℚ) * rb) →
    ((i : ℤ) < cs → (t = 60 ∨ (t = 0 ∧
        (∃ k s, l.get? k = some s ∧ (i : ℤ) + k < cs ∧ hasM140 (splitNl s) = true)))) →
    ∃ out, bcGo cs stop rb l i t = some out ∧
      out.length = l.length ∧
      ∀ k s, l.get? k = some s →
        out.get? k = some (bcExpected stop cs rb (i + k) s) := by
  intro l
  induction l with
  | nil =>
    intro i t _ _ _ _
    exact ⟨[], rfl, rfl, by intro k s hk; simp at hk⟩
  | cons layer rest ih =>
    intro i t h60 hwin hst1 hst2
    by_cases hstop : stop ≤ i
    · refine ⟨layer :: rest, by simp [bcGo, hstop], rfl, ?_⟩
      intro k s hk
      rw [show bcExpected stop cs rb (i + k) s = s from by
        rw [bcExpected, if_neg]
        rintro ⟨h1, _⟩; omega]
      exact hk
    · have hscan := bcScan_spec (splitNl layer) t
        (h60 layer (List.mem_cons_self layer rest))
      by_cases hwin0 : cs ≤ (i : ℤ)
      · -- inside the window: the layer itself has no bed-temp line
        have hm : hasM140 (splitNl layer) = false :=
          hwin 0 layer (by simp) (by simpa using hwin0) (by push_cast; omega)
        have ht1 : bcScan t (splitNl layer) = some t := by
          rw [hscan, hm]
          simp
        have htval : t = 60 - (((i : ℤ) - cs : ℤ) : ℚ) * rb := hst1 hwin0
        have htpos : 0 < t := by
          rw [htval]
          have hm4 : ((i : ℤ) - cs : ℤ) ≤ 4 := by omega
          have hm0 : (0 : ℤ) ≤ ((i : ℤ) - cs : ℤ) := by omega
          have h4 : (((i : ℤ) - cs : ℤ) : ℚ) ≤ 4 := by exact_mod_cast hm4
          have h0 : (0 : ℚ) ≤ (((i : ℤ) - cs : ℤ) : ℚ) := by exact_mod_cast hm0
          nlinarith
        obtain ⟨out, hout, hlen, hget⟩ := ih (i + 1) (t - rb)
          (fun s hs => h60 s (List.mem_cons_of_mem layer hs))
          (fun k s hk hk1 hk2 => hwin (k + 1) s (by simpa using hk)
            (by push_cast at hk1 ⊢; omega) (by push_cast at hk2 ⊢; omega))
          (fun _ => by rw [htval]; push_cast; ring)
          (fun hlt => absurd hlt (by omega))
        refine ⟨joinNl (pyInsertAt 1 [m140Line (t - rb)] (splitNl layer)) :: out, ?_, by simpa, ?_⟩
        · rw [show bcGo cs stop rb (layer :: rest) i t =
            (match bcGo cs stop rb rest (i + 1) (t - rb) with
              | none => none
              | some out => some (joinNl (pyInsertAt 1 [m140Line (t - rb)] (splitNl layer)) :: out))
            from by simp [bcGo, hstop, ht1, hwin0, htpos]]
          rw [hout]
        · intro k s hk
          cases k with
          | zero =>
            simp only [List.get?] at hk
            injection hk with hk
            subst hk
            simp only [List.get?, Nat.add_zero, Option.some.injEq]
            rw [bcExpected, if_pos ⟨by omega, hwin0⟩]
            congr 3
            rw [htval]
            push_cast
            ring_nf
          | succ k =>
            simp only [List.get?] at hk ⊢
            rw [hget k s hk, show i + 1 + k = i + (k + 1) from by omega]
      · -- before the window: no insertion whatever the temperature
        push_neg at hwin0
        have ht1 : bcScan t (splitNl layer) =
            some (if hasM140 (splitNl layer) then 60 else t) := hscan
        set t1 : ℚ := if hasM140 (splitNl layer) then 60 else t with ht1def
        obtain ⟨out, hout, hlen, hget⟩ := ih (i + 1) t1
          (fun s hs => h60 s (List.mem_cons_of_mem layer hs))
          (fun k s hk hk1 hk2 => hwin (k + 1) s (by simpa using hk)
            (by push_cast at hk1 ⊢; omega) (by push_cast at hk2 ⊢; omega))
          (fun hge => by
            -- reaching the window boundary: the temperature must be 60
            have hieq : (i : ℤ) + 1 = cs := by push_cast at hge ⊢; omega
            have : t1 = 60 := by
              rw [ht1def]
              by_cases hm : hasM140 (splitNl layer)
              · simp [hm]
              · simp only [hm, if_false]
                rcases hst2 hwin0 with h | ⟨_, k, s, hk, hklt, hkm⟩
                · exact h
                · have : k = 0 := by omega
                  subst this
                  simp only [List.get?] at hk
                  injection hk with hk
                  subst hk
                  simp [hkm] at hm
            rw [this, show (((i + 1 : ℕ) : ℤ) - cs : ℤ) = 0 from by push_cast; omega]
            push_cast
            ring_nf)
          (fun hlt => by
            rw [ht1def]
            by_cases hm : hasM140 (splitNl layer)
            · exact Or.inl (by simp [hm])
            · simp only [hm, if_false]
              rcases hst2 hwin0 with h | ⟨ht0, k, s, hk, hklt, hkm⟩
              · exact Or.inl h
              · refine Or.inr ⟨ht0, ?_⟩
                cases k with
                | zero =>
                  simp only [List.get?] at hk
                  injection hk with hk
                  subst hk
                  simp [hkm] at hm
                | succ k =>
                  exact ⟨k, s, by simpa using hk, by push_cast at hklt ⊢; omega, hkm⟩)
        refine ⟨layer :: out, ?_, by simpa, ?_⟩
        · rw [show bcGo cs stop rb (layer :: rest) i t =
            (match bcGo cs stop rb rest (i + 1) t1 with
              | none => none
              | some out => some (joinNl (splitNl layer) :: out))
            from by
              simp only [bcGo, if_neg hstop, ht1]
              rw [if_neg (by rintro ⟨hc, _⟩; exact absurd hc (by omega))]]
          rw [hout, joinNl_splitNl]
        · intro k s hk
          cases k with
          | zero =>
            simp only [List.get?] at hk ⊢
            injection hk with hk
            subst hk
            rw [show bcExpected stop cs rb (i + 0) layer = layer from by
              rw [bcExpected, if_neg]
              rintro ⟨_, hc⟩
              push_cast at hc
              omega]
          | succ k =>
            simp only [List.get?] at hk ⊢
            rw [hget k s hk, show i + 1 + k = i + (k + 1) from by omega]

/-- C1: the claim states that joining the segmented stream reproduces a
well-formed input exactly.  The code does not: its chunk loop ends by
slicing with the failed find result -1 as the upper bound, so the joined
stream is the input with its final character dropped.  On the explicit
well-formed file cFileA (start marker, two layer-change markers, end
marker all present) the round trip loses the final newline. -/
theorem c1_round_trip_loses_last_char :
    (findIn cFileA startMark).isSome = true ∧
    (findIn cFileA nlPat).isSome = true ∧
    (rfindIn cFileA endMark).isSome = true ∧
    joinData (segment cFileA) = cFileA.dropLast ∧
    joinData (segment cFileA) ≠ cFileA := by
  with_unfolding_all decide

/-- C2 counterexample: on the input cFileB, which contains neither the
start-gcode nor the end-gcode marker, the standalone BedCool run does not
report any structural error: segmentation silently yields a degenerate
stream and the run completes, writing back a rewritten file (a bed-temp
line has been inserted and the final character lost), refuting the claim
that the run aborts without producing rewritten output. -/
theorem c2_counterexample_silent_rewrite :
    findIn cFileB startMark = none ∧
    rfindIn cFileB endMark = none ∧
    bcRun 5 1 cFileB = some (( "hello\nM140 S59\nM140 S60\nworld").toList) ∧
    bcRun 5 1 cFileB ≠ some cFileB := by
  with_unfolding_all decide

/-- C3: the claim states that the bed-temp sweep emits a bed-temperature
set command of the kind BedCool scans for (the M140 S form), with a
command word distinct from the nozzle-temp setter.  The code emits
M104 S for both commands: on cTower with start layer 1 the inserted
setter of the bed-temp run is M104 S60, the affected layer contains no
M140 line at all, and the nozzle-temp run inserts the identical setter
line. -/
theorem c3_bed_temp_emits_m104 :
    ((ttExecute ( "bed-temp") 60 5 1 1 cTower).bind (fun o => lineAt o 3 1) =
      some (( "M104 S60").toList)) ∧
    ((ttExecute ( "bed-temp") 60 5 1 1 cTower).map
      (fun o => hasM140 (splitNl (o.getD 3 [])))) = some false ∧
    ((ttExecute ( "bed-temp") 60 5 1 1 cTower).bind (fun o => lineAt o 3 1)) =
      ((ttExecute ( "nozzle-temp") 60 5 1 1 cTower).bind (fun o => lineAt o 3 1)) := by
  with_unfolding_all decide

/-- C4 counterexample: cBed is a nine-layer stream whose only bed-temp
command sets 60 degrees in layer 1, before the five-layer window that
starts at layer 2; the claim requires the value inserted on the final
affected layer (layer 6) to be 56, but the code inserts 55 there and no
M140 S56 line appears in that layer.  On cBedWin, which adds a 60 degree
bed-temp line inside window layer 3 (still satisfying the claim's
hypotheses), layers 2 and 3 both receive 59, refuting strict decrease. -/
theorem c4_counterexample_final_is_55 :
    ((bcExecute 5 1 cBed).bind (fun o => lineAt o 6 1) =
      some (( "M140 S55").toList)) ∧
    ((bcExecute 5 1 cBed).map
      (fun o => decide ((( "M140 S56").toList) ∈ splitNl (o.getD 6 [])))) = some false ∧
    ((bcExecute 5 1 cBedWin).bind (fun o => lineAt o 2 1) =
      some (( "M140 S59").toList)) ∧
    ((bcExecute 5 1 cBedWin).bind (fun o => lineAt o 3 1) =
      some (( "M140 S59").toList)) := by
  with_unfolding_all decide

/-- C5 counterexample: cTemp is a 28-layer stream whose nozzle-temp
lines in the processed region are exactly one 190 (the first) and one
later 210; the run reaches 210 (the emitted values are 190 then 191
through 210), but the number of affected layers (layers whose text
changed) is 19, not 20 as the claim states, because the layer carrying
the 210 request receives both the overwritten 191 and the appended 192. -/
theorem c5_counterexample_19_layers :
    m104ValsUpTo 26 cTemp = [190, 210] ∧
    ((tmExecute 1 cTemp).map (fun o => affectedCount o cTemp)) = some 19 ∧
    m104ValsUpTo 26 ((tmExecute 1 cTemp).getD []) =
      [190, 191, 192, 193, 194, 195, 196, 197, 198, 199, 200,
        201, 202, 203, 204, 205, 206, 207, 208, 209, 210] := by
  with_unfolding_all decide

/-- C9 counterexample: a zero reduce-by is not rejected anywhere on the
standalone path (the option parser has no minimum check); BedCool runs
to completion inserting the unchanged temperature on every window layer,
and TempRamp with a zero increase-by also completes, refuting the claim
that such configurations are rejected before rewriting. -/
theorem c9_counterexample_zero_accepted :
    (bcExecute 5 0 cBed).isSome = true ∧
    ((bcExecute 5 0 cBed).bind (fun o => lineAt o 2 1) =
      some (( "M140 S60").toList)) ∧
    ((bcExecute 5 0 cBed).bind (fun o => lineAt o 6 1) =
      some (( "M140 S60").toList)) ∧
    (tmExecute 0 cTempZero).isSome = true := by
  with_unfolding_all decide

/-- C10: the claim states CoastRetract.execute is total, including on a
layer where a merged-and-deleted retract (a None placeholder) lies
between a later retract and its candidate move, separated only by lines
not starting with G.  On exactly such a layer (cCoastCrash: travel,
retract, comment, retract) the code is not total: the backward scan of
the second retract reaches the None left by the first merge and raises
AttributeError, modelled here by the none result. -/
theorem c10_crash_on_stale_none :
    crExecute [cCoastCrash] = none ∧
    (splitNl cCoastCrash).get? 1 = some (( "G1 E-2 F2400").toList) ∧
    (matchRetractA (( "G1 E-3 F2400").toList)).isSome = true := by
  with_unfolding_all decide

theorem isPrefixOf_append_self (p x : Str) : p.isPrefixOf (p ++ x) = true := by
  induction p with
  | nil => simp [List.isPrefixOf]
  | cons c t ih => simp [List.isPrefixOf, ih]

/-- C4 (amended): with numFinalLayers 5 and reduceBy 1, for every stream
of at least seven layers whose bed-temp-set commands all set 60 degrees,
whose first such command occurs before the final window and with no
bed-temp command inside the processed window (the restriction the code
forces: an in-window 60 degree command resets the ramp, breaking strict
decrease), the run succeeds, every layer outside the window is unchanged,
and window layer (n-7)+k receives exactly one inserted bed-temp command
at line position 1 of value 59-k: the inserted temperatures decrease
strictly by 1 per layer, ending at 55 (not 56 as claimed) on the final
affected layer. -/
theorem c4_amended_window_ramp (data : List Str) (n : Nat) (hn : n = data.length)
    (h7 : 7 ≤ n)
    (h60 : ∀ s ∈ data, ∀ ln ∈ splitNl s, m140SPre.isPrefixOf ln →
      pyFloat? (ln.drop 6) = some 60)
    (hseen : ∃ j s, j < n - 7 ∧ data.get? j = some s ∧ hasM140 (splitNl s) = true)
    (hwin : ∀ i, i < n - 2 → n - 7 ≤ i →
      hasM140 (splitNl ((data.get? i).getD [])) = false) :
    ∃ out, bcExecute 5 1 data = some out ∧ out.length = n ∧
      (∀ i s, data.get? i = some s → i < n - 7 ∨ n - 2 ≤ i → out.get? i = some s) ∧
      (∀ k s, k < 5 → data.get? (n - 7 + k) = some s →
        out.get? (n - 7 + k) =
          some (joinNl (pyInsertAt 1 [m140Line (((59 - k : ℤ) : ℚ))] (splitNl s))) ∧
        (splitNl (joinNl (pyInsertAt 1 [m140Line (((59 - k : ℤ) : ℚ))] (splitNl s)))).countP
          (fun ln => m140SPre.isPrefixOf ln) = 1) := by
  obtain ⟨j0, s0, hj0, hg0, hm0⟩ := hseen
  have hn8 : 8 ≤ n := by omega
  subst hn
  obtain ⟨out, hout, hlen, hget⟩ :=
    bcGo_spec (data.length - 2) ((data.length : ℤ) - 2 - 5) 1
      (by omega) (by norm_num) (by norm_num) data 0 0
      h60
      (fun k s hk hk1 hk2 => by
        have := hwin k (by omega) (by omega)
        rw [hk] at this
        exact this)
      (fun hge => absurd hge (by push_cast; omega))
      (fun _ => Or.inr ⟨rfl, j0, s0, hg0, by push_cast; omega, hm0⟩)
  have hexe : bcExecute 5 1 data = bcGo ((data.length : ℤ) - 2 - 5) (data.length - 2) 1 data 0 0 := by
    simp only [bcExecute]
    norm_num
  refine ⟨out, by rw [hexe, hout], by omega, ?_, ?_⟩
  · intro i s hg hcase
    rw [hget i s hg, show (0 : ℕ) + i = i from by omega]
    rw [show bcExpected (data.length - 2) ((data.length : ℤ) - 2 - 5) 1 i s = s from by
      rw [bcExpected, if_neg]
      rintro ⟨h1, h2⟩
      rcases hcase with hc | hc <;> omega]
  · intro k s hk hg
    have hcond : data.length - 7 + k < data.length - 2 ∧
        ((data.length : ℤ) - 2 - 5) ≤ ((data.length - 7 + k : ℕ) : ℤ) := by
      constructor
      · omega
      · omega
    have hval : (60 : ℚ) - (((((data.length - 7 + k : ℕ) : ℤ)) - ((data.length : ℤ) - 2 - 5) + 1 : ℤ) : ℚ) * 1 =
        ((59 - k : ℤ) : ℚ) := by
      have hz : (((data.length - 7 + k : ℕ) : ℤ)) - ((data.length : ℤ) - 2 - 5) + 1 = k + 1 := by
        omega
      rw [hz]
      push_cast
      ring
    have hout2 : out.get? (data.length - 7 + k) =
        some (joinNl (pyInsertAt 1 [m140Line (((59 - k : ℤ) : ℚ))] (splitNl s))) := by
      rw [hget (data.length - 7 + k) s hg, show (0 : ℕ) + (data.length - 7 + k) = data.length - 7 + k from by omega]
      rw [bcExpected, if_pos hcond, hval]
    refine ⟨hout2, ?_⟩
    obtain ⟨a, t, hsplit⟩ : ∃ a t, splitNl s = a :: t := by
      cases hs : splitNl s with
      | nil => exact absurd hs (splitNl_ne_nil s)
      | cons a t => exact ⟨a, t, rfl⟩
    have hm : hasM140 (splitNl s) = false := by
      have := hwin (data.length - 7 + k) (by omega) (by omega)
      rw [hg] at this
      exact this
    have hcnt : (splitNl s).countP (fun ln => m140SPre.isPrefixOf ln) = 0 :=
      countP_zero_of_not_hasM140 _ hm
    have hid : splitNl (joinNl (pyInsertAt 1 [m140Line (((59 - k : ℤ) : ℚ))] (splitNl s))) =
        pyInsertAt 1 [m140Line (((59 - k : ℤ) : ℚ))] (splitNl s) := by
      apply splitNl_joinNl_id
      · rw [hsplit, pyInsertAt_one]
        simp
      · intro l hl
        rw [hsplit, pyInsertAt_one] at hl
        rcases List.mem_cons.mp hl with hl | hl
        · subst hl
          exact no_nl_of_mem_splitNl s l (by rw [hsplit]; exact List.mem_cons_self l t)
        · rcases List.mem_append.mp hl with hl | hl
          · rw [List.mem_singleton] at hl
            subst hl
            exact no_nl_m140Line _
          · exact no_nl_of_mem_splitNl s l (by rw [hsplit]; exact List.mem_cons_of_mem a hl)
    rw [hid, hsplit, pyInsertAt_one]
    simp only [List.singleton_append]
    rw [List.countP_cons, List.countP_cons]
    rw [hsplit, List.countP_cons] at hcnt
    have hpre : (m140SPre.isPrefixOf (m140Line (((59 - k : ℤ) : ℚ)))) = true := by
      rw [m140Line]
      exact isPrefixOf_append_self _ _
    simp only [hpre, if_true]
    omega

/-- C4 witness: the amended theorem applied to the concrete stream cBed. -/
theorem c4_witness :
    ∃ out, bcExecute 5 1 cBed = some out ∧ out.length = 9 ∧
      (∀ i s, cBed.get? i = some s → i < 9 - 7 ∨ 9 - 2 ≤ i → out.get? i = some s) ∧
      (∀ k s, k < 5 → cBed.get? (9 - 7 + k) = some s →
        out.get? (9 - 7 + k) =
          some (joinNl (pyInsertAt 1 [m140Line (((59 - k : ℤ) : ℚ))] (splitNl s))) ∧
        (splitNl (joinNl (pyInsertAt 1 [m140Line (((59 - k : ℤ) : ℚ))] (splitNl s)))).countP
          (fun ln => m140SPre.isPrefixOf ln) = 1) :=
  c4_amended_window_ramp cBed 9 (by with_unfolding_all decide) (by norm_num)
    (by with_unfolding_all decide)
    ⟨1, ( "s\nM140 S60\n").toList, by norm_num, by with_unfolding_all decide,
      by with_unfolding_all decide⟩
    (by
      intro i h1 h2
      interval_cases i <;> with_unfolding_all decide)

/-- C9 (amended): a zero ramp step is not rejected at configuration time:
the standalone option parser performs no minimum check (the 0.1 and 0.2
minimums live only in the settings metadata read by a hosting UI), so
BedCool with reduceBy 0 runs to completion on any stream satisfying the
usual scan hypotheses, silently inserting a bed-temp command with the
unchanged 60 degree value on every window layer, and TempRamp with
increaseBy 0 likewise runs to completion (shown on the concrete stream
cTempZero). -/
theorem c9_amended_zero_runs_to_completion (data : List Str) (n : Nat)
    (hn : n = data.length) (h7 : 7 ≤ n)
    (h60 : ∀ s ∈ data, ∀ ln ∈ splitNl s, m140SPre.isPrefixOf ln →
      pyFloat? (ln.drop 6) = some 60)
    (hseen : ∃ j s, j < n - 7 ∧ data.get? j = some s ∧ hasM140 (splitNl s) = true)
    (hwin : ∀ i, i < n - 2 → n - 7 ≤ i →
      hasM140 (splitNl ((data.get? i).getD [])) = false) :
    (∃ out, bcExecute 5 0 data = some out ∧ out.length = n ∧
      (∀ k s, k < 5 → data.get? (n - 7 + k) = some s →
        out.get? (n - 7 + k) =
          some (joinNl (pyInsertAt 1 [m140Line 60] (splitNl s))))) ∧
    (tmExecute 0 cTempZero).isSome = true := by
  obtain ⟨j0, s0, hj0, hg0, hm0⟩ := hseen
  have hn8 : 8 ≤ n := by omega
  subst hn
  obtain ⟨out, hout, hlen, hget⟩ :=
    bcGo_spec (data.length - 2) ((data.length : ℤ) - 2 - 5) 0
      (by omega) (by norm_num) (by norm_num) data 0 0
      h60
      (fun k s hk hk1 hk2 => by
        have := hwin k (by omega) (by omega)
        rw [hk] at this
        exact this)
      (fun hge => absurd hge (by push_cast; omega))
      (fun _ => Or.inr ⟨rfl, j0, s0, hg0, by push_cast; omega, hm0⟩)
  have hexe : bcExecute 5 0 data =
      bcGo ((data.length : ℤ) - 2 - 5) (data.length - 2) 0 data 0 0 := by
    simp only [bcExecute]
    norm_num
  refine ⟨⟨out, by rw [hexe, hout], by omega, ?_⟩, by with_unfolding_all decide⟩
  intro k s hk hg
  have hcond : data.length - 7 + k < data.length - 2 ∧
      ((data.length : ℤ) - 2 - 5) ≤ ((data.length - 7 + k : ℕ) : ℤ) := by
    constructor
    · omega
    · omega
  rw [hget (data.length - 7 + k) s hg,
    show (0 : ℕ) + (data.length - 7 + k) = data.length - 7 + k from by omega]
  rw [bcExpected, if_pos hcond]
  congr 4
  ring_nf

/-- C9 witness: the amended theorem applied to the concrete stream cBed. -/
theorem c9_witness :
    (∃ out, bcExecute 5 0 cBed = some out ∧ out.length = 9 ∧
      (∀ k s, k < 5 → cBed.get? (9 - 7 + k) = some s →
        out.get? (9 - 7 + k) =
          some (joinNl (pyInsertAt 1 [m140Line 60] (splitNl s))))) ∧
    (tmExecute 0 cTempZero).isSome = true :=
  c9_amended_zero_runs_to_completion cBed 9 (by with_unfolding_all decide)
    (by norm_num) (by with_unfolding_all decide)
    ⟨1, ( "s\nM140 S60\n").toList, by norm_num, by with_unfolding_all decide,
      by with_unfolding_all decide⟩
    (by
      intro i h1 h2
      interval_cases i <;> with_unfolding_all decide)

/-- C2 (amended): segmentation never reports a structural error.  When
the start marker is missing, find returns -1, the prelude slice silently
keeps the whole file minus its final character, the chunk loop never
runs, and the driver proceeds: the result is always the degenerate
three-entry stream obtained by splitting the shortened text at the end
marker (or, when that is missing too, at its final character), and
joining it reproduces that shortened text, which the run then feeds to
execute and writes back. -/
theorem c2_amended_missing_marker_is_silent (file : Str)
    (h : findIn file startMark = none) :
    segment file = segEnd file.dropLast ∧
    (segment file).length = 3 ∧
    joinData (segment file) = file.dropLast := by
  have hseg : segment file = segEnd file.dropLast := by
    simp only [segment, h]
    simp [List.getLastD]
  have hlen : (segEnd file.dropLast).length = 3 := by
    rw [segEnd]
    rcases h2 : rfindIn file.dropLast endMark with _ | j <;> simp
  have hjoin : joinData (segEnd file.dropLast) = file.dropLast := by
    rw [segEnd]
    rcases h2 : rfindIn file.dropLast endMark with _ | j <;>
      simp [joinData, List.take_append_drop]
  exact ⟨hseg, by rw [hseg]; exact hlen, by rw [hseg]; exact hjoin⟩

/-- C2 witness: the amended theorem applied to the marker-free file
cFileB. -/
theorem c2_witness :
    segment cFileB = segEnd cFileB.dropLast ∧
    (segment cFileB).length = 3 ∧
    joinData (segment cFileB) = cFileB.dropLast :=
  c2_amended_missing_marker_is_silent cFileB (by with_unfolding_all decide)

theorem ttLine_speed (v cp : ℚ) (l : Str) :
    ttLine ( "speed") v cp l = some (l, cp) := rfl

theorem ttLines_speed (v : ℚ) (lines : List Str) :
    ∀ cp, ttLines ( "speed") v lines cp = some (lines, cp) := by
  induction lines with
  | nil => intro cp; rfl
  | cons l ls ih =>
    intro cp
    simp only [ttLines, ttLine_speed, ih cp]

theorem ttGcode_speed (b : Bool) (v : ℚ) :
    ttGcode ( "speed") b v =
      some (some (if b then ( "M220 B\n").toList ++ (( "M220 S").toList ++ intStr (pyRound v))
        else ( "M220 S").toList ++ intStr (pyRound v)),
        ( "M117 Speed ").toList ++ (( "M220 S").toList ++ intStr (pyRound v))) := rfl

theorem ttLayer_speed (vc : ℚ) (sl2 lastIdx i : Nat) (layer : Str) (v cp : ℚ) :
    ttLayer ( "speed") vc 1 sl2 lastIdx i layer v cp =
      some (joinNl (ttSpeedLines sl2 lastIdx i (v + vc) (splitNl layer)), v + vc, cp) := by
  by_cases hsl : i = sl2 <;> by_cases hlast : i = lastIdx <;>
    simp [ttLayer, ttGcode_speed, ttLines_speed, ttSpeedLines, Nat.mod_one, hsl, hlast]

theorem ttGo_speed_spec (vc : ℚ) (sl2 stop lastIdx : Nat) :
    ∀ (l : List Str) (i : Nat) (v cp w : ℚ),
    v = w + ((i - sl2 : ℕ) : ℚ) * vc →
    ∃ out, ttGo ( "speed") vc 1 sl2 stop lastIdx l i v cp = some out ∧
      out.length = l.length ∧
      ∀ k s, l.get? k = some s →
        out.get? k = some (ttSpeedExpected vc w sl2 stop lastIdx (i + k) s) := by
  intro l
  induction l with
  | nil =>
    intro i v cp w _
    exact ⟨[], rfl, rfl, by intro k s hk; simp at hk⟩
  | cons layer rest ih =>
    intro i v cp w hv
    by_cases hstop : stop ≤ i
    · refine ⟨layer :: rest, by simp [ttGo, hstop], rfl, ?_⟩
      intro k s hk
      rw [show ttSpeedExpected vc w sl2 stop lastIdx (i + k) s = s from by
        rw [ttSpeedExpected, if_neg]
        rintro ⟨h1, _⟩; omega]
      exact hk
    · by_cases hsl : i < sl2
      · obtain ⟨out, hout, hlen, hget⟩ := ih (i + 1) v cp w (by
          rw [hv, show i - sl2 = 0 from by omega, show i + 1 - sl2 = 0 from by omega])
        refine ⟨layer :: out, ?_, by simpa, ?_⟩
        · rw [show ttGo ( "speed") vc 1 sl2 stop lastIdx (layer :: rest) i v cp =
            (match ttGo ( "speed") vc 1 sl2 stop lastIdx rest (i + 1) v cp with
              | none => none
              | some out => some (layer :: out)) from by simp [ttGo, hstop, hsl]]
          rw [hout]
        · intro k s hk
          cases k with
          | zero =>
            simp only [List.get?] at hk ⊢
            injection hk with hk
            subst hk
            rw [show ttSpeedExpected vc w sl2 stop lastIdx (i + 0) layer = layer from by
              rw [ttSpeedExpected, if_neg]
              rintro ⟨_, h2⟩; omega]
          | succ k =>
            simp only [List.get?] at hk ⊢
            rw [hget k s hk, show i + 1 + k = i + (k + 1) from by omega]
      · push_neg at hsl
        obtain ⟨out, hout, hlen, hget⟩ := ih (i + 1) (v + vc) cp w (by
          rw [hv, show i + 1 - sl2 = (i - sl2) + 1 from by omega]
          push_cast
          ring)
        refine ⟨joinNl (ttSpeedLines sl2 lastIdx i (v + vc) (splitNl layer)) :: out, ?_,
          by simpa, ?_⟩
        · rw [show ttGo ( "speed") vc 1 sl2 stop lastIdx (layer :: rest) i v cp =
            (match ttGo ( "speed") vc 1 sl2 stop lastIdx rest (i + 1) (v + vc) cp with
              | none => none
              | some out =>
                some (joinNl (ttSpeedLines sl2 lastIdx i (v + vc) (splitNl layer)) :: out))
            from by simp [ttGo, hstop, show ¬ i < sl2 from by omega, ttLayer_speed]]
          rw [hout]
        · intro k s hk
          cases k with
          | zero =>
            simp only [List.get?] at hk ⊢
            injection hk with hk
            subst hk
            rw [show ttSpeedExpected vc w sl2 stop lastIdx (i + 0) layer =
                joinNl (ttSpeedLines sl2 lastIdx (i + 0)
                  (w + ((i + 0 - sl2 + 1 : ℕ) : ℚ) * vc) (splitNl layer)) from by
              rw [ttSpeedExpected, if_pos ⟨by omega, by omega⟩]]
            congr 2
            rw [hv, show i + 0 - sl2 + 1 = (i - sl2) + 1 from by omega]
            push_cast
            ring_nf
          | succ k =>
            simp only [List.get?] at hk ⊢
            rw [hget k s hk, show i + 1 + k = i + (k + 1) from by omega]

theorem mem_insertBeforeLast (x : α) (xs : List α) :
    ∀ y ∈ pyInsertBeforeLast x xs, y = x ∨ y ∈ xs := by
  intro y hy
  simp only [pyInsertBeforeLast] at hy
  rcases List.mem_append.mp hy with h | h
  · rcases List.mem_append.mp h with h | h
    · exact Or.inr (List.take_subset _ _ h)
    · rw [List.mem_singleton] at h
      exact Or.inl h
  · exact Or.inr (List.drop_subset _ _ h)

theorem get1_insertBeforeLast (x a b c : α) (t : List α) :
    (pyInsertBeforeLast x (a :: b :: c :: t)).get? 1 = some b := by
  rw [pyInsertBeforeLast,
    List.get?_append (by simp only [List.length_append, List.length_take,
      List.length_cons, List.length_singleton]; omega),
    List.get?_append (by simp only [List.length_take, List.length_cons]; omega),
    List.get?_take (by simp only [List.length_cons]; omega)]
  rfl

/-- C7: confirmed.  With command speed, startValue 100, valueChange 1,
changeValueEvery 1 and any user start layer sl (offset by the two
reserved leading layers to stream index sl+2), on every stream of at
least sl+6 layers: the run succeeds; layers before the start layer and
the reserved tail are unchanged; the start layer carries, at line
positions 1 to 3, the remember-baseline command M220 B, the value 100
setter and the status line; every later processed layer carries at line
position 1 the setter of value 100 plus its distance from the start
layer (exactly one more per layer); and the third-from-last layer
carries the restore-baseline command M220 R as its second-to-last
line. -/
theorem c7_speed_sweep (data : List Str) (n sl : Nat) (hn : n = data.length)
    (hlen : sl + 6 ≤ n) :
    ∃ out, ttExecute ( "speed") 100 1 1 sl data = some out ∧ out.length = n ∧
      (∀ i s, data.get? i = some s → i < sl + 2 ∨ n - 2 ≤ i → out.get? i = some s) ∧
      (lineAt out (sl + 2) 1 = some (( "M220 B").toList) ∧
        lineAt out (sl + 2) 2 = some (( "M220 S100").toList) ∧
        lineAt out (sl + 2) 3 = some (( "M117 Speed M220 S100").toList)) ∧
      (∀ j, sl + 2 < j → j ≤ n - 3 →
        lineAt out j 1 = some (( "M220 S").toList ++ intStr (100 + (j - (sl + 2))))) ∧
      (∃ o, out.get? (n - 3) = some o ∧
        (splitNl o).get? ((splitNl o).length - 2) = some (( "M220 R").toList)) := by
  subst hn
  obtain ⟨out, hout, hlen2, hget0⟩ := ttGo_speed_spec 1 (sl + 2) (data.length - 2)
    (data.length - 3) data 0 (100 - 1) (-1) (100 - 1)
    (by rw [Nat.zero_sub]; norm_num)
  have hget : ∀ k s, data.get? k = some s →
      out.get? k = some (ttSpeedExpected 1 (100 - 1) (sl + 2) (data.length - 2)
        (data.length - 3) k s) := by
    intro k s hk
    have := hget0 k s hk
    rwa [Nat.zero_add] at this
  refine ⟨out, hout, by omega, ?_, ?_, ?_, ?_⟩
  · -- unchanged layers
    intro i s hg hcase
    rw [hget i s hg]
    rw [show ttSpeedExpected 1 (100 - 1) (sl + 2) (data.length - 2)
        (data.length - 3) i s = s from by
      rw [ttSpeedExpected, if_neg]
      rintro ⟨h1, h2⟩
      rcases hcase with hc | hc <;> omega]
  · -- the start layer
    have hj : sl + 2 < data.length := by omega
    have hs := List.get?_eq_get hj
    have hexp := hget (sl + 2) _ hs
    rw [ttSpeedExpected, if_pos ⟨by omega, le_refl _⟩] at hexp
    obtain ⟨a, t, hsplit⟩ : ∃ a t, splitNl (data.get ⟨sl + 2, hj⟩) = a :: t := by
      cases hs2 : splitNl (data.get ⟨sl + 2, hj⟩) with
      | nil => exact absurd hs2 (splitNl_ne_nil _)
      | cons a t => exact ⟨a, t, rfl⟩
    have hv100 : (100 - 1 : ℚ) + ((sl + 2 - (sl + 2) + 1 : ℕ) : ℚ) * 1 = ((100 : ℤ) : ℚ) := by
      rw [show sl + 2 - (sl + 2) + 1 = 1 from by omega]
      push_cast
      ring
    rw [hv100] at hexp
    have hlines : ttSpeedLines (sl + 2) (data.length - 3) (sl + 2) ((100 : ℤ) : ℚ)
        (splitNl (data.get ⟨sl + 2, hj⟩)) =
        a :: (( "M220 B\nM220 S100").toList :: ( "M117 Speed M220 S100").toList :: t) := by
      simp only [ttSpeedLines, if_pos rfl,
        if_neg (show ¬ sl + 2 = data.length - 3 from by omega)]
      rw [pyRound_intCast, hsplit, pyInsertAt_one]
      rw [show ( "M220 B\n").toList ++ (( "M220 S").toList ++ intStr 100) =
        ( "M220 B\nM220 S100").toList from by decide]
      rw [show ( "M117 Speed ").toList ++ (( "M220 S").toList ++ intStr 100) =
        ( "M117 Speed M220 S100").toList from by decide]
      rfl
    rw [hlines] at hexp
    have hanl : '\n' ∉ a := no_nl_of_mem_splitNl _ a (by rw [hsplit]; exact List.mem_cons_self a t)
    have htnl : ∀ l ∈ t, '\n' ∉ l := fun l hl =>
      no_nl_of_mem_splitNl _ l (by rw [hsplit]; exact List.mem_cons_of_mem a hl)
    have hresplit : splitNl (joinNl (a :: (( "M220 B\nM220 S100").toList ::
        ( "M117 Speed M220 S100").toList :: t))) =
        a :: ( "M220 B").toList :: ( "M220 S100").toList ::
          ( "M117 Speed M220 S100").toList :: t := by
      rw [splitNl_joinNl _ (by simp)]
      simp only [List.map_cons, List.flatten_cons]
      rw [splitNl_of_no_nl a hanl,
        show splitNl (( "M220 B\nM220 S100").toList) =
          [( "M220 B").toList, ( "M220 S100").toList] from by decide,
        show splitNl (( "M117 Speed M220 S100").toList) =
          [( "M117 Speed M220 S100").toList] from by decide,
        flatten_map_splitNl t htnl]
      rfl
    refine ⟨?_, ?_, ?_⟩ <;>
      (rw [lineAt, hexp]; simp only [Option.some_bind]; rw [hresplit]; rfl)
  · -- later qualifying layers: value 100 plus the distance at position 1
    have winkey : ∀ j, sl + 2 < j → j < data.length - 2 → ∃ ls : List Str,
        out.get? j = some (joinNl ls) ∧ splitNl (joinNl ls) = ls ∧
        ls.get? 1 = some (( "M220 S").toList ++ intStr (100 + ((j - (sl + 2) : ℕ) : ℤ))) ∧
        (j = data.length - 3 → ls.get? (ls.length - 2) = some (( "M220 R").toList)) := by
      intro j hj1 hj2
      have hj : j < data.length := by omega
      have hs := List.get?_eq_get hj
      have hexp := hget j _ hs
      rw [ttSpeedExpected, if_pos ⟨by omega, by omega⟩] at hexp
      obtain ⟨a, t, hsplit⟩ : ∃ a t, splitNl (data.get ⟨j, hj⟩) = a :: t := by
        cases hs2 : splitNl (data.get ⟨j, hj⟩) with
        | nil => exact absurd hs2 (splitNl_ne_nil _)
        | cons a t => exact ⟨a, t, rfl⟩
      have hval : (100 - 1 : ℚ) + ((j - (sl + 2) + 1 : ℕ) : ℚ) * 1 =
          ((100 + ((j - (sl + 2) : ℕ) : ℤ) : ℤ) : ℚ) := by
        push_cast
        ring
      rw [hval] at hexp
      set g : Str := ( "M220 S").toList ++ intStr (100 + ((j - (sl + 2) : ℕ) : ℤ)) with hgdef
      have hgnl : '\n' ∉ g := no_nl_append (by decide) (no_nl_intStr _)
      have hanl : '\n' ∉ a :=
        no_nl_of_mem_splitNl _ a (by rw [hsplit]; exact List.mem_cons_self a t)
      have htnl : ∀ l ∈ t, '\n' ∉ l := fun l hl =>
        no_nl_of_mem_splitNl _ l (by rw [hsplit]; exact List.mem_cons_of_mem a hl)
      have hlcdnl : '\n' ∉ ( "M117 Speed ").toList ++ g := no_nl_append (by decide) hgnl
      have hbase : ∀ l ∈ a :: (g :: ((( "M117 Speed ").toList ++ g) :: t)), '\n' ∉ l := by
        intro l hl
        rcases List.mem_cons.mp hl with hl | hl
        · subst hl; exact hanl
        · rcases List.mem_cons.mp hl with hl | hl
          · subst hl; exact hgnl
          · rcases List.mem_cons.mp hl with hl | hl
            · subst hl; exact hlcdnl
            · exact htnl l hl
      have hlines : ttSpeedLines (sl + 2) (data.length - 3) j
          ((100 + ((j - (sl + 2) : ℕ) : ℤ) : ℤ) : ℚ) (splitNl (data.get ⟨j, hj⟩)) =
          (if j = data.length - 3 then
            pyInsertBeforeLast (( "M220 R").toList)
              (a :: (g :: ((( "M117 Speed ").toList ++ g) :: t)))
          else a :: (g :: ((( "M117 Speed ").toList ++ g) :: t))) := by
        simp only [ttSpeedLines, if_neg (show ¬ j = sl + 2 from by omega)]
        rw [pyRound_intCast, hsplit, pyInsertAt_one, hgdef]
        rfl
      rw [hlines] at hexp
      by_cases hlast : j = data.length - 3
      · rw [if_pos hlast] at hexp
        refine ⟨pyInsertBeforeLast (( "M220 R").toList)
          (a :: (g :: ((( "M117 Speed ").toList ++ g) :: t))), hexp, ?_, ?_, ?_⟩
        · apply splitNl_joinNl_id
          · simp [pyInsertBeforeLast]
          · intro l hl
            rcases mem_insertBeforeLast _ _ l hl with hl | hl
            · subst hl; decide
            · exact hbase l hl
        · exact get1_insertBeforeLast _ _ _ _ _
        · intro _
          obtain ⟨hL, hR⟩ := get_insertBeforeLast (( "M220 R").toList)
            (a :: (g :: ((( "M117 Speed ").toList ++ g) :: t))) (by simp)
          rw [hL]
          simpa using hR
      · rw [if_neg hlast] at hexp
        refine ⟨a :: (g :: ((( "M117 Speed ").toList ++ g) :: t)), hexp, ?_, rfl, ?_⟩
        · exact splitNl_joinNl_id _ (by simp) hbase
        · intro hc
          exact absurd hc hlast
    intro j hj1 hj2
    obtain ⟨ls, ho, hsp, h1, _⟩ := winkey j hj1 (by omega)
    rw [lineAt, ho]
    simp only [Option.some_bind]
    rw [hsp]
    rw [show ((j - (sl + 2) : ℕ) : ℤ) = (j : ℤ) - ((sl : ℤ) + 2) from by omega] at h1
    exact h1
  · -- the restore-baseline command on the third-from-last layer
    have winkey2 : ∀ j, sl + 2 < j → j < data.length - 2 → ∃ ls : List Str,
        out.get? j = some (joinNl ls) ∧ splitNl (joinNl ls) = ls ∧
        (j = data.length - 3 → ls.get? (ls.length - 2) = some (( "M220 R").toList)) := by
      intro j hj1 hj2
      have hj : j < data.length := by omega
      have hs := List.get?_eq_get hj
      have hexp := hget j _ hs
      rw [ttSpeedExpected, if_pos ⟨by omega, by omega⟩] at hexp
      obtain ⟨a, t, hsplit⟩ : ∃ a t, splitNl (data.get ⟨j, hj⟩) = a :: t := by
        cases hs2 : splitNl (data.get ⟨j, hj⟩) with
        | nil => exact absurd hs2 (splitNl_ne_nil _)
        | cons a t => exact ⟨a, t, rfl⟩
      have hval : (100 - 1 : ℚ) + ((j - (sl + 2) + 1 : ℕ) : ℚ) * 1 =
          ((100 + ((j - (sl + 2) : ℕ) : ℤ) : ℤ) : ℚ) := by
        push_cast
        ring
      rw [hval] at hexp
      set g : Str := ( "M220 S").toList ++ intStr (100 + ((j - (sl + 2) : ℕ) : ℤ)) with hgdef
      have hgnl : '\n' ∉ g := no_nl_append (by decide) (no_nl_intStr _)
      have hanl : '\n' ∉ a :=
        no_nl_of_mem_splitNl _ a (by rw [hsplit]; exact List.mem_cons_self a t)
      have htnl : ∀ l ∈ t, '\n' ∉ l := fun l hl =>
        no_nl_of_mem_splitNl _ l (by rw [hsplit]; exact List.mem_cons_of_mem a hl)
      have hlcdnl : '\n' ∉ ( "M117 Speed ").toList ++ g := no_nl_append (by decide) hgnl
      have hbase : ∀ l ∈ a :: (g :: ((( "M117 Speed ").toList ++ g) :: t)), '\n' ∉ l := by
        intro l hl
        rcases List.mem_cons.mp hl with hl | hl
        · subst hl; exact hanl
        · rcases List.mem_cons.mp hl with hl | hl
          · subst hl; exact hgnl
          · rcases List.mem_cons.mp hl with hl | hl
            · subst hl; exact hlcdnl
            · exact htnl l hl
      have hlines : ttSpeedLines (sl + 2) (data.length - 3) j
          ((100 + ((j - (sl + 2) : ℕ) : ℤ) : ℤ) : ℚ) (splitNl (data.get ⟨j, hj⟩)) =
          (if j = data.length - 3 then
            pyInsertBeforeLast (( "M220 R").toList)
              (a :: (g :: ((( "M117 Speed ").toList ++ g) :: t)))
          else a :: (g :: ((( "M117 Speed ").toList ++ g) :: t))) := by
        simp only [ttSpeedLines, if_neg (show ¬ j = sl + 2 from by omega)]
        rw [pyRound_intCast, hsplit, pyInsertAt_one, hgdef]
        rfl
      rw [hlines] at hexp
      by_cases hlast : j = data.length - 3
      · rw [if_pos hlast] at hexp
        refine ⟨pyInsertBeforeLast (( "M220 R").toList)
          (a :: (g :: ((( "M117 Speed ").toList ++ g) :: t))), hexp, ?_, ?_⟩
        · apply splitNl_joinNl_id
          · simp [pyInsertBeforeLast]
          · intro l hl
            rcases mem_insertBeforeLast _ _ l hl with hl | hl
            · subst hl; decide
            · exact hbase l hl
        · intro _
          obtain ⟨hL, hR⟩ := get_insertBeforeLast (( "M220 R").toList)
            (a :: (g :: ((( "M117 Speed ").toList ++ g) :: t))) (by simp)
          rw [hL]
          simpa using hR
      · rw [if_neg hlast] at hexp
        refine ⟨a :: (g :: ((( "M117 Speed ").toList ++ g) :: t)), hexp, ?_, ?_⟩
        · exact splitNl_joinNl_id _ (by simp) hbase
        · intro hc
          exact absurd hc hlast
    obtain ⟨ls, ho, hsp, hr⟩ := winkey2 (data.length - 3) (by omega) (by omega)
    refine ⟨joinNl ls, ho, ?_⟩
    rw [hsp]
    exact hr rfl

theorem digitsToNat_cons (c : Char) (l : Str) :
    digitsToNat (c :: l) = digitVal c * 10 ^ l.length + digitsToNat l := by
  have hshift : ∀ (l : Str) (a : Nat),
      l.foldl (fun x d => 10 * x + digitVal d) a =
        a * 10 ^ l.length + l.foldl (fun x d => 10 * x + digitVal d) 0 := by
    intro l
    induction l with
    | nil => intro a; simp
    | cons d t ih =>
      intro a
      simp only [List.foldl_cons, List.length_cons]
      rw [ih (10 * a + digitVal d), ih (10 * 0 + digitVal d)]
      ring
  rw [digitsToNat, List.foldl_cons, hshift]
  simp [digitsToNat]

theorem natDigitsGo_spec (b : Nat) :
    ∀ n acc, n ≤ b → (∀ c ∈ acc, c.isDigit) →
      digitsToNat (natDigitsGo b n acc) = n * 10 ^ acc.length + digitsToNat acc ∧
      (∀ c ∈ natDigitsGo b n acc, c.isDigit) ∧
      ((acc ≠ [] ∨ 0 < n) → natDigitsGo b n acc ≠ []) := by
  induction b with
  | zero =>
    intro n acc hn hacc
    have hn0 : n = 0 := by omega
    subst hn0
    refine ⟨by simp [natDigitsGo], ?_, ?_⟩
    · intro c hc
      exact hacc c (by simpa [natDigitsGo] using hc)
    · rintro (hne | h0)
      · simpa [natDigitsGo] using hne
      · exact absurd h0 (by omega)
  | succ b ih =>
    intro n acc hn hacc
    by_cases hn0 : n = 0
    · subst hn0
      refine ⟨by simp [natDigitsGo], ?_, ?_⟩
      · intro c hc
        exact hacc c (by simpa [natDigitsGo] using hc)
      · rintro (hne | h0)
        · simpa [natDigitsGo] using hne
        · exact absurd h0 (by omega)
    · have hstep : natDigitsGo (b + 1) n acc =
          natDigitsGo b (n / 10) (Char.ofNat (('0').toNat + n % 10) :: acc) := by
        simp [natDigitsGo, hn0]
      have hdiv : n / 10 ≤ b := by
        have := Nat.div_lt_self (Nat.pos_of_ne_zero hn0) (show 1 < 10 from by omega)
        omega
      have hdigc : (Char.ofNat (('0').toNat + n % 10)).isDigit := by
        have hm : n % 10 < 10 := Nat.mod_lt n (by omega)
        have : ∀ d, d < 10 → (Char.ofNat (('0').toNat + d)).isDigit = true := by decide
        exact this (n % 10) hm
      have hacc2 : ∀ c ∈ Char.ofNat (('0').toNat + n % 10) :: acc, c.isDigit := by
        intro c hc
        rcases List.mem_cons.mp hc with hc | hc
        · subst hc; exact hdigc
        · exact hacc c hc
      obtain ⟨hval, hdig, hne⟩ := ih (n / 10) _ hdiv hacc2
      refine ⟨?_, by rw [hstep]; exact hdig,
        by rw [hstep]; exact fun _ => hne (Or.inl (by simp))⟩
      rw [hstep, hval, digitsToNat_cons]
      have hdv : digitVal (Char.ofNat (('0').toNat + n % 10)) = n % 10 := by
        have hm : n % 10 < 10 := Nat.mod_lt n (by omega)
        have : ∀ d, d < 10 → digitVal (Char.ofNat (('0').toNat + d)) = d := by decide
        exact this (n % 10) hm
      have hmod := Nat.div_add_mod n 10
      simp only [List.length_cons, hdv]
      calc n / 10 * 10 ^ (acc.length + 1) + (n % 10 * 10 ^ acc.length + digitsToNat acc)
          = (10 * (n / 10) + n % 10) * 10 ^ acc.length + digitsToNat acc := by ring
        _ = n * 10 ^ acc.length + digitsToNat acc := by rw [hmod]

theorem digitsToNat_natStr (n : Nat) : digitsToNat (natStr n) = n := by
  rw [natStr]
  split
  · next h => subst h; decide
  · next h =>
    obtain ⟨hval, _, _⟩ := natDigitsGo_spec n n [] (le_refl n) (by simp)
    simpa [digitsToNat] using hval

theorem natStr_all_digit (n : Nat) : ∀ c ∈ natStr n, c.isDigit := by
  rw [natStr]
  split
  · intro c hc
    rw [List.mem_singleton] at hc
    subst hc
    decide
  · exact (natDigitsGo_spec n n [] (le_refl n) (by simp)).2.1

theorem natStr_ne_nil (n : Nat) : natStr n ≠ [] := by
  rw [natStr]
  split
  · simp
  · next h =>
    exact (natDigitsGo_spec n n [] (le_refl n) (by simp)).2.2
      (Or.inr (Nat.pos_of_ne_zero h))

theorem not_ws_of_digit (c : Char) (h : c.isDigit = true) : c.isWhitespace = false := by
  have h1 : c ≠ ' ' := fun he => absurd (he ▸ h) (by decide)
  have h2 : c ≠ '\t' := fun he => absurd (he ▸ h) (by decide)
  have h3 : c ≠ '\r' := fun he => absurd (he ▸ h) (by decide)
  have h4 : c ≠ '\n' := fun he => absurd (he ▸ h) (by decide)
  simp [Char.isWhitespace, h1, h2, h3, h4]

theorem strip_id_of_digits (l : Str) (h : ∀ c ∈ l, c.isDigit) :
    ((l.dropWhile Char.isWhitespace).reverse.dropWhile Char.isWhitespace).reverse = l := by
  have h1 : l.dropWhile Char.isWhitespace = l := by
    cases l with
    | nil => rfl
    | cons c t =>
      rw [List.dropWhile_cons_of_neg]
      simp [not_ws_of_digit c (h c (List.mem_cons_self c t))]
  rw [h1]
  have h2 : l.reverse.dropWhile Char.isWhitespace = l.reverse := by
    cases hr : l.reverse with
    | nil => rfl
    | cons c t =>
      rw [List.dropWhile_cons_of_neg]
      have hc : c ∈ l := by
        rw [← List.mem_reverse, hr]
        exact List.mem_cons_self c t
      simp [not_ws_of_digit c (h c hc)]
  rw [h2, List.reverse_reverse]

theorem pyFloat?_natStr (n : Nat) : pyFloat? (natStr n) = some ((n : ℚ)) := by
  have hdig := natStr_all_digit n
  obtain ⟨c, t, hct⟩ : ∃ c t, natStr n = c :: t := by
    cases h : natStr n with
    | nil => exact absurd h (natStr_ne_nil n)
    | cons c t => exact ⟨c, t, rfl⟩
  have habs : pyFloatAbs (natStr n) = some ((n : ℚ)) := by
    rw [pyFloatAbs]
    have htake : (natStr n).takeWhile Char.isDigit = natStr n :=
      List.takeWhile_eq_self_iff.mpr hdig
    have hdrop : (natStr n).dropWhile Char.isDigit = [] :=
      List.dropWhile_eq_nil_iff.mpr hdig
    simp only [htake, hdrop]
    rw [if_neg (by simpa using natStr_ne_nil n)]
    rw [digitsToNat_natStr]
  rw [pyFloat?]
  simp only [strip_id_of_digits (natStr n) hdig]
  split
  · next r heq =>
    rw [hct] at heq
    injection heq with h1 _
    exact absurd (h1 ▸ hdig c (by rw [hct]; exact List.mem_cons_self c t)) (by decide)
  · next r heq =>
    rw [hct] at heq
    injection heq with h1 _
    exact absurd (h1 ▸ hdig c (by rw [hct]; exact List.mem_cons_self c t)) (by decide)
  · next heq _ =>
    exact habs

theorem m104Val_m104Line (m : ℤ) (hm : 0 ≤ m) :
    m104Val (m104Line m) = some (m : ℚ) := by
  rw [m104Val, m104Line, if_pos (isPrefixOf_append_self _ _)]
  rw [show (6 : ℕ) = m104SPre.length from rfl, List.drop_left]
  rw [intStr, if_neg (by omega)]
  rw [pyFloat?_natStr]
  congr 1
  rw [show ((m.toNat : ℕ) : ℚ) = ((m.toNat : ℤ) : ℚ) from (Int.cast_natCast _).symm,
    Int.toNat_of_nonneg hm]

/-- C7 witness: the sweep theorem applied to the six-layer stream cTower
with start layer 0. -/
theorem c7_witness :
    ∃ out, ttExecute ( "speed") 100 1 1 0 cTower = some out ∧ out.length = 6 ∧
      (∀ i s, cTower.get? i = some s → i < 0 + 2 ∨ 6 - 2 ≤ i → out.get? i = some s) ∧
      (lineAt out (0 + 2) 1 = some (( "M220 B").toList) ∧
        lineAt out (0 + 2) 2 = some (( "M220 S100").toList) ∧
        lineAt out (0 + 2) 3 = some (( "M117 Speed M220 S100").toList)) ∧
      (∀ j, 0 + 2 < j → j ≤ 6 - 3 →
        lineAt out j 1 = some (( "M220 S").toList ++ intStr (100 + (j - (0 + 2))))) ∧
      (∃ o, out.get? (6 - 3) = some o ∧
        (splitNl o).get? ((splitNl o).length - 2) = some (( "M220 R").toList)) :=
  c7_speed_sweep cTower 6 0 (by with_unfolding_all decide) (by norm_num)

theorem drop6_m104Line (v : ℤ) : (m104Line v).drop 6 = intStr v := by
  rw [m104Line, show (6 : ℕ) = m104SPre.length from rfl, List.drop_left]

theorem pyFloat?_intStr_nonneg (v : ℤ) (hv : 0 ≤ v) :
    pyFloat? (intStr v) = some ((v : ℚ)) := by
  rw [intStr, if_neg (by omega), pyFloat?_natStr]
  congr 1
  rw [show ((v.toNat : ℕ) : ℚ) = ((v.toNat : ℤ) : ℚ) from (Int.cast_natCast _).symm,
    Int.toNat_of_nonneg hv]

theorem m104Val_quiet (l : Str) (h : m104SPre.isPrefixOf l = false) :
    m104Val l = none := by
  rw [m104Val, if_neg (by simp [h])]

theorem no_nl_m104Line (v : ℤ) : '\n' ∉ m104Line v := by
  rw [m104Line]
  exact no_nl_append (by decide) (no_nl_intStr v)

theorem pyInsertAt_length (i : ℕ) (xs l : List α) (h : i ≤ l.length) :
    (pyInsertAt i xs l).length = l.length + xs.length := by
  simp [pyInsertAt]
  omega

theorem mem_pyInsertAt (x : α) (i : ℕ) (xs l : List α)
    (h : x ∈ pyInsertAt i xs l) : x ∈ xs ∨ x ∈ l := by
  rw [pyInsertAt] at h
  rcases List.mem_append.mp h with h | h
  · rcases List.mem_append.mp h with h | h
    · exact Or.inr (List.mem_of_mem_take h)
    · exact Or.inl h
  · exact Or.inr (List.mem_of_mem_drop h)

theorem pyInsertAt_ne_nil (i : ℕ) (xs l : List α) (h : xs ≠ []) :
    pyInsertAt i xs l ≠ [] := by
  rw [pyInsertAt]
  simp [h]

theorem zip_self_countP (l : List Str) :
    (l.zip l).countP (fun p => !(p.1 == p.2)) = 0 := by
  induction l with
  | nil => rfl
  | cons x t ih =>
    rw [List.zip_cons_cons, List.countP_cons_of_neg]
    · exact ih
    · simp

theorem tmRampOut_length : ∀ (c : ℤ) (ls : List Str),
    (tmRampOut c ls).length = ls.length := by
  intro c ls
  induction ls generalizing c with
  | nil => rfl
  | cons s t ih => simp [tmRampOut, ih]

theorem tmLine_quiet (inc cur tgt : ℚ) (l : Str)
    (h : m104SPre.isPrefixOf l = false) :
    tmLine inc cur tgt l = some (l, cur, tgt) := by
  rw [tmLine, if_neg (by simp [h])]

theorem tmLine_m104 (inc cur tgt : ℚ) (v : ℤ) (hv : 0 ≤ v) :
    tmLine inc cur tgt (m104Line v) =
      (if cur = 0 then some (m104Line v, (v : ℚ), (v : ℚ))
       else if (v : ℚ) ≤ cur + inc then some (m104Line v, (v : ℚ), (v : ℚ))
       else some (m104Line (pyRound (cur + inc)), cur + inc, (v : ℚ))) := by
  have hp : m104SPre.isPrefixOf (m104Line v) = true := by
    rw [m104Line]
    exact isPrefixOf_append_self _ _
  rw [tmLine, if_pos hp, drop6_m104Line, pyFloat?_intStr_nonneg v hv]

theorem tmLines_quiet (inc : ℚ) : ∀ (ls : List Str) (cur tgt : ℚ),
    (∀ l ∈ ls, m104SPre.isPrefixOf l = false) →
    tmLines inc ls cur tgt = some (ls, cur, tgt) := by
  intro ls
  induction ls with
  | nil => intro cur tgt _; rfl
  | cons l t ih =>
    intro cur tgt h
    have h1 := tmLine_quiet inc cur tgt l (h l (List.mem_cons_self l t))
    have h2 := ih cur tgt (fun x hx => h x (List.mem_cons_of_mem l hx))
    simp [tmLines, h1, h2]

theorem tmLines_append (inc : ℚ) : ∀ (xs ys : List Str) (cur tgt : ℚ)
    (xs2 : List Str) (c2 t2 : ℚ) (ys2 : List Str) (c3 t3 : ℚ),
    tmLines inc xs cur tgt = some (xs2, c2, t2) →
    tmLines inc ys c2 t2 = some (ys2, c3, t3) →
    tmLines inc (xs ++ ys) cur tgt = some (xs2 ++ ys2, c3, t3) := by
  intro xs
  induction xs with
  | nil =>
    intro ys cur tgt xs2 c2 t2 ys2 c3 t3 h1 h2
    simp only [tmLines, Option.some.injEq, Prod.mk.injEq] at h1
    obtain ⟨ha, hb, hc⟩ := h1
    subst ha; subst hb; subst hc
    simpa using h2
  | cons l t ih =>
    intro ys cur tgt xs2 c2 t2 ys2 c3 t3 h1 h2
    rw [tmLines] at h1
    split at h1
    · exact absurd h1 (by simp)
    · next l2 st hl =>
      split at h1
      · exact absurd h1 (by simp)
      · next ls2 st2 ht =>
        simp only [Option.some.injEq, Prod.mk.injEq] at h1
        obtain ⟨ha, hb⟩ := h1
        subst ha
        subst hb
        have h3 := ih ys st.1 st.2 ls2 c2 t2 ys2 c3 t3 ht h2
        simp [tmLines, hl, h3]

theorem tmLayer_quiet (inc cur tgt : ℚ) (s : Str) (h : m104Free s)
    (h2 : ¬ cur < tgt) :
    tmLayer inc s cur tgt = some (s, cur, tgt) := by
  rw [tmLayer, tmLines_quiet inc (splitNl s) cur tgt h]
  simp [h2, joinNl_splitNl]

theorem tmLayer_ramp (inc cur tgt : ℚ) (s : Str) (h : m104Free s)
    (h2 : cur < tgt) :
    tmLayer inc s cur tgt =
      some (joinNl (pyInsertAt ((splitNl s).length - 1)
          [m104Line (pyRound (min (cur + inc) tgt))] (splitNl s)),
        min (cur + inc) tgt, tgt) := by
  rw [tmLayer, tmLines_quiet inc (splitNl s) cur tgt h]
  simp [h2]

theorem tmLayer_a (s : Str) (pA sA : List Str)
    (hs : splitNl s = pA ++ m104Line 190 :: sA)
    (hp : ∀ l ∈ pA, m104SPre.isPrefixOf l = false)
    (hq : ∀ l ∈ sA, m104SPre.isPrefixOf l = false) :
    tmLayer 1 s 0 0 = some (s, 190, 190) := by
  have h1 := tmLine_m104 1 0 0 190 (by omega)
  rw [if_pos rfl] at h1
  norm_num at h1
  have hm : tmLines 1 (m104Line 190 :: sA) 0 0 =
      some (m104Line 190 :: sA, 190, 190) := by
    have h2 := tmLines_quiet 1 sA (190:ℚ) (190:ℚ) hq
    simp [tmLines, h1, h2]
  have hlines : tmLines 1 (splitNl s) 0 0 = some (splitNl s, 190, 190) := by
    rw [hs]
    exact tmLines_append 1 pA _ 0 0 pA 0 0 _ 190 190
      (tmLines_quiet 1 pA 0 0 hp) hm
  rw [tmLayer, hlines]
  simp [joinNl_splitNl, lt_irrefl]

theorem tmLayer_b (s : Str) (pB sB : List Str)
    (hs : splitNl s = pB ++ m104Line 210 :: sB)
    (hp : ∀ l ∈ pB, m104SPre.isPrefixOf l = false)
    (hq : ∀ l ∈ sB, m104SPre.isPrefixOf l = false) :
    tmLayer 1 s 190 190 =
      some (joinNl (pyInsertAt ((pB ++ m104Line 191 :: sB).length - 1)
          [m104Line 192] (pB ++ m104Line 191 :: sB)), 192, 210) := by
  have h1 := tmLine_m104 1 190 190 210 (by omega)
  rw [if_neg (by norm_num), if_neg (by norm_num)] at h1
  have hr : pyRound ((190:ℚ) + 1) = 191 := by
    rw [show ((190:ℚ) + 1) = (((191:ℤ)):ℚ) from by norm_num, pyRound_intCast]
  rw [hr] at h1
  norm_num at h1
  have hm : tmLines 1 (m104Line 210 :: sB) 190 190 =
      some (m104Line 191 :: sB, 191, 210) := by
    have h2 := tmLines_quiet 1 sB (191:ℚ) (210:ℚ) hq
    simp [tmLines, h1, h2]
  have hlines : tmLines 1 (splitNl s) 190 190 =
      some (pB ++ m104Line 191 :: sB, 191, 210) := by
    rw [hs]
    exact tmLines_append 1 pB _ 190 190 pB 190 190 _ 191 210
      (tmLines_quiet 1 pB 190 190 hp) hm
  have h4 : min ((191:ℚ) + 1) 210 = (192:ℚ) := by norm_num
  have h5 : pyRound ((192:ℚ)) = 192 := by
    rw [show (192:ℚ) = (((192:ℤ)):ℚ) from by norm_num, pyRound_intCast]
  rw [tmLayer, hlines]
  simp [h4, h5, show (191:ℚ) < 210 from by norm_num]

theorem tmGoF_cons (inc : ℚ) (layer : Str) (rest : List Str) (cur tgt : ℚ)
    (l2 : Str) (c2 t2 : ℚ) (out : List Str) (c3 t3 : ℚ)
    (h1 : tmLayer inc layer cur tgt = some (l2, c2, t2))
    (h2 : tmGoF inc rest c2 t2 = some (out, c3, t3)) :
    tmGoF inc (layer :: rest) cur tgt = some (l2 :: out, c3, t3) := by
  simp [tmGoF, h1, h2]

theorem tmGoF_quiet (inc : ℚ) : ∀ (ls : List Str) (cur tgt : ℚ), ¬ cur < tgt →
    (∀ s ∈ ls, m104Free s) → tmGoF inc ls cur tgt = some (ls, cur, tgt) := by
  intro ls
  induction ls with
  | nil => intro cur tgt _ _; rfl
  | cons s t ih =>
    intro cur tgt h2 h
    exact tmGoF_cons inc s t cur tgt s cur tgt t cur tgt
      (tmLayer_quiet inc cur tgt s (h s (List.mem_cons_self s t)) h2)
      (ih cur tgt h2 (fun x hx => h x (List.mem_cons_of_mem s hx)))

theorem tmGoF_append (inc : ℚ) : ∀ (xs ys : List Str) (cur tgt : ℚ)
    (xs2 : List Str) (c2 t2 : ℚ) (ys2 : List Str) (c3 t3 : ℚ),
    tmGoF inc xs cur tgt = some (xs2, c2, t2) →
    tmGoF inc ys c2 t2 = some (ys2, c3, t3) →
    tmGoF inc (xs ++ ys) cur tgt = some (xs2 ++ ys2, c3, t3) := by
  intro xs
  induction xs with
  | nil =>
    intro ys cur tgt xs2 c2 t2 ys2 c3 t3 h1 h2
    simp only [tmGoF, Option.some.injEq, Prod.mk.injEq] at h1
    obtain ⟨ha, hb, hc⟩ := h1
    subst ha; subst hb; subst hc
    simpa using h2
  | cons l t ih =>
    intro ys cur tgt xs2 c2 t2 ys2 c3 t3 h1 h2
    rw [tmGoF] at h1
    split at h1
    · exact absurd h1 (by simp)
    · next l2 st hl =>
      split at h1
      · exact absurd h1 (by simp)
      · next ls2 st2 ht =>
        simp only [Option.some.injEq, Prod.mk.injEq] at h1
        obtain ⟨ha, hb⟩ := h1
        subst ha
        subst hb
        have h3 := ih ys st.1 st.2 ls2 c2 t2 ys2 c3 t3 ht h2
        simp [tmGoF, hl, h3]

theorem tmGoF_ramp : ∀ (ls : List Str), ls.length ≤ 18 →
    (∀ s ∈ ls, m104Free s) →
    tmGoF 1 ls ((210:ℚ) - ls.length) 210 =
      some (tmRampOut (211 - (ls.length : ℤ)) ls, 210, 210) := by
  intro ls
  induction ls with
  | nil =>
    intro _ _
    simp [tmGoF, tmRampOut]
  | cons s t ih =>
    intro hlen h
    have hlt : (210:ℚ) - ((s :: t).length : ℚ) < 210 := by
      have h0 : (0:ℚ) < (((s :: t).length : ℕ) : ℚ) := by
        exact_mod_cast Nat.succ_pos t.length
      linarith
    have hmin : min (((210:ℚ) - ((s :: t).length : ℚ)) + 1) 210 =
        (((210 - (t.length : ℤ)) : ℤ) : ℚ) := by
      have hle : ((210:ℚ) - ((s :: t).length : ℚ)) + 1 ≤ 210 := by
        have h0 : (0:ℚ) ≤ ((t.length : ℕ) : ℚ) := Nat.cast_nonneg _
        simp only [List.length_cons]
        push_cast
        linarith
      rw [min_eq_left hle]
      simp only [List.length_cons]
      push_cast
      ring
    have hlayer := tmLayer_ramp 1 ((210:ℚ) - ((s :: t).length : ℚ)) 210 s
      (h s (List.mem_cons_self s t)) hlt
    rw [hmin, pyRound_intCast] at hlayer
    have hc : (((210 - (t.length : ℤ)) : ℤ) : ℚ) = (210:ℚ) - (t.length : ℚ) := by
      push_cast
      ring
    rw [hc] at hlayer
    have ihh := ih (by simp at hlen; omega)
      (fun x hx => h x (List.mem_cons_of_mem s hx))
    have hv : (211 - (((s :: t).length : ℕ) : ℤ)) = 210 - (t.length : ℤ) := by
      simp only [List.length_cons]
      push_cast
      ring
    have hv2 : (210 - (t.length : ℤ)) + 1 = 211 - (t.length : ℤ) := by ring
    rw [show tmRampOut (211 - (((s :: t).length : ℕ) : ℤ)) (s :: t) =
        joinNl (pyInsertAt ((splitNl s).length - 1)
          [m104Line (210 - (t.length : ℤ))] (splitNl s)) ::
          tmRampOut (211 - (t.length : ℤ)) t from by
      rw [tmRampOut, hv, hv2]]
    exact tmGoF_cons 1 s t _ 210 _ _ 210 _ 210 210 hlayer ihh

theorem tmGo_quiet_tail (inc : ℚ) (stop : Nat) : ∀ (ls : List Str) (i : Nat)
    (cur tgt : ℚ), ¬ cur < tgt →
    (∀ j l, ls.get? j = some l → i + j < stop → m104Free l) →
    tmGo inc stop ls i cur tgt = some ls := by
  intro ls
  induction ls with
  | nil => intro i cur tgt _ _; rfl
  | cons s t ih =>
    intro i cur tgt hct h
    by_cases hi : stop ≤ i
    · rw [tmGo, if_pos hi]
    · rw [tmGo, if_neg hi]
      have h0 : m104Free s := h 0 s rfl (by omega)
      simp [tmLayer_quiet inc cur tgt s h0 hct,
        ih (i + 1) cur tgt hct (fun j l hj hlt => h (j + 1) l hj (by omega))]

theorem tmGo_of_tmGoF (inc : ℚ) (stop : Nat) : ∀ (xs ys : List Str) (i : Nat)
    (cur tgt : ℚ) (out : List Str) (c2 t2 : ℚ) (out2 : List Str),
    i + xs.length ≤ stop →
    tmGoF inc xs cur tgt = some (out, c2, t2) →
    tmGo inc stop ys (i + xs.length) c2 t2 = some out2 →
    tmGo inc stop (xs ++ ys) i cur tgt = some (out ++ out2) := by
  intro xs
  induction xs with
  | nil =>
    intro ys i cur tgt out c2 t2 out2 hle h1 h2
    simp only [tmGoF, Option.some.injEq, Prod.mk.injEq] at h1
    obtain ⟨ha, hb, hc⟩ := h1
    subst ha; subst hb; subst hc
    simpa using h2
  | cons l t ih =>
    intro ys i cur tgt out c2 t2 out2 hle h1 h2
    rw [tmGoF] at h1
    split at h1
    · exact absurd h1 (by simp)
    · next l2 st hl =>
      split at h1
      · exact absurd h1 (by simp)
      · next ls2 st2 ht =>
        simp only [Option.some.injEq, Prod.mk.injEq] at h1
        obtain ⟨ha, hb⟩ := h1
        subst ha; subst hb
        have hlen : i + 1 + t.length ≤ stop := by simp at hle; omega
        have h2' : tmGo inc stop ys (i + 1 + t.length) c2 t2 = some out2 := by
          rw [show i + 1 + t.length = i + (t.length + 1) from by omega]
          simpa using h2
        have h3 := ih ys (i + 1) st.1 st.2 ls2 c2 t2 out2 hlen ht h2'
        have hi : ¬ stop ≤ i := by simp at hle; omega
        simp [tmGo, if_neg hi, hl, h3]

theorem filterMap_m104_quiet (ls : List Str)
    (h : ∀ l ∈ ls, m104SPre.isPrefixOf l = false) :
    ls.filterMap m104Val = [] := by
  rw [List.filterMap_eq_nil]
  exact fun a ha => m104Val_quiet a (h a ha)

theorem flatten_vals_quiet (P : List Str) (h : ∀ s ∈ P, m104Free s) :
    (P.map (fun s => (splitNl s).filterMap m104Val)).flatten = [] := by
  induction P with
  | nil => rfl
  | cons s t ih =>
    simp only [List.map_cons, List.flatten_cons]
    rw [filterMap_m104_quiet _ (h s (List.mem_cons_self s t)),
      ih (fun x hx => h x (List.mem_cons_of_mem s hx))]
    rfl

theorem filterMap_m104_single (v : ℤ) (hv : 0 ≤ v) (p s : List Str)
    (hp : ∀ l ∈ p, m104SPre.isPrefixOf l = false)
    (hq : ∀ l ∈ s, m104SPre.isPrefixOf l = false) :
    (p ++ m104Line v :: s).filterMap m104Val = [((v : ℤ) : ℚ)] := by
  have hm := m104Val_m104Line v hv
  rw [List.filterMap_append, filterMap_m104_quiet p hp]
  simp [List.filterMap_cons, hm, filterMap_m104_quiet s hq]

theorem pyInsertAt_concat (xs L' : List α) (z : α) :
    pyInsertAt ((L' ++ [z]).length - 1) xs (L' ++ [z]) = L' ++ xs ++ [z] := by
  rw [pyInsertAt, show (L' ++ [z]).length - 1 = L'.length from by simp,
    List.take_left, List.drop_left]

theorem vals_ramp_layer (c : ℤ) (hc : 0 ≤ c) (s : Str) (h : m104Free s) :
    (splitNl (joinNl (pyInsertAt ((splitNl s).length - 1)
        [m104Line c] (splitNl s)))).filterMap m104Val = [((c : ℤ) : ℚ)] := by
  obtain ⟨L', z, hLz⟩ : ∃ L' z, splitNl s = L' ++ [z] := by
    rcases List.eq_nil_or_concat (splitNl s) with h0 | ⟨L', z, h0⟩
    · exact absurd h0 (splitNl_ne_nil s)
    · exact ⟨L', z, by rw [h0, List.concat_eq_append]⟩
  have hnl : ∀ l ∈ L' ++ [m104Line c] ++ [z], '\n' ∉ l := by
    intro l hl
    rcases List.mem_append.mp hl with hl | hl
    · rcases List.mem_append.mp hl with hl | hl
      · exact no_nl_of_mem_splitNl s l (by rw [hLz]; exact List.mem_append_left _ hl)
      · rw [List.mem_singleton] at hl; subst hl; exact no_nl_m104Line c
    · rw [List.mem_singleton] at hl
      subst hl
      exact no_nl_of_mem_splitNl s l
        (by rw [hLz]; exact List.mem_append_right _ (List.mem_singleton_self l))
  have hL' : ∀ l ∈ L', m104SPre.isPrefixOf l = false := fun l hl =>
    h l (by rw [hLz]; exact List.mem_append_left _ hl)
  have hz : ∀ l ∈ [z], m104SPre.isPrefixOf l = false := by
    intro l hl
    rw [List.mem_singleton] at hl
    subst hl
    exact h l (by rw [hLz]; exact List.mem_append_right _ (List.mem_singleton_self l))
  rw [hLz, pyInsertAt_concat, splitNl_joinNl_id _ (by simp) hnl, List.append_assoc]
  exact filterMap_m104_single c hc L' [z] hL' hz

theorem m104Vals_tmRampOut : ∀ (ls : List Str) (c : ℤ), 0 ≤ c →
    (∀ s ∈ ls, m104Free s) →
    ((tmRampOut c ls).map (fun s => (splitNl s).filterMap m104Val)).flatten =
      (List.range ls.length).map (fun (j : ℕ) => ((c + (j : ℤ)) : ℚ)) := by
  intro ls
  induction ls with
  | nil => intro c _ _; rfl
  | cons s t ih =>
    intro c hc h
    rw [tmRampOut]
    simp only [List.map_cons, List.flatten_cons, List.length_cons]
    rw [vals_ramp_layer c hc s (h s (List.mem_cons_self s t)),
      ih (c + 1) (by omega) (fun x hx => h x (List.mem_cons_of_mem s hx)),
      List.range_succ_eq_map, List.map_cons, List.map_map, List.singleton_append]
    congr 1
    · push_cast
      ring
    · congr 1
      funext j
      simp only [Function.comp]
      push_cast
      ring

theorem ramp_layer_ne (c : ℤ) (s : Str) :
    joinNl (pyInsertAt ((splitNl s).length - 1) [m104Line c] (splitNl s)) ≠ s := by
  intro he
  have h1 : splitNl (joinNl (pyInsertAt ((splitNl s).length - 1)
      [m104Line c] (splitNl s))) =
      pyInsertAt ((splitNl s).length - 1) [m104Line c] (splitNl s) := by
    apply splitNl_joinNl_id
    · exact pyInsertAt_ne_nil _ _ _ (by simp)
    · intro l hl
      rcases mem_pyInsertAt l _ _ _ hl with hl | hl
      · rw [List.mem_singleton] at hl; subst hl; exact no_nl_m104Line c
      · exact no_nl_of_mem_splitNl s l hl
  rw [he] at h1
  have h2 := congrArg List.length h1
  rw [pyInsertAt_length _ _ _ (by omega)] at h2
  simp at h2

theorem tmRampOut_zip_count : ∀ (ls : List Str) (c : ℤ),
    ((tmRampOut c ls).zip ls).countP (fun p => !(p.1 == p.2)) = ls.length := by
  intro ls
  induction ls with
  | nil => intro c; rfl
  | cons s t ih =>
    intro c
    rw [tmRampOut, List.zip_cons_cons, List.countP_cons_of_pos]
    · rw [ih (c + 1)]
      simp
    · simp [ramp_layer_ne c s]

theorem countP_ne_cons_eq (a : Str) (l : List (Str × Str)) :
    ((a, a) :: l).countP (fun p => !(p.1 == p.2)) =
      l.countP (fun p => !(p.1 == p.2)) := by
  rw [List.countP_cons_of_neg]
  simp

theorem countP_ne_cons_ne (x y : Str) (hxy : x ≠ y) (l : List (Str × Str)) :
    ((x, y) :: l).countP (fun p => !(p.1 == p.2)) =
      l.countP (fun p => !(p.1 == p.2)) + 1 := by
  rw [List.countP_cons_of_pos]
  simp [hxy]

/-- C5 (amended): with increase-by 1, for every stream made of a quiet
prelude, a layer whose single nozzle-temp line sets 190, quiet layers, a
layer whose single nozzle-temp line requests 210 (not as its last line),
eighteen further quiet processed layers and a quiet processed remainder,
the run succeeds, the emitted nozzle temperatures in stream order are
exactly 190, 191, ..., 210 (monotonic non-decreasing, increasing by at
most 1 per step, reaching 210), and the number of affected layers is
exactly 19 - not 20 as the claim states - because the layer carrying the
210 request receives both the overwritten 191 and the inserted 192. -/
theorem c5_amended (P Q R1 R2 : List Str) (La Lb : Str) (pA sA pB sB : List Str)
    (data : List Str)
    (hdata : data = P ++ (La :: (Q ++ (Lb :: (R1 ++ R2)))))
    (hstop : P.length + Q.length + 20 ≤ data.length - 2)
    (hR1len : R1.length = 18)
    (hP : ∀ s ∈ P, m104Free s) (hQ : ∀ s ∈ Q, m104Free s)
    (hR1 : ∀ s ∈ R1, m104Free s)
    (hR2 : ∀ s ∈ R2.take (data.length - 2 - (P.length + Q.length + 20)),
      m104Free s)
    (hLa : splitNl La = pA ++ m104Line 190 :: sA)
    (hpA : ∀ l ∈ pA, m104SPre.isPrefixOf l = false)
    (hsA : ∀ l ∈ sA, m104SPre.isPrefixOf l = false)
    (hLb : splitNl Lb = pB ++ m104Line 210 :: sB)
    (hpB : ∀ l ∈ pB, m104SPre.isPrefixOf l = false)
    (hsB : ∀ l ∈ sB, m104SPre.isPrefixOf l = false)
    (hsBne : sB ≠ []) :
    ∃ out, tmExecute 1 data = some out ∧
      m104ValsUpTo (data.length - 2) out =
        [190, 191, 192, 193, 194, 195, 196, 197, 198, 199, 200,
          201, 202, 203, 204, 205, 206, 207, 208, 209, 210] ∧
      List.Chain' (fun x y => x ≤ y ∧ y ≤ x + 1)
        (m104ValsUpTo (data.length - 2) out) ∧
      (m104ValsUpTo (data.length - 2) out).getLast? = some 210 ∧
      affectedCount out data = 19 := by
  have hga : tmLayer 1 La 0 0 = some (La, 190, 190) :=
    tmLayer_a La pA sA hLa hpA hsA
  have hgb := tmLayer_b Lb pB sB hLb hpB hsB
  obtain ⟨sB', z, hsBz⟩ : ∃ sB' z, sB = sB' ++ [z] := by
    rcases List.eq_nil_or_concat sB with h0 | ⟨sB', z, h0⟩
    · exact absurd h0 hsBne
    · exact ⟨sB', z, by rw [h0, List.concat_eq_append]⟩
  have hgR1 : tmGoF 1 R1 192 210 = some (tmRampOut 193 R1, 210, 210) := by
    have h0 := tmGoF_ramp R1 (by rw [hR1len]) hR1
    rw [hR1len] at h0
    norm_num at h0
    exact h0
  have h1 : tmGoF 1 (Lb :: R1) 190 190 =
      some (joinNl (pyInsertAt ((pB ++ m104Line 191 :: sB).length - 1)
          [m104Line 192] (pB ++ m104Line 191 :: sB)) :: tmRampOut 193 R1,
        210, 210) :=
    tmGoF_cons 1 Lb R1 190 190 _ 192 210 _ 210 210 hgb hgR1
  have h2 := tmGoF_append 1 Q (Lb :: R1) 190 190 Q 190 190 _ 210 210
    (tmGoF_quiet 1 Q 190 190 (lt_irrefl 190) hQ) h1
  have h3 := tmGoF_cons 1 La (Q ++ (Lb :: R1)) 0 0 La 190 190 _ 210 210 hga h2
  have h4 := tmGoF_append 1 P (La :: (Q ++ (Lb :: R1))) 0 0 P 0 0 _ 210 210
    (tmGoF_quiet 1 P 0 0 (lt_irrefl 0) hP) h3
  have hlenPre : (P ++ (La :: (Q ++ (Lb :: R1)))).length =
      P.length + Q.length + 20 := by
    simp only [List.length_append, List.length_cons, hR1len]
    omega
  have hquiet2 : ∀ j l, R2.get? j = some l →
      0 + (P ++ (La :: (Q ++ (Lb :: R1)))).length + j < data.length - 2 →
      m104Free l := by
    intro j l hj hlt
    rw [hlenPre] at hlt
    have hk : j < data.length - 2 - (P.length + Q.length + 20) := by omega
    exact hR2 l (List.get?_mem (by rw [List.get?_take hk]; exact hj))
  have htail : tmGo 1 (data.length - 2) R2
      (0 + (P ++ (La :: (Q ++ (Lb :: R1)))).length) 210 210 = some R2 :=
    tmGo_quiet_tail 1 (data.length - 2) R2 _ 210 210 (lt_irrefl 210) hquiet2
  have hdata2 : data = (P ++ (La :: (Q ++ (Lb :: R1)))) ++ R2 := by
    rw [hdata]
    simp [List.append_assoc]
  have hrun : tmExecute 1 data =
      some ((P ++ (La :: (Q ++
          (joinNl (pyInsertAt ((pB ++ m104Line 191 :: sB).length - 1)
            [m104Line 192] (pB ++ m104Line 191 :: sB)) :: tmRampOut 193 R1))))
        ++ R2) := by
    have hgo := tmGo_of_tmGoF 1 (data.length - 2) (P ++ (La :: (Q ++ (Lb :: R1))))
      R2 0 0 0 _ 210 210 R2 (by rw [hlenPre]; omega) h4 htail
    rw [← hdata2] at hgo
    rw [tmExecute]
    exact hgo
  refine ⟨_, hrun, ?_⟩
  set Lb2 := joinNl (pyInsertAt ((pB ++ m104Line 191 :: sB).length - 1)
    [m104Line 192] (pB ++ m104Line 191 :: sB)) with hLb2def
  set OUT := (P ++ (La :: (Q ++ (Lb2 :: tmRampOut 193 R1)))) ++ R2 with hOUTdef
  have hlenPre2 : (P ++ (La :: (Q ++ (Lb2 :: tmRampOut 193 R1)))).length =
      P.length + Q.length + 20 := by
    simp only [List.length_append, List.length_cons, tmRampOut_length, hR1len]
    omega
  have hsplitLb2 : splitNl Lb2 =
      pyInsertAt ((pB ++ m104Line 191 :: sB).length - 1)
        [m104Line 192] (pB ++ m104Line 191 :: sB) := by
    apply splitNl_joinNl_id
    · exact pyInsertAt_ne_nil _ _ _ (by simp)
    · intro l hl
      rcases mem_pyInsertAt l _ _ _ hl with hl | hl
      · rw [List.mem_singleton] at hl; subst hl; exact no_nl_m104Line 192
      · rcases List.mem_append.mp hl with hl | hl
        · exact no_nl_of_mem_splitNl Lb l
            (by rw [hLb]; exact List.mem_append_left _ hl)
        · rcases List.mem_cons.mp hl with hl | hl
          · subst hl; exact no_nl_m104Line 191
          · refine no_nl_of_mem_splitNl Lb l ?_
            rw [hLb]
            exact List.mem_append_right _ (List.mem_cons_of_mem _ hl)
  have hLavals : (splitNl La).filterMap m104Val = [(190:ℚ)] := by
    rw [hLa]
    have h0 := filterMap_m104_single 190 (by omega) pA sA hpA hsA
    simpa using h0
  have hLb2vals : (splitNl Lb2).filterMap m104Val = [(191:ℚ), (192:ℚ)] := by
    rw [hsplitLb2]
    have hsh : pB ++ m104Line 191 :: sB =
        (pB ++ m104Line 191 :: sB') ++ [z] := by
      rw [hsBz]
      simp [List.append_assoc]
    rw [hsh, pyInsertAt_concat]
    have hsB' : ∀ l ∈ sB', m104SPre.isPrefixOf l = false := fun l hl =>
      hsB l (by rw [hsBz]; exact List.mem_append_left _ hl)
    have hz : m104SPre.isPrefixOf z = false := by
      refine hsB z ?_
      rw [hsBz]
      exact List.mem_append_right _ (List.mem_singleton_self z)
    rw [List.append_assoc, List.filterMap_append,
      filterMap_m104_single 191 (by omega) pB sB' hpB hsB']
    have h0 := m104Val_m104Line 192 (by omega)
    simp [List.filterMap_cons, h0, m104Val_quiet z hz]
  have hrampvals : ((tmRampOut 193 R1).map
      (fun s => (splitNl s).filterMap m104Val)).flatten =
      [(193:ℚ), 194, 195, 196, 197, 198, 199, 200, 201, 202, 203, 204,
        205, 206, 207, 208, 209, 210] := by
    rw [m104Vals_tmRampOut R1 193 (by omega) hR1, hR1len]
    with_unfolding_all decide
  have hR2' : ∀ s ∈ R2.take (data.length - 2 -
      (P ++ (La :: (Q ++ (Lb2 :: tmRampOut 193 R1)))).length), m104Free s := by
    rw [hlenPre2]
    exact hR2
  have htake : OUT.take (data.length - 2) =
      (P ++ (La :: (Q ++ (Lb2 :: tmRampOut 193 R1)))) ++
        R2.take (data.length - 2 -
          (P ++ (La :: (Q ++ (Lb2 :: tmRampOut 193 R1)))).length) := by
    rw [hOUTdef, List.take_append_eq_append_take]
    congr 1
    apply List.take_of_length_le
    rw [hlenPre2]
    omega
  have hvals : m104ValsUpTo (data.length - 2) OUT =
      [190, 191, 192, 193, 194, 195, 196, 197, 198, 199, 200,
        201, 202, 203, 204, 205, 206, 207, 208, 209, 210] := by
    rw [m104ValsUpTo, htake]
    simp only [List.map_append, List.map_cons, List.flatten_append,
      List.flatten_cons]
    rw [flatten_vals_quiet P hP, hLavals, flatten_vals_quiet Q hQ, hLb2vals,
      hrampvals, flatten_vals_quiet _ hR2']
    rfl
  refine ⟨hvals, by rw [hvals]; norm_num [List.chain'_cons],
    by rw [hvals]; rfl, ?_⟩
  have hLb2ne : Lb2 ≠ Lb := by
    intro he
    have h0 := congrArg List.length (he ▸ hsplitLb2)
    rw [pyInsertAt_length _ _ _ (by omega), hLb] at h0
    simp at h0
  rw [affectedCount, hOUTdef, hdata2]
  rw [List.zip_append (by rw [hlenPre2, hlenPre])]
  rw [List.countP_append, zip_self_countP]
  rw [List.zip_append rfl]
  rw [List.countP_append, zip_self_countP]
  rw [List.zip_cons_cons, countP_ne_cons_eq]
  rw [List.zip_append rfl]
  rw [List.countP_append, zip_self_countP]
  rw [List.zip_cons_cons, countP_ne_cons_ne Lb2 Lb hLb2ne]
  rw [tmRampOut_zip_count R1 193, hR1len]

/-- C5 witness: the amended ramp theorem applied to the 28-layer stream
cTemp, whose 190 request sits in layer 1 and whose 210 request in layer
3, with eighteen quiet ramp-era layers and a quiet processed remainder. -/
theorem c5_witness :
    ∃ out, tmExecute 1 cTemp = some out ∧
      m104ValsUpTo (cTemp.length - 2) out =
        [190, 191, 192, 193, 194, 195, 196, 197, 198, 199, 200,
          201, 202, 203, 204, 205, 206, 207, 208, 209, 210] ∧
      List.Chain' (fun x y => x ≤ y ∧ y ≤ x + 1)
        (m104ValsUpTo (cTemp.length - 2) out) ∧
      (m104ValsUpTo (cTemp.length - 2) out).getLast? = some 210 ∧
      affectedCount out cTemp = 19 :=
  c5_amended
    [( "p\n").toList]
    [( ";LAYER_CHANGE\na\n").toList]
    ((List.range 18).map (fun _ => ( ";LAYER_CHANGE\nG1 X1 Y1\n").toList))
    ((List.range 4).map (fun _ => ( ";LAYER_CHANGE\nG1 X1 Y1\n").toList) ++
      [( "end\n").toList, []])
    (( "s\nM104 S190\n").toList)
    (( ";LAYER_CHANGE\nM104 S210\nb\n").toList)
    [( "s").toList] [[]]
    [( ";LAYER_CHANGE").toList] [( "b").toList, []]
    cTemp
    (by with_unfolding_all decide)
    (by with_unfolding_all decide)
    (by with_unfolding_all decide)
    (by with_unfolding_all decide)
    (by with_unfolding_all decide)
    (by with_unfolding_all decide)
    (by with_unfolding_all decide)
    (by with_unfolding_all decide)
    (by with_unfolding_all decide)
    (by with_unfolding_all decide)
    (by with_unfolding_all decide)
    (by with_unfolding_all decide)
    (by with_unfolding_all decide)
    (by with_unfolding_all decide)

theorem ne_marker_of_head (l : Str) (c : Char) (hc : c ≠ ';')
    (h : l.head? = some c) : l ≠ markerLine := by
  intro he
  rw [he] at h
  have h2 : markerLine.head? = some ';' := by decide
  rw [h2] at h
  exact hc (Option.some.injEq _ _ ▸ h.symm ▸ rfl)

theorem markersOnly_of_tail (ls : List Str)
    (h : ∀ l ∈ ls.tail, l ≠ markerLine) : markersOnlyAtHead ls := by
  intro j hj
  cases ls with
  | nil => simp at hj
  | cons a t =>
    cases j with
    | zero => rfl
    | succ k =>
      exact absurd rfl (h markerLine (List.get?_mem hj))

theorem tail_of_markersOnly (ls : List Str) (h : markersOnlyAtHead ls) :
    ∀ l ∈ ls.tail, l ≠ markerLine := by
  intro l hl he
  subst he
  cases ls with
  | nil => simp at hl
  | cons a t =>
    obtain ⟨k, hk⟩ := List.get?_of_mem hl
    exact Nat.succ_ne_zero k (h (k + 1) hk)

theorem markerCount_of_only_head (ls : List Str) (h : markersOnlyAtHead ls) :
    markerCount ls = if ls.head? = some markerLine then 1 else 0 := by
  cases ls with
  | nil => rfl
  | cons a t =>
    have ht : t.countP (fun l => l == markerLine) = 0 := by
      rw [List.countP_eq_zero]
      intro l hl
      simp only [beq_iff_eq, decide_eq_true_eq]
      exact tail_of_markersOnly (a :: t) h l hl
    rw [markerCount, List.countP_cons, ht]
    simp only [List.head?_cons]
    by_cases ha : a = markerLine
    · subst ha; simp
    · simp [ha]

theorem markerPreserved_of (a b : Str)
    (ha : markersOnlyAtHead (splitNl a)) (hb : markersOnlyAtHead (splitNl b))
    (hh : (splitNl b).head? = some markerLine ↔
      (splitNl a).head? = some markerLine) :
    markerPreserved a b := by
  refine ⟨hh, hb, ?_⟩
  rw [markerCount_of_only_head _ hb, markerCount_of_only_head _ ha]
  exact if_congr hh rfl rfl

theorem markerPreserved_refl (a : Str) (ha : markersOnlyAtHead (splitNl a)) :
    markerPreserved a a := markerPreserved_of a a ha ha Iff.rfl

theorem head?_flatten_splitNl (a : Str) (t : List Str) :
    (((a :: t).map splitNl).flatten).head? = (splitNl a).head? := by
  simp only [List.map_cons, List.flatten_cons]
  cases h : splitNl a with
  | nil => exact absurd h (splitNl_ne_nil a)
  | cons x xs => simp

theorem tail_flatten_splitNl_sub (a : Str) (t : List Str) (l : Str)
    (hl : l ∈ (((a :: t).map splitNl).flatten).tail) :
    l ∈ (splitNl a).tail ∨ ∃ e ∈ t, l ∈ splitNl e := by
  simp only [List.map_cons, List.flatten_cons] at hl
  obtain ⟨x, xs, hxs⟩ : ∃ x xs, splitNl a = x :: xs := by
    cases h : splitNl a with
    | nil => exact absurd h (splitNl_ne_nil a)
    | cons x xs => exact ⟨x, xs, rfl⟩
  rw [hxs] at hl
  rw [List.cons_append, List.tail_cons] at hl
  rcases List.mem_append.mp hl with hl | hl
  · left
    rw [hxs]
    exact hl
  · right
    obtain ⟨m, hm, hlm⟩ := List.mem_flatten.mp hl
    obtain ⟨e, he, hme⟩ := List.mem_map.mp hm
    exact ⟨e, he, hme ▸ hlm⟩

theorem marker_facts_of_entries (orig : Str) (e0 : Str) (es : List Str)
    (hhead : ((splitNl e0).head? = some markerLine ↔
      (splitNl orig).head? = some markerLine))
    (htail0 : ∀ l ∈ (splitNl e0).tail, l ≠ markerLine)
    (hes : ∀ e ∈ es, ∀ l ∈ splitNl e, l ≠ markerLine)
    (horig : markersOnlyAtHead (splitNl orig)) :
    markerPreserved orig (joinNl (e0 :: es)) := by
  have hflat : splitNl (joinNl (e0 :: es)) = ((e0 :: es).map splitNl).flatten :=
    splitNl_joinNl _ (by simp)
  have htl : ∀ l ∈ (splitNl (joinNl (e0 :: es))).tail, l ≠ markerLine := by
    intro l hl
    rw [hflat] at hl
    rcases tail_flatten_splitNl_sub e0 es l hl with h | ⟨e, he, hle⟩
    · exact htail0 l h
    · exact hes e he l hle
  refine markerPreserved_of orig _ horig (markersOnly_of_tail _ htl) ?_
  rw [hflat, head?_flatten_splitNl]
  exact hhead

theorem head?_m140Line (q : ℚ) : (m140Line q).head? = some 'M' := rfl

theorem head?_m104Line (v : ℤ) : (m104Line v).head? = some 'M' := rfl

theorem splitNl_mem_eq (layer e : Str) (he : e ∈ splitNl layer) :
    splitNl e = [e] :=
  splitNl_of_no_nl e (no_nl_of_mem_splitNl layer e he)

theorem bc_layer_marker (layer : Str) (t2 : ℚ)
    (hw : markersOnlyAtHead (splitNl layer)) :
    markerPreserved layer
      (joinNl (pyInsertAt 1 [m140Line t2] (splitNl layer))) := by
  obtain ⟨o0, orest, ho⟩ : ∃ o0 orest, splitNl layer = o0 :: orest := by
    cases h : splitNl layer with
    | nil => exact absurd h (splitNl_ne_nil layer)
    | cons x xs => exact ⟨x, xs, rfl⟩
  rw [ho, pyInsertAt_one]
  have h0mem : o0 ∈ splitNl layer := by rw [ho]; exact List.mem_cons_self o0 orest
  have hsp0 : splitNl o0 = [o0] := splitNl_mem_eq layer o0 h0mem
  apply marker_facts_of_entries layer o0 ([m140Line t2] ++ orest) _ _ _ hw
  · rw [hsp0, ho]
    simp
  · rw [hsp0]
    simp
  · intro e he l hle
    rcases List.mem_append.mp he with he | he
    · rw [List.mem_singleton] at he
      subst he
      rw [splitNl_of_no_nl _ (no_nl_m140Line t2), List.mem_singleton] at hle
      subst hle
      exact ne_marker_of_head _ 'M' (by decide) (head?_m140Line t2)
    · rw [splitNl_mem_eq layer e
        (by rw [ho]; exact List.mem_cons_of_mem o0 he), List.mem_singleton] at hle
      subst hle
      refine tail_of_markersOnly _ hw l ?_
      rw [ho]
      exact he

theorem bcGo_marker (cs : ℤ) (stop : Nat) (rb : ℚ) : ∀ (ls : List Str)
    (i : Nat) (t : ℚ) (out : List Str),
    (∀ s ∈ ls, markersOnlyAtHead (splitNl s)) →
    bcGo cs stop rb ls i t = some out →
    out.length = ls.length ∧
    ∀ j a b, ls.get? j = some a → out.get? j = some b → markerPreserved a b := by
  intro ls
  induction ls with
  | nil =>
    intro i t out _ hrun
    simp only [bcGo, Option.some.injEq] at hrun
    subst hrun
    exact ⟨rfl, fun j a b ha _ => by simp at ha⟩
  | cons s rest ih =>
    intro i t out hwf hrun
    have hids : ∀ (o : List Str), o = s :: rest →
        o.length = (s :: rest).length ∧
        ∀ j a b, (s :: rest).get? j = some a → o.get? j = some b →
          markerPreserved a b := by
      intro o he
      subst he
      refine ⟨rfl, fun j a b ha hb => ?_⟩
      rw [ha] at hb
      obtain rfl : a = b := (Option.some.injEq _ _).mp hb
      refine markerPreserved_refl a (hwf a (List.get?_mem ha))
    rw [bcGo] at hrun
    split at hrun
    · exact hids out ((Option.some.injEq _ _).mp hrun).symm
    · split at hrun
      · exact absurd hrun (by simp)
      · next t1 hscan =>
        split at hrun
        · simp only [] at hrun
          split at hrun
          · exact absurd hrun (by simp)
          · next out2 hrec =>
            have hout : out = joinNl (pyInsertAt 1 [m140Line (t1 - rb)]
                (splitNl s)) :: out2 :=
              ((Option.some.injEq _ _).mp hrun).symm
            subst hout
            obtain ⟨hlen, hpt⟩ := ih (i + 1) (t1 - rb) out2
              (fun x hx => hwf x (List.mem_cons_of_mem s hx)) hrec
            refine ⟨by simp [hlen], fun j a b ha hb => ?_⟩
            cases j with
            | zero =>
              have has : s = a := (Option.some.injEq _ _).mp ha
              have hbs : joinNl (pyInsertAt 1 [m140Line (t1 - rb)]
                  (splitNl s)) = b := (Option.some.injEq _ _).mp hb
              subst has
              subst hbs
              exact bc_layer_marker s (t1 - rb) (hwf s (List.mem_cons_self s rest))
            | succ k => exact hpt k a b ha hb
        · split at hrun
          · exact absurd hrun (by simp)
          · next out2 hrec =>
            have hout : out = joinNl (splitNl s) :: out2 :=
              ((Option.some.injEq _ _).mp hrun).symm
            subst hout
            obtain ⟨hlen, hpt⟩ := ih (i + 1) t1 out2
              (fun x hx => hwf x (List.mem_cons_of_mem s hx)) hrec
            refine ⟨by simp [hlen], fun j a b ha hb => ?_⟩
            cases j with
            | zero =>
              have has : s = a := (Option.some.injEq _ _).mp ha
              have hbs : joinNl (splitNl s) = b := (Option.some.injEq _ _).mp hb
              subst has
              subst hbs
              rw [joinNl_splitNl]
              exact markerPreserved_refl s (hwf s (List.mem_cons_self s rest))
            | succ k => exact hpt k a b ha hb

theorem forall2_mem_right {α β : Type} {R : α → β → Prop} :
    ∀ {ls : List α} {ls2 : List β}, List.Forall₂ R ls ls2 →
    ∀ l2 ∈ ls2, ∃ l ∈ ls, R l l2 := by
  intro ls ls2 hf
  induction hf with
  | nil => intro l2 h; simp at h
  | cons hr hf2 ih =>
    intro l2 h
    rcases List.mem_cons.mp h with h | h
    · subst h
      exact ⟨_, List.mem_cons_self _ _, hr⟩
    · obtain ⟨l, hl, hrl⟩ := ih l2 h
      exact ⟨l, List.mem_cons_of_mem _ hl, hrl⟩

theorem insert_last_entries_marker (orig g e0 : Str) (es : List Str)
    (hgnl : '\n' ∉ g) (hgne : g ≠ markerLine)
    (hh : ((splitNl e0).head? = some markerLine ↔
      (splitNl orig).head? = some markerLine))
    (ht0 : ∀ l ∈ (splitNl e0).tail, l ≠ markerLine)
    (hes : ∀ e ∈ es, ∀ l ∈ splitNl e, l ≠ markerLine)
    (horig : markersOnlyAtHead (splitNl orig))
    (hdeg : es = [] → (splitNl orig).head? ≠ some markerLine) :
    markerPreserved orig
      (joinNl (pyInsertAt ((e0 :: es).length - 1) [g] (e0 :: es))) := by
  rcases List.eq_nil_or_concat es with he | ⟨es2, z, he⟩
  · subst he
    have hsh : pyInsertAt ((([e0] : List Str)).length - 1) [g] [e0] = [g, e0] := by
      simp [pyInsertAt]
    rw [hsh]
    apply marker_facts_of_entries orig g [e0] _ _ _ horig
    · rw [splitNl_of_no_nl g hgnl]
      simp only [List.head?_cons, Option.some.injEq]
      constructor
      · intro hgm
        exact absurd hgm hgne
      · intro hom
        exact absurd hom (hdeg rfl)
    · rw [splitNl_of_no_nl g hgnl]
      simp
    · intro e he l hle
      rw [List.mem_singleton] at he
      subst he
      obtain ⟨x, xs, hx⟩ : ∃ x xs, splitNl e = x :: xs := by
        cases h0 : splitNl e with
        | nil => exact absurd h0 (splitNl_ne_nil e)
        | cons x xs => exact ⟨x, xs, rfl⟩
      rw [hx] at hle
      rcases List.mem_cons.mp hle with h0 | h0
      · subst h0
        intro hm
        refine hdeg rfl (hh.mp ?_)
        rw [hx, hm]
        rfl
      · refine ht0 l ?_
        rw [hx]
        exact h0
  · subst he
    simp only [List.concat_eq_append] at hes hdeg ⊢
    have hsh : pyInsertAt ((e0 :: (es2 ++ [z])).length - 1) [g]
        (e0 :: (es2 ++ [z])) = e0 :: (es2 ++ [g] ++ [z]) := by
      have h1 : e0 :: (es2 ++ [z]) = (e0 :: es2) ++ [z] := by simp
      rw [h1, pyInsertAt_concat]
      simp
    rw [hsh]
    apply marker_facts_of_entries orig e0 (es2 ++ [g] ++ [z]) hh ht0 _ horig
    intro e he l hle
    rcases List.mem_append.mp he with he | he
    · rcases List.mem_append.mp he with he | he
      · exact hes e (List.mem_append_left _ he) l hle
      · rw [List.mem_singleton] at he
        subst he
        rw [splitNl_of_no_nl e hgnl, List.mem_singleton] at hle
        subst hle
        exact hgne
    · rw [List.mem_singleton] at he
      subst he
      exact hes e (List.mem_append_right _ (List.mem_singleton_self e)) l hle

theorem head_of_m104_prefixed (l : Str) (h : m104SPre.isPrefixOf l = true) :
    l.head? = some 'M' := by
  cases l with
  | nil => exact absurd h (by decide)
  | cons c t =>
    rw [show m104SPre = 'M' :: ( "104 S").toList from rfl] at h
    simp only [List.isPrefixOf, Bool.and_eq_true, beq_iff_eq] at h
    rw [List.head?_cons, ← h.1]

theorem tmLine_shape (inc cur tgt : ℚ) (l l2 : Str) (st : ℚ × ℚ)
    (h : tmLine inc cur tgt l = some (l2, st)) :
    l2 = l ∨ ((∃ v : ℤ, l2 = m104Line v) ∧ l.head? = some 'M') := by
  rw [tmLine] at h
  split at h
  · next hpre =>
    split at h
    · exact absurd h (by simp)
    · next q hq =>
      split at h
      · left
        exact (congrArg Prod.fst ((Option.some.injEq _ _).mp h)).symm
      · split at h
        · left
          exact (congrArg Prod.fst ((Option.some.injEq _ _).mp h)).symm
        · right
          refine ⟨⟨pyRound (cur + inc),
            (congrArg Prod.fst ((Option.some.injEq _ _).mp h)).symm⟩, ?_⟩
          exact head_of_m104_prefixed l hpre
  · left
    exact (congrArg Prod.fst ((Option.some.injEq _ _).mp h)).symm

theorem tmLines_shape (inc : ℚ) : ∀ (ls : List Str) (cur tgt : ℚ)
    (ls2 : List Str) (st : ℚ × ℚ),
    tmLines inc ls cur tgt = some (ls2, st) →
    List.Forall₂ (fun l l2 =>
      l2 = l ∨ ((∃ v : ℤ, l2 = m104Line v) ∧ l.head? = some 'M')) ls ls2 := by
  intro ls
  induction ls with
  | nil =>
    intro cur tgt ls2 st h
    simp only [tmLines, Option.some.injEq, Prod.mk.injEq] at h
    rw [← h.1]
    exact List.Forall₂.nil
  | cons l t ih =>
    intro cur tgt ls2 st h
    rw [tmLines] at h
    split at h
    · exact absurd h (by simp)
    · next l2 st1 hl =>
      split at h
      · exact absurd h (by simp)
      · next t2 st2 ht =>
        simp only [Option.some.injEq, Prod.mk.injEq] at h
        rw [← h.1]
        exact List.Forall₂.cons (tmLine_shape inc cur tgt l l2 st1 hl)
          (ih _ _ t2 st2 ht)

theorem tm_lines2_facts (layer : Str) (lines2 : List Str)
    (hw : markersOnlyAtHead (splitNl layer))
    (hf : List.Forall₂ (fun l l2 =>
      l2 = l ∨ ((∃ v : ℤ, l2 = m104Line v) ∧ l.head? = some 'M'))
      (splitNl layer) lines2) :
    ∃ e0 es, lines2 = e0 :: es ∧ '\n' ∉ e0 ∧
      ((splitNl e0).head? = some markerLine ↔
        (splitNl layer).head? = some markerLine) ∧
      (∀ l ∈ (splitNl e0).tail, l ≠ markerLine) ∧
      (∀ e ∈ es, ∀ l ∈ splitNl e, l ≠ markerLine) := by
  obtain ⟨o0, orest, ho⟩ : ∃ o0 orest, splitNl layer = o0 :: orest := by
    cases h0 : splitNl layer with
    | nil => exact absurd h0 (splitNl_ne_nil layer)
    | cons x xs => exact ⟨x, xs, rfl⟩
  rw [ho] at hf
  cases hf with
  | cons hr hf2 =>
    next e0 es =>
    have hnl0 : '\n' ∉ e0 := by
      rcases hr with he | ⟨⟨v, he⟩, _⟩
      · subst he
        exact no_nl_of_mem_splitNl layer e0 (ho ▸ List.mem_cons_self _ _)
      · subst he
        exact no_nl_m104Line v
    have hsp0 : splitNl e0 = [e0] := splitNl_of_no_nl e0 hnl0
    refine ⟨e0, es, rfl, hnl0, ?_, by rw [hsp0]; simp, ?_⟩
    · rw [hsp0, ho]
      simp only [List.head?_cons, Option.some.injEq]
      rcases hr with he | ⟨⟨v, he⟩, hM⟩
      · subst he
        exact Iff.rfl
      · subst he
        have h1 : m104Line v ≠ markerLine :=
          ne_marker_of_head _ 'M' (by decide) (head?_m104Line v)
        have h2 : o0 ≠ markerLine := ne_marker_of_head _ 'M' (by decide) hM
        simp [h1, h2]
    · intro e he l hle
      obtain ⟨l0, hl0, hrl⟩ := forall2_mem_right hf2 e he
      have hnle : '\n' ∉ e := by
        rcases hrl with h0 | ⟨⟨v, h0⟩, _⟩
        · subst h0
          exact no_nl_of_mem_splitNl layer e (ho ▸ List.mem_cons_of_mem _ hl0)
        · subst h0
          exact no_nl_m104Line v
      rw [splitNl_of_no_nl e hnle, List.mem_singleton] at hle
      subst hle
      rcases hrl with h0 | ⟨⟨v, h0⟩, _⟩
      · subst h0
        refine tail_of_markersOnly _ hw l ?_
        rw [ho]
        exact hl0
      · subst h0
        exact ne_marker_of_head _ 'M' (by decide) (head?_m104Line v)

theorem tmLayer_marker (inc : ℚ) (layer : Str) (cur tgt : ℚ) (ol : Str)
    (st : ℚ × ℚ) (hw : wfLayer layer)
    (h : tmLayer inc layer cur tgt = some (ol, st)) :
    markerPreserved layer ol := by
  rw [tmLayer] at h
  split at h
  · exact absurd h (by simp)
  · next lines2 st1 hlines =>
    have hf := tmLines_shape inc (splitNl layer) cur tgt lines2 st1 hlines
    have hlen2 := hf.length_eq
    obtain ⟨e0, es, hsplit, hnl0, hh, ht0, hes⟩ :=
      tm_lines2_facts layer lines2 hw.1 hf
    split at h
    · simp only [] at h
      simp only [Option.some.injEq, Prod.mk.injEq] at h
      rw [← h.1, hsplit]
      refine insert_last_entries_marker layer _ e0 es
        (no_nl_m104Line _)
        (ne_marker_of_head _ 'M' (by decide) (head?_m104Line _))
        hh ht0 hes hw.1 ?_
      intro hesnil hhead
      have h2 := hw.2 hhead
      rw [hlen2, hsplit, hesnil] at h2
      simp at h2
    · simp only [Option.some.injEq, Prod.mk.injEq] at h
      rw [← h.1, hsplit]
      exact marker_facts_of_entries layer e0 es hh ht0 hes hw.1

theorem tmGo_marker (inc : ℚ) (stop : Nat) : ∀ (ls : List Str) (i : Nat)
    (cur tgt : ℚ) (out : List Str),
    (∀ s ∈ ls, wfLayer s) →
    tmGo inc stop ls i cur tgt = some out →
    out.length = ls.length ∧
    ∀ j a b, ls.get? j = some a → out.get? j = some b → markerPreserved a b := by
  intro ls
  induction ls with
  | nil =>
    intro i cur tgt out _ hrun
    simp only [tmGo, Option.some.injEq] at hrun
    subst hrun
    exact ⟨rfl, fun j a b ha _ => by simp at ha⟩
  | cons s rest ih =>
    intro i cur tgt out hwf hrun
    rw [tmGo] at hrun
    split at hrun
    · have he : out = s :: rest := ((Option.some.injEq _ _).mp hrun).symm
      subst he
      refine ⟨rfl, fun j a b ha hb => ?_⟩
      rw [ha] at hb
      have he2 : a = b := (Option.some.injEq _ _).mp hb
      subst he2
      exact markerPreserved_refl a ((hwf a (List.get?_mem ha)).1)
    · split at hrun
      · exact absurd hrun (by simp)
      · next l2 st hl =>
        split at hrun
        · exact absurd hrun (by simp)
        · next out2 hrec =>
          have hout : out = l2 :: out2 := ((Option.some.injEq _ _).mp hrun).symm
          subst hout
          obtain ⟨hlen, hpt⟩ := ih (i + 1) st.1 st.2 out2
            (fun x hx => hwf x (List.mem_cons_of_mem s hx)) hrec
          refine ⟨by simp [hlen], fun j a b ha hb => ?_⟩
          cases j with
          | zero =>
            have has : s = a := (Option.some.injEq _ _).mp ha
            have hbs : l2 = b := (Option.some.injEq _ _).mp hb
            subst has
            subst hbs
            exact tmLayer_marker inc s cur tgt l2 st
              (hwf s (List.mem_cons_self s rest)) hl
          | succ k => exact hpt k a b ha hb

theorem no_nl_padZeros (k : Nat) (l : Str) (h : '\n' ∉ l) :
    '\n' ∉ padZeros k l := by
  intro hm
  rcases List.mem_append.mp hm with hm | hm
  · exact absurd (List.eq_of_mem_replicate hm) (by decide)
  · exact h hm

theorem no_nl_fmtFixed (prec : Nat) (q : ℚ) : '\n' ∉ fmtFixed prec q := by
  rw [fmtFixed]
  intro hm
  rcases List.mem_append.mp hm with hm | hm
  · rcases List.mem_append.mp hm with hm | hm
    · split at hm
      · rw [List.mem_singleton] at hm
        exact absurd hm (by decide)
      · simp at hm
    · exact no_nl_natStr _ hm
  · rcases List.mem_cons.mp hm with hm | hm
    · exact absurd hm (by decide)
    · exact no_nl_padZeros _ _ (no_nl_natStr _) hm

theorem mem_rstripChar (c : Char) (s : Str) : ∀ x ∈ rstripChar c s, x ∈ s := by
  intro x hx
  rw [rstripChar, List.mem_reverse] at hx
  have h2 := (List.dropWhile_sublist _).subset hx
  rw [List.mem_reverse] at h2
  exact h2

theorem head?_rstripChar (c c2 : Char) (s : Str) (hne : c2 ≠ c)
    (h : s.head? = some c2) : (rstripChar c s).head? = some c2 := by
  have hpre : (rstripChar c s).IsPrefix s := by
    rw [rstripChar]
    have hsuf : (s.reverse.dropWhile (fun d => d = c)) <:+ s.reverse :=
      List.dropWhile_suffix _
    obtain ⟨t, ht⟩ := hsuf
    refine ⟨t.reverse, ?_⟩
    have := congrArg List.reverse ht
    simpa using this
  have hne2 : rstripChar c s ≠ [] := by
    intro he
    rw [rstripChar] at he
    have h0 : s.reverse.dropWhile (fun d => d = c) = [] := by
      have := congrArg List.reverse he
      simpa using this
    rw [List.dropWhile_eq_nil_iff] at h0
    have hc2 : c2 ∈ s.reverse := by
      rw [List.mem_reverse]
      cases s with
      | nil => simp at h
      | cons a t =>
        rw [List.head?_cons, Option.some.injEq] at h
        rw [← h]
        exact List.mem_cons_self a t
    have := h0 c2 hc2
    simp at this
    exact hne this
  obtain ⟨t, ht⟩ := hpre
  cases hr : rstripChar c s with
  | nil => exact absurd hr hne2
  | cons x xs =>
    rw [hr] at ht
    rw [← ht] at h
    rw [List.cons_append, List.head?_cons] at h
    rw [List.head?_cons]
    exact h

theorem matchTravelA_facts (l g : Str) (h : matchTravelA l = some g) :
    '\n' ∉ g ∧ l.head? = some 'G' := by
  unfold matchTravelA at h
  split at h
  · next rest =>
    simp only [] at h
    split at h
    · exact absurd h (by simp)
    · refine ⟨?_, rfl⟩
      have hg : rest.takeWhile (fun c => decide (c ≠ '\n')) = g :=
        (Option.some.injEq _ _).mp h
      rw [← hg]
      intro hm
      have h2 := List.mem_takeWhile_imp hm
      simp at h2
  · exact absurd h (by simp)

theorem matchRetractA_head (l : Str) (p : Str × Str)
    (h : matchRetractA l = some p) : l.head? = some 'G' := by
  unfold matchRetractA at h
  split at h
  · rfl
  · exact absurd h (by simp)

theorem matchPrimeA_head (l : Str) (p : Str × Str)
    (h : matchPrimeA l = some p) : l.head? = some 'G' := by
  unfold matchPrimeA at h
  split at h
  · rfl
  · exact absurd h (by simp)

theorem crMerge_shape (aStr sStr g n : Str) (hgnl : '\n' ∉ g)
    (h : crMerge aStr sStr g = some n) : '\n' ∉ n ∧ n.head? = some 'G' := by
  rw [crMerge] at h
  split at h
  · next amt spd _ _ =>
    have hn : n = rstripChar '.' (rstripChar '0'
        (( "G1 F").toList ++ intStr (pyRound spd) ++ ' ' ::
          (g ++ ( " E").toList ++ fmtFixed 3 amt))) :=
      ((Option.some.injEq _ _).mp h).symm
    have hxnl : '\n' ∉ (( "G1 F").toList ++ intStr (pyRound spd) ++ ' ' ::
        (g ++ ( " E").toList ++ fmtFixed 3 amt)) := by
      intro hm
      rcases List.mem_append.mp hm with hm | hm
      · rcases List.mem_append.mp hm with hm | hm
        · exact absurd hm (by decide)
        · exact no_nl_intStr _ hm
      · rcases List.mem_cons.mp hm with hm | hm
        · exact absurd hm (by decide)
        · rcases List.mem_append.mp hm with hm | hm
          · rcases List.mem_append.mp hm with hm | hm
            · exact hgnl hm
            · exact absurd hm (by decide)
          · exact no_nl_fmtFixed 3 amt hm
    constructor
    · rw [hn]
      intro hm
      exact hxnl (mem_rstripChar '0' _ _ (mem_rstripChar '.' _ _ hm))
    · rw [hn]
      refine head?_rstripChar '.' 'G' _ (by decide) ?_
      refine head?_rstripChar '0' 'G' _ (by decide) ?_
      rfl
  · exact absurd h (by simp)

theorem crFindTarget_spec : ∀ (k : Nat) (lines : List (Option Str)) (j : Nat)
    (g : Str), crFindTarget lines k = some (some (j, g)) →
    ∃ s, lines.get? j = some (some s) ∧ matchTravelA s = some g := by
  intro k
  induction k with
  | zero =>
    intro lines j g h
    simp [crFindTarget] at h
  | succ k ih =>
    intro lines j g h
    rw [crFindTarget] at h
    split at h
    · simp at h
    · simp at h
    · next s hsget =>
      split at h
      · split at h
        · simp at h
        · split at h
          · simp at h
          · next g2 hmt =>
            simp only [Option.some.injEq, Prod.mk.injEq] at h
            obtain ⟨hj, hg⟩ := h
            exact ⟨s, by rw [← hj]; exact hsget, by rw [← hg]; exact hmt⟩
      · exact ih lines j g h

theorem forall2_set {α β : Type} {R : α → β → Prop} :
    ∀ (xs : List α) (ys : List β) (j : Nat) (v : β),
    List.Forall₂ R xs ys → (∀ x, xs.get? j = some x → R x v) →
    List.Forall₂ R xs (ys.set j v) := by
  intro xs ys j v hf
  induction hf generalizing j with
  | nil => intro _; exact List.Forall₂.nil
  | cons hr hf2 ih =>
    intro hv
    cases j with
    | zero =>
      rw [List.set_cons_zero]
      exact List.Forall₂.cons (hv _ rfl) hf2
    | succ k =>
      rw [List.set_cons_succ]
      exact List.Forall₂.cons hr (ih k (fun x hx => hv x hx))

theorem forall2_get?_right {α β : Type} {R : α → β → Prop} :
    ∀ {xs : List α} {ys : List β}, List.Forall₂ R xs ys →
    ∀ j v, ys.get? j = some v → ∃ x, xs.get? j = some x ∧ R x v := by
  intro xs ys hf
  induction hf with
  | nil => intro j v h; simp at h
  | cons hr hf2 ih =>
    intro j v h
    cases j with
    | zero =>
      have he : _ = v := (Option.some.injEq _ _).mp h
      exact ⟨_, rfl, he ▸ hr⟩
    | succ k => exact ih k v h

theorem forall2_map_some {α : Type} {R : α → Option α → Prop}
    (hR : ∀ x, R x (some x)) : ∀ (ls : List α), List.Forall₂ R ls (ls.map some) := by
  intro ls
  induction ls with
  | nil => exact List.Forall₂.nil
  | cons a t ih => exact List.Forall₂.cons (hR a) ih

theorem crGoF_inv : ∀ (b : Nat) (origs : List Str)
    (lines : List (Option Str)) (idx : Nat) (out : List (Option Str)),
    List.Forall₂ (fun o e => e = some o ∨ (o.head? = some 'G' ∧
      ∀ s, e = some s → (s.head? = some 'G' ∧ '\n' ∉ s))) origs lines →
    crGoF b lines idx = some out →
    List.Forall₂ (fun o e => e = some o ∨ (o.head? = some 'G' ∧
      ∀ s, e = some s → (s.head? = some 'G' ∧ '\n' ∉ s))) origs out := by
  intro b
  induction b with
  | zero =>
    intro origs lines idx out hf h
    simp only [crGoF, Option.some.injEq] at h
    rw [← h]
    exact hf
  | succ b ih =>
    intro origs lines idx out hf h
    rw [crGoF] at h
    split at h
    · next hidx =>
      split at h
      · exact absurd h (by simp)
      · next line hline =>
        split at h
        · exact ih origs lines (idx + 1) out hf h
        · next aStr sStr hmr =>
          split at h
          · exact absurd h (by simp)
          · exact ih origs lines (idx + 1) out hf h
          · next j g hft =>
            split at h
            · exact absurd h (by simp)
            · next newLine hcm =>
              refine ih origs _ (idx + 1) out ?_ h
              obtain ⟨s, hsget, hmt⟩ := crFindTarget_spec idx lines j g hft
              obtain ⟨hgnl, hshead⟩ := matchTravelA_facts s g hmt
              obtain ⟨hnnl, hnhead⟩ := crMerge_shape aStr sStr g newLine hgnl hcm
              have hlineget : lines.get? idx = some (some line) := by
                rw [← hline]
                exact (List.get?_eq_get hidx).symm ▸ rfl
              have hlinehead : line.head? = some 'G' :=
                matchRetractA_head line _ hmr
              have hf1 : List.Forall₂ (fun o e => e = some o ∨
                  (o.head? = some 'G' ∧ ∀ s2, e = some s2 →
                    (s2.head? = some 'G' ∧ '\n' ∉ s2))) origs
                  (lines.set j (some newLine)) := by
                refine forall2_set origs lines j (some newLine) hf ?_
                intro x hx
                obtain ⟨x2, hx2, hr2⟩ := forall2_get?_right hf j (some s) hsget
                have hxx : x2 = x := by
                  rw [hx2] at hx
                  exact (Option.some.injEq _ _).mp hx
                subst hxx
                right
                refine ⟨?_, fun s2 hs2 => by
                  rw [(Option.some.injEq _ _).mp hs2.symm]
                  exact ⟨hnhead, hnnl⟩⟩
                rcases hr2 with he | ⟨hG, _⟩
                · have hxs : s = x2 := (Option.some.injEq _ _).mp he
                  rw [← hxs]
                  exact hshead
                · exact hG
              refine forall2_set origs _ idx none hf1 ?_
              intro x hx
              obtain ⟨x2, hx2, hr2⟩ := forall2_get?_right hf idx (some line) hlineget
              have hxx : x2 = x := by
                rw [hx2] at hx
                exact (Option.some.injEq _ _).mp hx
              subst hxx
              right
              refine ⟨?_, fun s2 hs2 => absurd hs2 (by simp)⟩
              rcases hr2 with he | ⟨hG, _⟩
              · have hxs : line = x2 := (Option.some.injEq _ _).mp he
                rw [← hxs]
                exact hlinehead
              · exact hG
    · simp only [Option.some.injEq] at h
      rw [← h]
      exact hf

theorem crLayer_marker (layer ol : Str) (hw : wfLayer layer)
    (h : crLayer layer = some ol) : markerPreserved layer ol := by
  rw [crLayer] at h
  split at h
  · exact absurd h (by simp)
  · next lines2 hgo =>
    have hol : joinNl (lines2.filterMap id) = ol := (Option.some.injEq _ _).mp h
    have hinit : List.Forall₂ (fun o e => e = some o ∨ (o.head? = some 'G' ∧
        ∀ s, e = some s → (s.head? = some 'G' ∧ '\n' ∉ s))) (splitNl layer)
        ((splitNl layer).map some) :=
      forall2_map_some (fun x => Or.inl rfl) (splitNl layer)
    rw [crGo] at hgo
    have hinv := crGoF_inv _ (splitNl layer) _ 0 lines2 hinit hgo
    obtain ⟨o0, orest, ho⟩ : ∃ o0 orest, splitNl layer = o0 :: orest := by
      cases h0 : splitNl layer with
      | nil => exact absurd h0 (splitNl_ne_nil layer)
      | cons x xs => exact ⟨x, xs, rfl⟩
    have hsafe_all : ∀ x, (some x) ∈ lines2 →
        (∀ ox ∈ splitNl layer, ox ≠ markerLine) →
        ∀ l ∈ splitNl x, l ≠ markerLine := by
      intro x hx hall l hl
      obtain ⟨ox, hox, hrx⟩ := forall2_mem_right hinv (some x) hx
      rcases hrx with he | ⟨_, himpl⟩
      · have hxx : x = ox := (Option.some.injEq _ _).mp he
        subst hxx
        rw [splitNl_mem_eq layer x hox, List.mem_singleton] at hl
        subst hl
        exact hall l hox
      · obtain ⟨hGx, hnlx⟩ := himpl x rfl
        rw [splitNl_of_no_nl x hnlx, List.mem_singleton] at hl
        subst hl
        exact ne_marker_of_head l 'G' (by decide) hGx
    rw [ho] at hinv
    cases hinv with
    | cons hr0 hf2 =>
      rename_i e0e ese
      have hsafe_tail : ∀ e ∈ ese.filterMap id, ∀ l ∈ splitNl e,
          l ≠ markerLine := by
        intro x hx l hl
        obtain ⟨e, he, hex⟩ := List.mem_filterMap.mp hx
        have hex2 : e = some x := hex
        subst hex2
        obtain ⟨ox, hox, hrx⟩ := forall2_mem_right hf2 (some x) he
        rcases hrx with he2 | ⟨_, himpl⟩
        · have hxx : x = ox := (Option.some.injEq _ _).mp he2
          subst hxx
          rw [splitNl_mem_eq layer x
            (by rw [ho]; exact List.mem_cons_of_mem _ hox),
            List.mem_singleton] at hl
          subst hl
          refine tail_of_markersOnly _ hw.1 l ?_
          rw [ho]
          exact hox
        · obtain ⟨hGx, hnlx⟩ := himpl x rfl
          rw [splitNl_of_no_nl x hnlx, List.mem_singleton] at hl
          subst hl
          exact ne_marker_of_head l 'G' (by decide) hGx
      rcases hr0 with he0 | ⟨hG0, _⟩
      · subst he0
        rw [← hol]
        have hfm : (some o0 :: ese).filterMap id = o0 :: ese.filterMap id := by
          simp [List.filterMap_cons]
        rw [hfm]
        have h0mem : o0 ∈ splitNl layer := by
          rw [ho]; exact List.mem_cons_self o0 orest
        apply marker_facts_of_entries layer o0 (ese.filterMap id) _ _
          hsafe_tail hw.1
        · rw [splitNl_mem_eq layer o0 h0mem, ho]
          simp
        · rw [splitNl_mem_eq layer o0 h0mem]
          simp
      · have ho0ne : o0 ≠ markerLine := ne_marker_of_head o0 'G' (by decide) hG0
        have hall : ∀ ox ∈ splitNl layer, ox ≠ markerLine := by
          intro ox hox
          rw [ho] at hox
          rcases List.mem_cons.mp hox with he | he
          · subst he; exact ho0ne
          · refine tail_of_markersOnly _ hw.1 ox ?_
            rw [ho]
            exact he

        have hlayerhead : (splitNl layer).head? ≠ some markerLine := by
          rw [ho]
          simp [ho0ne]
        have hsafe2 : ∀ x ∈ (e0e :: ese).filterMap id, ∀ l ∈ splitNl x,
            l ≠ markerLine := by
          intro x hx l hl
          obtain ⟨e, he, hex⟩ := List.mem_filterMap.mp hx
          have hex2 : e = some x := hex
          subst hex2
          exact hsafe_all x he hall l hl
        rw [← hol]
        cases hfm : (e0e :: ese).filterMap id with
        | nil =>
          refine markerPreserved_of layer _ hw.1
            (markersOnly_of_tail _ (by intro l hl; simp [joinNl, splitNl] at hl)) ?_
          constructor
          · intro hhead
            rw [show joinNl ([] : List Str) = [] from rfl] at hhead
            exact absurd ((Option.some.injEq _ _).mp hhead) (by decide)
          · intro hhead
            exact absurd hhead hlayerhead
        | cons x xs =>
          apply marker_facts_of_entries layer x xs _ _ _ hw.1
          · constructor
            · intro hhead
              obtain ⟨p, hp⟩ : ∃ p, (splitNl x).head? = some p := ⟨_, hhead⟩
              have hpm : p = markerLine := by
                rw [hp] at hhead
                exact (Option.some.injEq _ _).mp hhead
              have hpmem : p ∈ splitNl x := by
                cases h0 : splitNl x with
                | nil => exact absurd h0 (splitNl_ne_nil x)
                | cons y ys =>
                  rw [h0] at hp
                  rw [List.head?_cons, Option.some.injEq] at hp
                  rw [← hp]
                  exact List.mem_cons_self y ys
              exact absurd hpm (hsafe2 x (by rw [hfm]; exact List.mem_cons_self x xs)
                p hpmem)
            · intro hhead
              exact absurd hhead hlayerhead
          · intro l hl
            refine hsafe2 x (by rw [hfm]; exact List.mem_cons_self x xs) l ?_
            cases h0 : splitNl x with
            | nil => exact absurd h0 (splitNl_ne_nil x)
            | cons y ys =>
              rw [h0] at hl
              exact List.mem_cons_of_mem y (by simpa using hl)
          · intro e he l hl
            exact hsafe2 e (by rw [hfm]; exact List.mem_cons_of_mem x he) l hl

theorem crExecute_marker : ∀ (data out : List Str),
    (∀ s ∈ data, wfLayer s) → crExecute data = some out →
    out.length = data.length ∧
    ∀ j a b, data.get? j = some a → out.get? j = some b →
      markerPreserved a b := by
  intro data
  induction data with
  | nil =>
    intro out _ h
    simp only [crExecute, Option.some.injEq] at h
    rw [← h]
    exact ⟨rfl, fun j a b ha _ => by simp at ha⟩
  | cons s rest ih =>
    intro out hwf h
    rw [crExecute] at h
    split at h
    · next l2 r2 h1 h2 =>
      have hout : out = l2 :: r2 := ((Option.some.injEq _ _).mp h).symm
      subst hout
      obtain ⟨hlen, hpt⟩ := ih r2
        (fun x hx => hwf x (List.mem_cons_of_mem s hx)) h2
      refine ⟨by simp [hlen], fun j a b ha hb => ?_⟩
      cases j with
      | zero =>
        have has : s = a := (Option.some.injEq _ _).mp ha
        have hbs : l2 = b := (Option.some.injEq _ _).mp hb
        subst has
        subst hbs
        exact crLayer_marker s l2 (hwf s (List.mem_cons_self s rest)) h1
      | succ k => exact hpt k a b ha hb
    · exact absurd h (by simp)

theorem mem_takeWhile_sub {α : Type} {p : α → Bool} {l : List α} :
    ∀ x ∈ l.takeWhile p, x ∈ l := fun _ hx => (List.takeWhile_sublist _).subset hx

theorem mem_dropWhile_sub {α : Type} {p : α → Bool} {l : List α} :
    ∀ x ∈ l.dropWhile p, x ∈ l := fun _ hx => (List.dropWhile_sublist _).subset hx

theorem matchRetractA_no_nl (l : Str) (p : Str × Str) (hnl : '\n' ∉ l)
    (h : matchRetractA l = some p) : '\n' ∉ p.1 ∧ '\n' ∉ p.2 := by
  unfold matchRetractA at h
  split at h
  · next rest =>
    have hrest : '\n' ∉ rest := by
      intro hm
      exact hnl (by simp [hm])
    simp only [] at h
    split at h
    · exact absurd h (by simp)
    · split at h
      · next r3 heq =>
        split at h
        · exact absurd h (by simp)
        · have hp : ('-' :: (rest.takeWhile Char.isDigit ++
              (match rest.dropWhile Char.isDigit with
                | '.' :: r => ('.' :: r.takeWhile Char.isDigit,
                    r.dropWhile Char.isDigit)
                | r => (([] : Str), r)).1),
              r3.takeWhile Char.isDigit) = p :=
            (Option.some.injEq _ _).mp h
          have hfr2 : ∀ x ∈ (match rest.dropWhile Char.isDigit with
              | '.' :: r => ('.' :: r.takeWhile Char.isDigit,
                  r.dropWhile Char.isDigit)
              | r => (([] : Str), r)).2, x ∈ rest := by
            intro x hx
            cases hr1 : rest.dropWhile Char.isDigit with
            | nil =>
              rw [hr1] at hx
              simp at hx
            | cons c r =>
              by_cases hc : c = '.'
              · subst hc
                rw [hr1] at hx
                have hx2 : x ∈ r := mem_dropWhile_sub _ hx
                have hx3 : x ∈ rest.dropWhile Char.isDigit := by
                  rw [hr1]
                  exact List.mem_cons_of_mem _ hx2
                exact mem_dropWhile_sub _ hx3
              · have hmm : (match c :: r with
                    | '.' :: r => ('.' :: r.takeWhile Char.isDigit,
                        r.dropWhile Char.isDigit)
                    | r => (([] : Str), r)).2 = c :: r := by
                  split
                  · next r2 heq2 =>
                    injection heq2 with h1 h2
                    exact absurd h1 hc
                  · rfl
                rw [hr1, hmm] at hx
                have hx3 : x ∈ rest.dropWhile Char.isDigit := by
                  rw [hr1]
                  exact hx
                exact mem_dropWhile_sub _ hx3
          have hfr1 : ∀ x ∈ (match rest.dropWhile Char.isDigit with
              | '.' :: r => ('.' :: r.takeWhile Char.isDigit,
                  r.dropWhile Char.isDigit)
              | r => (([] : Str), r)).1, x = '.' ∨ x ∈ rest := by
            intro x hx
            cases hr1 : rest.dropWhile Char.isDigit with
            | nil =>
              rw [hr1] at hx
              simp at hx
            | cons c r =>
              by_cases hc : c = '.'
              · subst hc
                rw [hr1] at hx
                rcases List.mem_cons.mp hx with hx | hx
                · exact Or.inl hx
                · have hx2 : x ∈ r := mem_takeWhile_sub _ hx
                  have hx3 : x ∈ rest.dropWhile Char.isDigit := by
                    rw [hr1]
                    exact List.mem_cons_of_mem _ hx2
                  exact Or.inr (mem_dropWhile_sub _ hx3)
              · have hmm : (match c :: r with
                    | '.' :: r => ('.' :: r.takeWhile Char.isDigit,
                        r.dropWhile Char.isDigit)
                    | r => (([] : Str), r)).1 = [] := by
                  split
                  · next r2 heq2 =>
                    injection heq2 with h1 h2
                    exact absurd h1 hc
                  · rfl
                rw [hr1, hmm] at hx
                simp at hx
          rw [← hp]
          constructor
          · intro hm
            rcases List.mem_cons.mp hm with hm | hm
            · exact absurd hm (by decide)
            · rcases List.mem_append.mp hm with hm | hm
              · exact hrest (mem_takeWhile_sub _ hm)
              · rcases hfr1 '\n' hm with hm | hm
                · exact absurd hm (by decide)
                · exact hrest hm
          · intro hm
            have hm2 : '\n' ∈ r3 := mem_takeWhile_sub _ hm
            have hm3 : '\n' ∈ (' ' :: 'F' :: r3) := by simp [hm2]
            rw [← heq] at hm3
            exact hrest (hfr2 '\n' hm3)
      · exact absurd h (by simp)
  · exact absurd h (by simp)

theorem matchPrimeA_no_nl (l : Str) (p : Str × Str) (hnl : '\n' ∉ l)
    (h : matchPrimeA l = some p) : '\n' ∉ p.1 ∧ '\n' ∉ p.2 := by
  unfold matchPrimeA at h
  split at h
  · next rest =>
    have hrest : '\n' ∉ rest := by
      intro hm
      exact hnl (by simp [hm])
    simp only [] at h
    split at h
    · exact absurd h (by simp)
    · split at h
      · next r3 heq =>
        split at h
        · exact absurd h (by simp)
        · have hp : ((rest.takeWhile Char.isDigit ++
              (match rest.dropWhile Char.isDigit with
                | '.' :: r => ('.' :: r.takeWhile Char.isDigit,
                    r.dropWhile Char.isDigit)
                | r => (([] : Str), r)).1),
              r3.takeWhile Char.isDigit) = p :=
            (Option.some.injEq _ _).mp h
          have hfr2 : ∀ x ∈ (match rest.dropWhile Char.isDigit with
              | '.' :: r => ('.' :: r.takeWhile Char.isDigit,
                  r.dropWhile Char.isDigit)
              | r => (([] : Str), r)).2, x ∈ rest := by
            intro x hx
            cases hr1 : rest.dropWhile Char.isDigit with
            | nil =>
              rw [hr1] at hx
              simp at hx
            | cons c r =>
              by_cases hc : c = '.'
              · subst hc
                rw [hr1] at hx
                have hx2 : x ∈ r := mem_dropWhile_sub _ hx
                have hx3 : x ∈ rest.dropWhile Char.isDigit := by
                  rw [hr1]
                  exact List.mem_cons_of_mem _ hx2
                exact mem_dropWhile_sub _ hx3
              · have hmm : (match c :: r with
                    | '.' :: r => ('.' :: r.takeWhile Char.isDigit,
                        r.dropWhile Char.isDigit)
                    | r => (([] : Str), r)).2 = c :: r := by
                  split
                  · next r2 heq2 =>
                    injection heq2 with h1 h2
                    exact absurd h1 hc
                  · rfl
                rw [hr1, hmm] at hx
                have hx3 : x ∈ rest.dropWhile Char.isDigit := by
                  rw [hr1]
                  exact hx
                exact mem_dropWhile_sub _ hx3
          have hfr1 : ∀ x ∈ (match rest.dropWhile Char.isDigit with
              | '.' :: r => ('.' :: r.takeWhile Char.isDigit,
                  r.dropWhile Char.isDigit)
              | r => (([] : Str), r)).1, x = '.' ∨ x ∈ rest := by
            intro x hx
            cases hr1 : rest.dropWhile Char.isDigit with
            | nil =>
              rw [hr1] at hx
              simp at hx
            | cons c r =>
              by_cases hc : c = '.'
              · subst hc
                rw [hr1] at hx
                rcases List.mem_cons.mp hx with hx | hx
                · exact Or.inl hx
                · have hx2 : x ∈ r := mem_takeWhile_sub _ hx
                  have hx3 : x ∈ rest.dropWhile Char.isDigit := by
                    rw [hr1]
                    exact List.mem_cons_of_mem _ hx2
                  exact Or.inr (mem_dropWhile_sub _ hx3)
              · have hmm : (match c :: r with
                    | '.' :: r => ('.' :: r.takeWhile Char.isDigit,
                        r.dropWhile Char.isDigit)
                    | r => (([] : Str), r)).1 = [] := by
                  split
                  · next r2 heq2 =>
                    injection heq2 with h1 h2
                    exact absurd h1 hc
                  · rfl
                rw [hr1, hmm] at hx
                simp at hx
          rw [← hp]
          constructor
          · intro hm
            rcases List.mem_append.mp hm with hm | hm
            · exact hrest (mem_takeWhile_sub _ hm)
            · rcases hfr1 '\n' hm with hm | hm
              · exact absurd hm (by decide)
              · exact hrest hm
          · intro hm
            have hm2 : '\n' ∈ r3 := mem_takeWhile_sub _ hm
            have hm3 : '\n' ∈ (' ' :: 'F' :: r3) := by simp [hm2]
            rw [← heq] at hm3
            exact hrest (hfr2 '\n' hm3)
      · exact absurd h (by simp)
  · exact absurd h (by simp)


theorem safe_of_head_no_nl (e : Str) (c : Char) (hc : c ≠ ';')
    (hnl : '\n' ∉ e) (hM : e.head? = some c) :
    ∀ l ∈ splitNl e, l ≠ markerLine := by
  rw [splitNl_of_no_nl e hnl]
  intro l hl
  rw [List.mem_singleton] at hl
  subst hl
  exact ne_marker_of_head l c hc hM

theorem ttGcode_safe (cmd : String) (hit : Bool) (v : ℚ) (og : Option Str)
    (lcd : Str) (h : ttGcode cmd hit v = some (og, lcd)) :
    (∀ g, og = some g → ∀ l ∈ splitNl g, l ≠ markerLine) ∧
    (∀ l ∈ splitNl lcd, l ≠ markerLine) := by
  rw [ttGcode] at h
  by_cases h1 : cmd = "speed"
  case pos =>
    rw [if_pos h1] at h
    simp only [] at h
    by_cases hh : hit = true
    case pos =>
      rw [if_pos hh] at h
      have h2 := Option.some.inj h
      have hog : _ = og := congrArg Prod.fst h2
      have hlcd : _ = lcd := congrArg Prod.snd h2
      subst hlcd
      constructor
      · intro g hg
        rw [← hog] at hg
        have he : _ = g := Option.some.inj hg
        subst he
        intro l hl
        rw [show ( "M220 B\n").toList ++ (( "M220 S").toList ++
            intStr (pyRound v)) = ( "M220 B").toList ++ '\n' ::
            (( "M220 S").toList ++ intStr (pyRound v)) from rfl,
          splitNl_append] at hl
        rcases List.mem_append.mp hl with hl | hl
        · rw [show splitNl (( "M220 B").toList) = [( "M220 B").toList] from rfl,
            List.mem_singleton] at hl
          subst hl
          with_unfolding_all decide
        · exact safe_of_head_no_nl (( "M220 S").toList ++ intStr (pyRound v))
            'M' (by decide)
            (no_nl_append (by decide) (no_nl_intStr _)) rfl l hl
      · exact safe_of_head_no_nl _ 'M' (by decide)
          (no_nl_append (by decide) (no_nl_append (by decide) (no_nl_intStr _))) rfl
    rw [if_neg hh] at h
    have h2 := Option.some.inj h
    have hog : _ = og := congrArg Prod.fst h2
    have hlcd : _ = lcd := congrArg Prod.snd h2
    subst hlcd
    constructor
    · intro g hg
      rw [← hog] at hg
      have he : _ = g := Option.some.inj hg
      subst he
      exact safe_of_head_no_nl _ 'M' (by decide)
        (no_nl_append (by decide) (no_nl_intStr _)) rfl
    · exact safe_of_head_no_nl _ 'M' (by decide)
        (no_nl_append (by decide) (no_nl_append (by decide) (no_nl_intStr _))) rfl
  rw [if_neg h1] at h
  by_cases h2 : cmd = "acceleration"
  case pos =>
    rw [if_pos h2] at h
    simp only [] at h
    have h2 := Option.some.inj h
    have hog : _ = og := congrArg Prod.fst h2
    have hlcd : _ = lcd := congrArg Prod.snd h2
    subst hlcd
    constructor
    · intro g hg
      rw [← hog] at hg
      have he : _ = g := Option.some.inj hg
      subst he
      exact safe_of_head_no_nl _ 'M' (by decide)
        (no_nl_append (by decide) (no_nl_intStr _)) rfl
    · exact safe_of_head_no_nl _ 'M' (by decide)
        (no_nl_append (by decide) (no_nl_append (by decide) (no_nl_intStr _))) rfl
  rw [if_neg h2] at h
  by_cases h3 : cmd = "tacceleration"
  case pos =>
    rw [if_pos h3] at h
    simp only [] at h
    have h2 := Option.some.inj h
    have hog : _ = og := congrArg Prod.fst h2
    have hlcd : _ = lcd := congrArg Prod.snd h2
    subst hlcd
    constructor
    · intro g hg
      rw [← hog] at hg
      have he : _ = g := Option.some.inj hg
      subst he
      exact safe_of_head_no_nl _ 'M' (by decide)
        (no_nl_append (by decide) (no_nl_intStr _)) rfl
    · exact safe_of_head_no_nl _ 'M' (by decide)
        (no_nl_append (by decide) (no_nl_append (by decide) (no_nl_intStr _))) rfl
  rw [if_neg h3] at h
  by_cases h4 : cmd = "pacceleration"
  case pos =>
    rw [if_pos h4] at h
    simp only [] at h
    have h2 := Option.some.inj h
    have hog : _ = og := congrArg Prod.fst h2
    have hlcd : _ = lcd := congrArg Prod.snd h2
    subst hlcd
    constructor
    · intro g hg
      rw [← hog] at hg
      have he : _ = g := Option.some.inj hg
      subst he
      exact safe_of_head_no_nl _ 'M' (by decide)
        (no_nl_append (by decide) (no_nl_intStr _)) rfl
    · exact safe_of_head_no_nl _ 'M' (by decide)
        (no_nl_append (by decide) (no_nl_append (by decide) (no_nl_intStr _))) rfl
  rw [if_neg h4] at h
  by_cases h5 : cmd = "racceleration"
  case pos =>
    rw [if_pos h5] at h
    simp only [] at h
    have h2 := Option.some.inj h
    have hog : _ = og := congrArg Prod.fst h2
    have hlcd : _ = lcd := congrArg Prod.snd h2
    subst hlcd
    constructor
    · intro g hg
      rw [← hog] at hg
      have he : _ = g := Option.some.inj hg
      subst he
      exact safe_of_head_no_nl _ 'M' (by decide)
        (no_nl_append (by decide) (no_nl_intStr _)) rfl
    · exact safe_of_head_no_nl _ 'M' (by decide)
        (no_nl_append (by decide) (no_nl_append (by decide) (no_nl_intStr _))) rfl
  rw [if_neg h5] at h
  by_cases h6 : cmd = "eacceleration"
  case pos =>
    rw [if_pos h6] at h
    simp only [] at h
    have h2 := Option.some.inj h
    have hog : _ = og := congrArg Prod.fst h2
    have hlcd : _ = lcd := congrArg Prod.snd h2
    subst hlcd
    constructor
    · intro g hg
      rw [← hog] at hg
      have he : _ = g := Option.some.inj hg
      subst he
      exact safe_of_head_no_nl _ 'M' (by decide)
        (no_nl_append (by decide) (no_nl_intStr _)) rfl
    · exact safe_of_head_no_nl _ 'M' (by decide)
        (no_nl_append (by decide) (no_nl_append (by decide) (no_nl_intStr _))) rfl
  rw [if_neg h6] at h
  by_cases h7 : cmd = "jerk"
  case pos =>
    rw [if_pos h7] at h
    simp only [] at h
    have h2 := Option.some.inj h
    have hog : _ = og := congrArg Prod.fst h2
    have hlcd : _ = lcd := congrArg Prod.snd h2
    subst hlcd
    constructor
    · intro g hg
      rw [← hog] at hg
      have he : _ = g := Option.some.inj hg
      subst he
      exact safe_of_head_no_nl _ 'M' (by decide)
        (no_nl_append (no_nl_append (no_nl_append (by decide) (no_nl_fmtFixed _ _)) (by decide)) (no_nl_fmtFixed _ _)) rfl
    · exact safe_of_head_no_nl _ 'M' (by decide)
        (no_nl_append (by decide) (no_nl_append (no_nl_append (no_nl_append (by decide) (no_nl_fmtFixed _ _)) (by decide)) (no_nl_fmtFixed _ _))) rfl
  rw [if_neg h7] at h
  by_cases h8 : cmd = "zjerk"
  case pos =>
    rw [if_pos h8] at h
    simp only [] at h
    have h2 := Option.some.inj h
    have hog : _ = og := congrArg Prod.fst h2
    have hlcd : _ = lcd := congrArg Prod.snd h2
    subst hlcd
    constructor
    · intro g hg
      rw [← hog] at hg
      have he : _ = g := Option.some.inj hg
      subst he
      exact safe_of_head_no_nl _ 'M' (by decide)
        (no_nl_append (by decide) (no_nl_fmtFixed _ _)) rfl
    · exact safe_of_head_no_nl _ 'M' (by decide)
        (no_nl_append (by decide) (no_nl_append (by decide) (no_nl_fmtFixed _ _))) rfl
  rw [if_neg h8] at h
  by_cases h9 : cmd = "ejerk"
  case pos =>
    rw [if_pos h9] at h
    simp only [] at h
    have h2 := Option.some.inj h
    have hog : _ = og := congrArg Prod.fst h2
    have hlcd : _ = lcd := congrArg Prod.snd h2
    subst hlcd
    constructor
    · intro g hg
      rw [← hog] at hg
      have he : _ = g := Option.some.inj hg
      subst he
      exact safe_of_head_no_nl _ 'M' (by decide)
        (no_nl_append (by decide) (no_nl_fmtFixed _ _)) rfl
    · exact safe_of_head_no_nl _ 'M' (by decide)
        (no_nl_append (by decide) (no_nl_append (by decide) (no_nl_fmtFixed _ _))) rfl
  rw [if_neg h9] at h
  by_cases h10 : cmd = "junction"
  case pos =>
    rw [if_pos h10] at h
    simp only [] at h
    have h2 := Option.some.inj h
    have hog : _ = og := congrArg Prod.fst h2
    have hlcd : _ = lcd := congrArg Prod.snd h2
    subst hlcd
    constructor
    · intro g hg
      rw [← hog] at hg
      have he : _ = g := Option.some.inj hg
      subst he
      exact safe_of_head_no_nl _ 'M' (by decide)
        (no_nl_append (by decide) (no_nl_fmtFixed _ _)) rfl
    · exact safe_of_head_no_nl _ 'M' (by decide)
        (no_nl_append (by decide) (no_nl_append (by decide) (no_nl_fmtFixed _ _))) rfl
  rw [if_neg h10] at h
  by_cases h11 : cmd = "lin-advance"
  case pos =>
    rw [if_pos h11] at h
    simp only [] at h
    have h2 := Option.some.inj h
    have hog : _ = og := congrArg Prod.fst h2
    have hlcd : _ = lcd := congrArg Prod.snd h2
    subst hlcd
    constructor
    · intro g hg
      rw [← hog] at hg
      have he : _ = g := Option.some.inj hg
      subst he
      exact safe_of_head_no_nl _ 'M' (by decide)
        (no_nl_append (by decide) (no_nl_fmtFixed _ _)) rfl
    · exact safe_of_head_no_nl _ 'M' (by decide)
        (no_nl_append (by decide) (no_nl_append (by decide) (no_nl_fmtFixed _ _))) rfl
  rw [if_neg h11] at h
  by_cases h12 : cmd = "nozzle-temp"
  case pos =>
    rw [if_pos h12] at h
    simp only [] at h
    have h2 := Option.some.inj h
    have hog : _ = og := congrArg Prod.fst h2
    have hlcd : _ = lcd := congrArg Prod.snd h2
    subst hlcd
    constructor
    · intro g hg
      rw [← hog] at hg
      have he : _ = g := Option.some.inj hg
      subst he
      exact safe_of_head_no_nl _ 'M' (by decide)
        (no_nl_append (by decide) (no_nl_intStr _)) rfl
    · exact safe_of_head_no_nl _ 'M' (by decide)
        (no_nl_append (by decide) (no_nl_append (by decide) (no_nl_intStr _))) rfl
  rw [if_neg h12] at h
  by_cases h13 : cmd = "bed-temp"
  case pos =>
    rw [if_pos h13] at h
    simp only [] at h
    have h2 := Option.some.inj h
    have hog : _ = og := congrArg Prod.fst h2
    have hlcd : _ = lcd := congrArg Prod.snd h2
    subst hlcd
    constructor
    · intro g hg
      rw [← hog] at hg
      have he : _ = g := Option.some.inj hg
      subst he
      exact safe_of_head_no_nl _ 'M' (by decide)
        (no_nl_append (by decide) (no_nl_intStr _)) rfl
    · exact safe_of_head_no_nl _ 'M' (by decide)
        (no_nl_append (by decide) (no_nl_append (by decide) (no_nl_intStr _))) rfl
  rw [if_neg h13] at h
  by_cases h14 : cmd = "retract-speed"
  case pos =>
    rw [if_pos h14] at h
    have h2 := Option.some.inj h
    have hog : _ = og := congrArg Prod.fst h2
    have hlcd : _ = lcd := congrArg Prod.snd h2
    subst hlcd
    constructor
    · intro g hg
      rw [← hog] at hg
      exact absurd hg (by simp)
    · exact safe_of_head_no_nl _ 'M' (by decide)
        (no_nl_append (by decide) (no_nl_intStr _)) rfl
  rw [if_neg h14] at h
  by_cases h15 : cmd = "retract-distance"
  case pos =>
    rw [if_pos h15] at h
    have h2 := Option.some.inj h
    have hog : _ = og := congrArg Prod.fst h2
    have hlcd : _ = lcd := congrArg Prod.snd h2
    subst hlcd
    constructor
    · intro g hg
      rw [← hog] at hg
      exact absurd hg (by simp)
    · exact safe_of_head_no_nl _ 'M' (by decide)
        (no_nl_append (by decide) (no_nl_fmtFixed _ _)) rfl
  rw [if_neg h15] at h
  by_cases h16 : cmd = "prime-speed"
  case pos =>
    rw [if_pos h16] at h
    have h2 := Option.some.inj h
    have hog : _ = og := congrArg Prod.fst h2
    have hlcd : _ = lcd := congrArg Prod.snd h2
    subst hlcd
    constructor
    · intro g hg
      rw [← hog] at hg
      exact absurd hg (by simp)
    · exact safe_of_head_no_nl _ 'M' (by decide)
        (no_nl_append (by decide) (no_nl_intStr _)) rfl
  rw [if_neg h16] at h
  by_cases h17 : cmd = "extra-prime"
  case pos =>
    rw [if_pos h17] at h
    have h2 := Option.some.inj h
    have hog : _ = og := congrArg Prod.fst h2
    have hlcd : _ = lcd := congrArg Prod.snd h2
    subst hlcd
    constructor
    · intro g hg
      rw [← hog] at hg
      exact absurd hg (by simp)
    · exact safe_of_head_no_nl _ 'M' (by decide)
        (no_nl_append (by decide) (no_nl_fmtFixed _ _)) rfl
  rw [if_neg h17] at h
  exact absurd h (by simp)
theorem ttLine_shape (cmd : String) (v cp : ℚ) (l l2 : Str) (cp2 : ℚ)
    (h : ttLine cmd v cp l = some (l2, cp2)) :
    l2 = l ∨ (l2.head? = some 'G' ∧ ('\n' ∉ l → '\n' ∉ l2) ∧
      l.head? = some 'G') := by
  rw [ttLine] at h
  by_cases h1 : cmd = "retract-speed"
  case pos =>
    rw [if_pos h1] at h
    split at h
    · next cap hcap =>
      have hl2 : _ = l2 := congrArg Prod.fst (Option.some.inj h)
      rw [← hl2]
      right
      refine ⟨rfl, ?_, matchRetractA_head l cap hcap⟩
      intro hnl hm
      rcases List.mem_append.mp hm with hm | hm
      · rcases List.mem_append.mp hm with hm | hm
        · rcases List.mem_append.mp hm with hm | hm
          · exact absurd hm (by decide)
          · exact no_nl_intStr _ hm
        · exact absurd hm (by decide)
      · exact (matchRetractA_no_nl l cap hnl hcap).1 hm
    · left
      exact (congrArg Prod.fst (Option.some.inj h)).symm
  rw [if_neg h1] at h
  by_cases h2 : cmd = "retract-distance"
  case pos =>
    rw [if_pos h2] at h
    split at h
    · next cap hcap =>
      have hl2 : _ = l2 := congrArg Prod.fst (Option.some.inj h)
      rw [← hl2]
      right
      refine ⟨rfl, ?_, matchRetractA_head l cap hcap⟩
      intro hnl hm
      rcases List.mem_append.mp hm with hm | hm
      · rcases List.mem_append.mp hm with hm | hm
        · rcases List.mem_append.mp hm with hm | hm
          · exact absurd hm (by decide)
          · exact (matchRetractA_no_nl l cap hnl hcap).2 hm
        · exact absurd hm (by decide)
      · exact no_nl_fmtFixed _ _ hm
    · split at h
      · next cap hcap =>
        split at h
        · have hl2 : _ = l2 := congrArg Prod.fst (Option.some.inj h)
          rw [← hl2]
          right
          refine ⟨rfl, ?_, matchPrimeA_head l cap hcap⟩
          intro hnl hm
          rcases List.mem_append.mp hm with hm | hm
          · rcases List.mem_append.mp hm with hm | hm
            · rcases List.mem_append.mp hm with hm | hm
              · exact absurd hm (by decide)
              · exact (matchPrimeA_no_nl l cap hnl hcap).2 hm
            · exact absurd hm (by decide)
          · exact no_nl_fmtFixed _ _ hm
        · left
          exact (congrArg Prod.fst (Option.some.inj h)).symm
      · left
        exact (congrArg Prod.fst (Option.some.inj h)).symm
  rw [if_neg h2] at h
  by_cases h3 : cmd = "prime-speed"
  case pos =>
    rw [if_pos h3] at h
    split at h
    · next cap hcap =>
      have hl2 : _ = l2 := congrArg Prod.fst (Option.some.inj h)
      rw [← hl2]
      right
      refine ⟨rfl, ?_, matchPrimeA_head l cap hcap⟩
      intro hnl hm
      rcases List.mem_append.mp hm with hm | hm
      · rcases List.mem_append.mp hm with hm | hm
        · rcases List.mem_append.mp hm with hm | hm
          · exact absurd hm (by decide)
          · exact no_nl_intStr _ hm
        · exact absurd hm (by decide)
      · exact (matchPrimeA_no_nl l cap hnl hcap).1 hm
    · left
      exact (congrArg Prod.fst (Option.some.inj h)).symm
  rw [if_neg h3] at h
  by_cases h4 : cmd = "extra-prime"
  case pos =>
    rw [if_pos h4] at h
    split at h
    · next cap hcap =>
      split at h
      · exact absurd h (by simp)
      · next amt hamt =>
        have hl2 : _ = l2 := congrArg Prod.fst (Option.some.inj h)
        rw [← hl2]
        right
        refine ⟨rfl, ?_, matchPrimeA_head l cap hcap⟩
        intro hnl hm
        rcases List.mem_append.mp hm with hm | hm
        · rcases List.mem_append.mp hm with hm | hm
          · rcases List.mem_append.mp hm with hm | hm
            · exact absurd hm (by decide)
            · exact (matchPrimeA_no_nl l cap hnl hcap).2 hm
          · exact absurd hm (by decide)
        · exact no_nl_fmtFixed _ _ hm
    · left
      exact (congrArg Prod.fst (Option.some.inj h)).symm
  rw [if_neg h4] at h
  left
  exact (congrArg Prod.fst (Option.some.inj h)).symm

theorem ttLines_shape (cmd : String) (v : ℚ) : ∀ (ls : List Str) (cp : ℚ)
    (ls2 : List Str) (cp2 : ℚ), ttLines cmd v ls cp = some (ls2, cp2) →
    List.Forall₂ (fun l l2 => l2 = l ∨ (l2.head? = some 'G' ∧
      ('\n' ∉ l → '\n' ∉ l2) ∧ l.head? = some 'G')) ls ls2 := by
  intro ls
  induction ls with
  | nil =>
    intro cp ls2 cp2 h
    simp only [ttLines, Option.some.injEq, Prod.mk.injEq] at h
    rw [← h.1]
    exact List.Forall₂.nil
  | cons l t ih =>
    intro cp ls2 cp2 h
    rw [ttLines] at h
    split at h
    · exact absurd h (by simp)
    · next l2 cp3 hl =>
      split at h
      · exact absurd h (by simp)
      · next t2 cp4 ht =>
        simp only [Option.some.injEq, Prod.mk.injEq] at h
        rw [← h.1]
        exact List.Forall₂.cons (ttLine_shape cmd v cp l l2 cp3 hl)
          (ih _ t2 cp4 ht)

theorem ttGcode_headM (cmd : String) (hit : Bool) (v : ℚ) (og : Option Str)
    (lcd : Str) (h : ttGcode cmd hit v = some (og, lcd)) :
    (∀ g, og = some g → g.head? = some 'M') ∧ lcd.head? = some 'M' := by
  rw [ttGcode] at h
  by_cases h1 : cmd = "speed"
  case pos =>
    rw [if_pos h1] at h
    simp only [] at h
    by_cases hh : hit = true
    case pos =>
      rw [if_pos hh] at h
      have h2 := Option.some.inj h
      have hog : _ = og := congrArg Prod.fst h2
      have hlcd : _ = lcd := congrArg Prod.snd h2
      refine ⟨fun g hg => ?_, ?_⟩
      · rw [← hog] at hg
        have he : _ = g := Option.some.inj hg
        rw [← he]
        rfl
      · rw [← hlcd]
        rfl
    rw [if_neg hh] at h
    have h2 := Option.some.inj h
    have hog : _ = og := congrArg Prod.fst h2
    have hlcd : _ = lcd := congrArg Prod.snd h2
    refine ⟨fun g hg => ?_, ?_⟩
    · rw [← hog] at hg
      have he : _ = g := Option.some.inj hg
      rw [← he]
      rfl
    · rw [← hlcd]
      rfl
  rw [if_neg h1] at h
  by_cases h2 : cmd = "acceleration"
  case pos =>
    rw [if_pos h2] at h
    simp only [] at h
    have h2 := Option.some.inj h
    have hog : _ = og := congrArg Prod.fst h2
    have hlcd : _ = lcd := congrArg Prod.snd h2
    refine ⟨fun g hg => ?_, ?_⟩
    · rw [← hog] at hg
      have he : _ = g := Option.some.inj hg
      rw [← he]
      rfl
    · rw [← hlcd]
      rfl
  rw [if_neg h2] at h
  by_cases h3 : cmd = "tacceleration"
  case pos =>
    rw [if_pos h3] at h
    simp only [] at h
    have h2 := Option.some.inj h
    have hog : _ = og := congrArg Prod.fst h2
    have hlcd : _ = lcd := congrArg Prod.snd h2
    refine ⟨fun g hg => ?_, ?_⟩
    · rw [← hog] at hg
      have he : _ = g := Option.some.inj hg
      rw [← he]
      rfl
    · rw [← hlcd]
      rfl
  rw [if_neg h3] at h
  by_cases h4 : cmd = "pacceleration"
  case pos =>
    rw [if_pos h4] at h
    simp only [] at h
    have h2 := Option.some.inj h
    have hog : _ = og := congrArg Prod.fst h2
    have hlcd : _ = lcd := congrArg Prod.snd h2
    refine ⟨fun g hg => ?_, ?_⟩
    · rw [← hog] at hg
      have he : _ = g := Option.some.inj hg
      rw [← he]
      rfl
    · rw [← hlcd]
      rfl
  rw [if_neg h4] at h
  by_cases h5 : cmd = "racceleration"
  case pos =>
    rw [if_pos h5] at h
    simp only [] at h
    have h2 := Option.some.inj h
    have hog : _ = og := congrArg Prod.fst h2
    have hlcd : _ = lcd := congrArg Prod.snd h2
    refine ⟨fun g hg => ?_, ?_⟩
    · rw [← hog] at hg
      have he : _ = g := Option.some.inj hg
      rw [← he]
      rfl
    · rw [← hlcd]
      rfl
  rw [if_neg h5] at h
  by_cases h6 : cmd = "eacceleration"
  case pos =>
    rw [if_pos h6] at h
    simp only [] at h
    have h2 := Option.some.inj h
    have hog : _ = og := congrArg Prod.fst h2
    have hlcd : _ = lcd := congrArg Prod.snd h2
    refine ⟨fun g hg => ?_, ?_⟩
    · rw [← hog] at hg
      have he : _ = g := Option.some.inj hg
      rw [← he]
      rfl
    · rw [← hlcd]
      rfl
  rw [if_neg h6] at h
  by_cases h7 : cmd = "jerk"
  case pos =>
    rw [if_pos h7] at h
    simp only [] at h
    have h2 := Option.some.inj h
    have hog : _ = og := congrArg Prod.fst h2
    have hlcd : _ = lcd := congrArg Prod.snd h2
    refine ⟨fun g hg => ?_, ?_⟩
    · rw [← hog] at hg
      have he : _ = g := Option.some.inj hg
      rw [← he]
      rfl
    · rw [← hlcd]
      rfl
  rw [if_neg h7] at h
  by_cases h8 : cmd = "zjerk"
  case pos =>
    rw [if_pos h8] at h
    simp only [] at h
    have h2 := Option.some.inj h
    have hog : _ = og := congrArg Prod.fst h2
    have hlcd : _ = lcd := congrArg Prod.snd h2
    refine ⟨fun g hg => ?_, ?_⟩
    · rw [← hog] at hg
      have he : _ = g := Option.some.inj hg
      rw [← he]
      rfl
    · rw [← hlcd]
      rfl
  rw [if_neg h8] at h
  by_cases h9 : cmd = "ejerk"
  case pos =>
    rw [if_pos h9] at h
    simp only [] at h
    have h2 := Option.some.inj h
    have hog : _ = og := congrArg Prod.fst h2
    have hlcd : _ = lcd := congrArg Prod.snd h2
    refine ⟨fun g hg => ?_, ?_⟩
    · rw [← hog] at hg
      have he : _ = g := Option.some.inj hg
      rw [← he]
      rfl
    · rw [← hlcd]
      rfl
  rw [if_neg h9] at h
  by_cases h10 : cmd = "junction"
  case pos =>
    rw [if_pos h10] at h
    simp only [] at h
    have h2 := Option.some.inj h
    have hog : _ = og := congrArg Prod.fst h2
    have hlcd : _ = lcd := congrArg Prod.snd h2
    refine ⟨fun g hg => ?_, ?_⟩
    · rw [← hog] at hg
      have he : _ = g := Option.some.inj hg
      rw [← he]
      rfl
    · rw [← hlcd]
      rfl
  rw [if_neg h10] at h
  by_cases h11 : cmd = "lin-advance"
  case pos =>
    rw [if_pos h11] at h
    simp only [] at h
    have h2 := Option.some.inj h
    have hog : _ = og := congrArg Prod.fst h2
    have hlcd : _ = lcd := congrArg Prod.snd h2
    refine ⟨fun g hg => ?_, ?_⟩
    · rw [← hog] at hg
      have he : _ = g := Option.some.inj hg
      rw [← he]
      rfl
    · rw [← hlcd]
      rfl
  rw [if_neg h11] at h
  by_cases h12 : cmd = "nozzle-temp"
  case pos =>
    rw [if_pos h12] at h
    simp only [] at h
    have h2 := Option.some.inj h
    have hog : _ = og := congrArg Prod.fst h2
    have hlcd : _ = lcd := congrArg Prod.snd h2
    refine ⟨fun g hg => ?_, ?_⟩
    · rw [← hog] at hg
      have he : _ = g := Option.some.inj hg
      rw [← he]
      rfl
    · rw [← hlcd]
      rfl
  rw [if_neg h12] at h
  by_cases h13 : cmd = "bed-temp"
  case pos =>
    rw [if_pos h13] at h
    simp only [] at h
    have h2 := Option.some.inj h
    have hog : _ = og := congrArg Prod.fst h2
    have hlcd : _ = lcd := congrArg Prod.snd h2
    refine ⟨fun g hg => ?_, ?_⟩
    · rw [← hog] at hg
      have he : _ = g := Option.some.inj hg
      rw [← he]
      rfl
    · rw [← hlcd]
      rfl
  rw [if_neg h13] at h
  by_cases h14 : cmd = "retract-speed"
  case pos =>
    rw [if_pos h14] at h
    have h2 := Option.some.inj h
    have hog : _ = og := congrArg Prod.fst h2
    have hlcd : _ = lcd := congrArg Prod.snd h2
    refine ⟨fun g hg => ?_, ?_⟩
    · rw [← hog] at hg
      exact absurd hg (by simp)
    · rw [← hlcd]
      rfl
  rw [if_neg h14] at h
  by_cases h15 : cmd = "retract-distance"
  case pos =>
    rw [if_pos h15] at h
    have h2 := Option.some.inj h
    have hog : _ = og := congrArg Prod.fst h2
    have hlcd : _ = lcd := congrArg Prod.snd h2
    refine ⟨fun g hg => ?_, ?_⟩
    · rw [← hog] at hg
      exact absurd hg (by simp)
    · rw [← hlcd]
      rfl
  rw [if_neg h15] at h
  by_cases h16 : cmd = "prime-speed"
  case pos =>
    rw [if_pos h16] at h
    have h2 := Option.some.inj h
    have hog : _ = og := congrArg Prod.fst h2
    have hlcd : _ = lcd := congrArg Prod.snd h2
    refine ⟨fun g hg => ?_, ?_⟩
    · rw [← hog] at hg
      exact absurd hg (by simp)
    · rw [← hlcd]
      rfl
  rw [if_neg h16] at h
  by_cases h17 : cmd = "extra-prime"
  case pos =>
    rw [if_pos h17] at h
    have h2 := Option.some.inj h
    have hog : _ = og := congrArg Prod.fst h2
    have hlcd : _ = lcd := congrArg Prod.snd h2
    refine ⟨fun g hg => ?_, ?_⟩
    · rw [← hog] at hg
      exact absurd hg (by simp)
    · rw [← hlcd]
      rfl
  rw [if_neg h17] at h
  exact absurd h (by simp)

theorem ttLayer_marker (cmd : String) (vc : ℚ) (ce sl2 lastIdx i : Nat)
    (layer : Str) (v cp : ℚ) (ol : Str) (st : ℚ × ℚ) (hw : wfLayer layer)
    (h : ttLayer cmd vc ce sl2 lastIdx i layer v cp = some (ol, st)) :
    markerPreserved layer ol := by
  obtain ⟨o0, orest, ho⟩ : ∃ o0 orest, splitNl layer = o0 :: orest := by
    cases h0 : splitNl layer with
    | nil => exact absurd h0 (splitNl_ne_nil layer)
    | cons x xs => exact ⟨x, xs, rfl⟩
  have ho0nl : '\n' ∉ o0 :=
    no_nl_of_mem_splitNl layer o0 (ho ▸ List.mem_cons_self o0 orest)
  rw [ttLayer] at h
  split at h
  · exact absurd h (by simp)
  · simp only [] at h
    split at h
    · exact absurd h (by simp)
    · next lines2 hstep1 =>
      split at h
      · exact absurd h (by simp)
      · next lines3 cp2 hlines3 =>
        have hol : _ = ol := congrArg Prod.fst (Option.some.inj h)
        rw [ho] at hstep1
        have hstep : ∃ mid, lines2 = o0 :: mid ∧
            (∀ x ∈ mid, ((∀ l ∈ splitNl x, l ≠ markerLine) ∧
              (x.head? = some 'G' → '\n' ∉ x)) ∨ x ∈ orest) ∧
            (mid = [] → orest = []) := by
          by_cases hq : (i - sl2) % ce = 0
          · rw [if_pos hq] at hstep1
            split at hstep1
            · exact absurd hstep1 (by simp)
            · next g lcd hgc =>
              have he2 := Option.some.inj hstep1
              rw [pyInsertAt_one] at he2
              refine ⟨[g, lcd] ++ orest, he2.symm, ?_, ?_⟩
              · intro x hx
                rcases List.mem_append.mp hx with hx | hx
                · left
                  rcases List.mem_cons.mp hx with hx | hx
                  · subst hx
                    refine ⟨(ttGcode_safe _ _ _ _ _ hgc).1 x rfl, ?_⟩
                    intro hG
                    have hM := (ttGcode_headM _ _ _ _ _ hgc).1 x rfl
                    rw [hM] at hG
                    exact absurd ((Option.some.injEq _ _).mp hG) (by decide)
                  · rw [List.mem_singleton] at hx
                    subst hx
                    refine ⟨(ttGcode_safe _ _ _ _ _ hgc).2, ?_⟩
                    intro hG
                    have hM := (ttGcode_headM _ _ _ _ _ hgc).2
                    rw [hM] at hG
                    exact absurd ((Option.some.injEq _ _).mp hG) (by decide)
                · exact Or.inr hx
              · intro h0
                simp at h0
            · next lcd hgc =>
              have he2 := Option.some.inj hstep1
              rw [pyInsertAt_one] at he2
              refine ⟨[lcd] ++ orest, he2.symm, ?_, ?_⟩
              · intro x hx
                rcases List.mem_append.mp hx with hx | hx
                · left
                  rw [List.mem_singleton] at hx
                  subst hx
                  refine ⟨(ttGcode_safe _ _ _ _ _ hgc).2, ?_⟩
                  intro hG
                  have hM := (ttGcode_headM _ _ _ _ _ hgc).2
                  rw [hM] at hG
                  exact absurd ((Option.some.injEq _ _).mp hG) (by decide)
                · exact Or.inr hx
              · intro h0
                simp at h0
          · rw [if_neg hq] at hstep1
            have he2 := Option.some.inj hstep1
            exact ⟨orest, he2.symm, fun x hx => Or.inr hx, fun h0 => h0⟩
        obtain ⟨mid, hl2, hmid, hmidnil⟩ := hstep
        have hf := ttLines_shape cmd _ lines2 cp lines3 cp2 hlines3
        rw [hl2] at hf
        cases hf with
        | cons hr0 hf2 =>
          rename_i e0 es3
          have hnl0 : '\n' ∉ e0 := by
            rcases hr0 with he | ⟨_, hnlimp, _⟩
            · rw [he]
              exact ho0nl
            · exact hnlimp ho0nl
          have hh : (splitNl e0).head? = some markerLine ↔
              (splitNl layer).head? = some markerLine := by
            rw [splitNl_of_no_nl e0 hnl0, ho]
            simp only [List.head?_cons, Option.some.injEq]
            rcases hr0 with he | ⟨hGe, _, hGo⟩
            · rw [he]
            · have h1 : e0 ≠ markerLine := ne_marker_of_head _ 'G' (by decide) hGe
              have h2 : o0 ≠ markerLine := ne_marker_of_head _ 'G' (by decide) hGo
              simp [h1, h2]
          have ht0 : ∀ l ∈ (splitNl e0).tail, l ≠ markerLine := by
            rw [splitNl_of_no_nl e0 hnl0]
            simp
          have hes3 : ∀ e ∈ es3, ∀ l ∈ splitNl e, l ≠ markerLine := by
            intro e he l hl
            obtain ⟨x, hx, hrx⟩ := forall2_mem_right hf2 e he
            rcases hrx with hex | ⟨hGe, hnlimp, hGx⟩
            · rcases hmid x hx with ⟨hsafe, _⟩ | hxo
              · exact hsafe l (hex ▸ hl)
              · have hxnl : '\n' ∉ x :=
                  no_nl_of_mem_splitNl layer x (ho ▸ List.mem_cons_of_mem _ hxo)
                rw [hex, splitNl_of_no_nl x hxnl, List.mem_singleton] at hl
                subst hl
                refine tail_of_markersOnly _ hw.1 l ?_
                rw [ho]
                exact hxo
            · have hxnl : '\n' ∉ x := by
                rcases hmid x hx with ⟨_, himp⟩ | hxo
                · exact himp hGx
                · exact no_nl_of_mem_splitNl layer x
                    (ho ▸ List.mem_cons_of_mem _ hxo)
              have henl : '\n' ∉ e := hnlimp hxnl
              rw [splitNl_of_no_nl e henl, List.mem_singleton] at hl
              subst hl
              exact ne_marker_of_head l 'G' (by decide) hGe
          have hdeg : es3 = [] → (splitNl layer).head? ≠ some markerLine := by
            intro hnil hhead
            have hmlen : mid.length = es3.length := hf2.length_eq
            have hmnil : mid = [] := by
              rw [hnil] at hmlen
              exact List.length_eq_zero.mp hmlen
            have horest := hmidnil hmnil
            have h22 := hw.2 hhead
            rw [ho, horest] at h22
            simp at h22
          rw [← hol]
          split
          · rw [show pyInsertBeforeLast (( "M220 R").toList) (e0 :: es3) =
                pyInsertAt ((e0 :: es3).length - 1) [( "M220 R").toList]
                  (e0 :: es3) from rfl]
            exact insert_last_entries_marker layer _ e0 es3 (by decide)
              (by with_unfolding_all decide) hh ht0 hes3 hw.1 hdeg
          · exact marker_facts_of_entries layer e0 es3 hh ht0 hes3 hw.1

theorem ttGo_marker (cmd : String) (vc : ℚ) (ce sl2 stop lastIdx : Nat) :
    ∀ (ls : List Str) (i : Nat) (v cp : ℚ) (out : List Str),
    (∀ s ∈ ls, wfLayer s) →
    ttGo cmd vc ce sl2 stop lastIdx ls i v cp = some out →
    out.length = ls.length ∧
    ∀ j a b, ls.get? j = some a → out.get? j = some b → markerPreserved a b := by
  intro ls
  induction ls with
  | nil =>
    intro i v cp out _ hrun
    simp only [ttGo, Option.some.injEq] at hrun
    subst hrun
    exact ⟨rfl, fun j a b ha _ => by simp at ha⟩
  | cons s rest ih =>
    intro i v cp out hwf hrun
    rw [ttGo] at hrun
    split at hrun
    · have he : out = s :: rest := ((Option.some.injEq _ _).mp hrun).symm
      subst he
      refine ⟨rfl, fun j a b ha hb => ?_⟩
      rw [ha] at hb
      have he2 : a = b := (Option.some.injEq _ _).mp hb
      subst he2
      exact markerPreserved_refl a ((hwf a (List.get?_mem ha)).1)
    · split at hrun
      · split at hrun
        · exact absurd hrun (by simp)
        · next out2 hrec =>
          have hout : out = s :: out2 := ((Option.some.injEq _ _).mp hrun).symm
          subst hout
          obtain ⟨hlen, hpt⟩ := ih (i + 1) v cp out2
            (fun x hx => hwf x (List.mem_cons_of_mem s hx)) hrec
          refine ⟨by simp [hlen], fun j a b ha hb => ?_⟩
          cases j with
          | zero =>
            have has : s = a := (Option.some.injEq _ _).mp ha
            have hbs : s = b := (Option.some.injEq _ _).mp hb
            subst has
            subst hbs
            exact markerPreserved_refl s ((hwf s (List.mem_cons_self s rest)).1)
          | succ k => exact hpt k a b ha hb
      · split at hrun
        · exact absurd hrun (by simp)
        · next l2 st hl =>
          split at hrun
          · exact absurd hrun (by simp)
          · next out2 hrec =>
            have hout : out = l2 :: out2 := ((Option.some.injEq _ _).mp hrun).symm
            subst hout
            obtain ⟨hlen, hpt⟩ := ih (i + 1) st.1 st.2 out2
              (fun x hx => hwf x (List.mem_cons_of_mem s hx)) hrec
            refine ⟨by simp [hlen], fun j a b ha hb => ?_⟩
            cases j with
            | zero =>
              have has : s = a := (Option.some.injEq _ _).mp ha
              have hbs : l2 = b := (Option.some.injEq _ _).mp hb
              subst has
              subst hbs
              exact ttLayer_marker cmd vc ce sl2 lastIdx i s v cp l2 st
                (hwf s (List.mem_cons_self s rest)) hl
            | succ k => exact hpt k a b ha hb

/-- C8: for every ramp engine (BedCool, TempRamp, CoastRetract,
TestingTower) and every stream of well-formed layers (layer-change
markers only at the head of a layer, and a head marker always followed
by at least one more line, as the segmenter guarantees), a successful
run never creates, removes or relocates a layer boundary marker: the
output has exactly one layer per input layer, and every output layer
carries the marker at its head exactly when its input layer did, has
markers nowhere else, and has the same marker count as its input
layer. -/
theorem c8_markers_preserved :
    (∀ (numFinal : Nat) (rb : ℚ) (data out : List Str),
      (∀ s ∈ data, wfLayer s) → bcExecute numFinal rb data = some out →
      out.length = data.length ∧
      ∀ j a b, data.get? j = some a → out.get? j = some b →
        markerPreserved a b) ∧
    (∀ (inc : ℚ) (data out : List Str),
      (∀ s ∈ data, wfLayer s) → tmExecute inc data = some out →
      out.length = data.length ∧
      ∀ j a b, data.get? j = some a → out.get? j = some b →
        markerPreserved a b) ∧
    (∀ (data out : List Str),
      (∀ s ∈ data, wfLayer s) → crExecute data = some out →
      out.length = data.length ∧
      ∀ j a b, data.get? j = some a → out.get? j = some b →
        markerPreserved a b) ∧
    (∀ (cmd : String) (sv vc : ℚ) (ce sl : Nat) (data out : List Str),
      (∀ s ∈ data, wfLayer s) → ttExecute cmd sv vc ce sl data = some out →
      out.length = data.length ∧
      ∀ j a b, data.get? j = some a → out.get? j = some b →
        markerPreserved a b) := by
  refine ⟨?_, ?_, ?_, ?_⟩
  · intro numFinal rb data out hwf hrun
    exact bcGo_marker _ _ _ data 0 0 out (fun s hs => (hwf s hs).1) hrun
  · intro inc data out hwf hrun
    exact tmGo_marker inc _ data 0 0 0 out hwf hrun
  · intro data out hwf hrun
    exact crExecute_marker data out hwf hrun
  · intro cmd sv vc ce sl data out hwf hrun
    exact ttGo_marker cmd vc ce (sl + 2) _ _ data 0 (sv - vc) (-1) out hwf hrun

theorem wfLayer_of_checks (s : Str)
    (h1 : ∀ l ∈ (splitNl s).tail, l ≠ markerLine)
    (h2 : (splitNl s).head? = some markerLine → 2 ≤ (splitNl s).length) :
    wfLayer s := ⟨markersOnly_of_tail _ h1, h2⟩

/-- C8 witness: the marker-preservation theorem applied to concrete runs
of all four engines (BedCool on cBed, TempRamp on cTempZero, CoastRetract
on the coast layer, and the speed sweep on cTower). -/
theorem c8_witness :
    (∃ out, bcExecute 5 1 cBed = some out ∧ out.length = cBed.length ∧
      ∀ j a b, cBed.get? j = some a → out.get? j = some b →
        markerPreserved a b) ∧
    (∃ out, tmExecute 1 cTempZero = some out ∧ out.length = cTempZero.length ∧
      ∀ j a b, cTempZero.get? j = some a → out.get? j = some b →
        markerPreserved a b) ∧
    (∃ out, crExecute [cCoastLayer] = some out ∧ out.length = 1 ∧
      ∀ j a b, [cCoastLayer].get? j = some a → out.get? j = some b →
        markerPreserved a b) ∧
    (∃ out, ttExecute ( "speed") 100 1 1 0 cTower = some out ∧
      out.length = cTower.length ∧
      ∀ j a b, cTower.get? j = some a → out.get? j = some b →
        markerPreserved a b) := by
  have hw1 : ∀ s ∈ cBed, wfLayer s := by
    intro s hs
    simp only [cBed, List.mem_cons, List.not_mem_nil, or_false] at hs
    rcases hs with rfl | rfl | rfl | rfl | rfl | rfl | rfl | rfl | rfl <;>
      exact wfLayer_of_checks _ (by with_unfolding_all decide)
        (by with_unfolding_all decide)
  have hw2 : ∀ s ∈ cTempZero, wfLayer s := by
    intro s hs
    simp only [cTempZero, List.mem_cons, List.not_mem_nil, or_false] at hs
    rcases hs with rfl | rfl | rfl | rfl | rfl | rfl <;>
      exact wfLayer_of_checks _ (by with_unfolding_all decide)
        (by with_unfolding_all decide)
  have hw3 : ∀ s ∈ [cCoastLayer], wfLayer s := by
    intro s hs
    simp only [List.mem_singleton] at hs
    subst hs
    exact wfLayer_of_checks _ (by with_unfolding_all decide)
      (by with_unfolding_all decide)
  have hw4 : ∀ s ∈ cTower, wfLayer s := by
    intro s hs
    simp only [cTower, List.mem_cons, List.not_mem_nil, or_false] at hs
    rcases hs with rfl | rfl | rfl | rfl | rfl | rfl <;>
      exact wfLayer_of_checks _ (by with_unfolding_all decide)
        (by with_unfolding_all decide)
  obtain ⟨o1, h1⟩ := Option.isSome_iff_exists.mp
    (show (bcExecute 5 1 cBed).isSome = true from by with_unfolding_all decide)
  obtain ⟨o2, h2⟩ := Option.isSome_iff_exists.mp
    (show (tmExecute 1 cTempZero).isSome = true from by
      with_unfolding_all decide)
  obtain ⟨o3, h3⟩ := Option.isSome_iff_exists.mp
    (show (crExecute [cCoastLayer]).isSome = true from by
      with_unfolding_all decide)
  obtain ⟨o4, h4⟩ := Option.isSome_iff_exists.mp
    (show (ttExecute ( "speed") 100 1 1 0 cTower).isSome = true from by
      with_unfolding_all decide)
  exact ⟨⟨o1, h1, (c8_markers_preserved.1 5 1 cBed o1 hw1 h1).1,
      (c8_markers_preserved.1 5 1 cBed o1 hw1 h1).2⟩,
    ⟨o2, h2, (c8_markers_preserved.2.1 1 cTempZero o2 hw2 h2).1,
      (c8_markers_preserved.2.1 1 cTempZero o2 hw2 h2).2⟩,
    ⟨o3, h3, (c8_markers_preserved.2.2.1 [cCoastLayer] o3 hw3 h3).1,
      (c8_markers_preserved.2.2.1 [cCoastLayer] o3 hw3 h3).2⟩,
    ⟨o4, h4, (c8_markers_preserved.2.2.2 ( "speed") 100 1 1 0 cTower o4
        hw4 h4).1,
      (c8_markers_preserved.2.2.2 ( "speed") 100 1 1 0 cTower o4 hw4 h4).2⟩⟩

theorem set_append_add {α : Type} (A : List α) : ∀ (B : List α) (k : ℕ) (v : α),
    (A ++ B).set (A.length + k) v = A ++ B.set k v := by
  induction A with
  | nil => intro B k v; simp
  | cons a A ih =>
    intro B k v
    simp only [List.cons_append, List.length_cons]
    rw [show A.length + 1 + k = (A.length + k) + 1 from by omega,
      List.set_cons_succ, ih]

theorem filterMap_id_map_some {α : Type} (X : List α) :
    (X.map some).filterMap id = X := by
  induction X with
  | nil => rfl
  | cons a t ih => simp [List.filterMap_cons, ih]

theorem crGoF_skips : ∀ (b : ℕ) (lines : List (Option Str)) (idx : ℕ),
    (∀ j s, idx ≤ j → lines.get? j = some (some s) → matchRetractA s = none) →
    (∀ j, idx ≤ j → j < lines.length → lines.get? j ≠ some none) →
    crGoF b lines idx = some lines := by
  intro b
  induction b with
  | zero => intro lines idx _ _; rfl
  | succ b ih =>
    intro lines idx h hn
    rw [crGoF]
    split
    · next hlt =>
      have hq := List.get?_eq_get hlt
      cases hget : lines.get ⟨idx, hlt⟩ with
      | none => exact absurd (hget ▸ hq) (hn idx le_rfl hlt)
      | some line =>
        have hm := h idx line le_rfl (by rw [hq, hget])
        simp only [hm]
        exact ih lines (idx + 1) (fun j s hj => h j s (by omega))
          (fun j hj => hn j (by omega))
    · rfl

theorem crGoF_advance : ∀ (d b : ℕ) (lines : List (Option Str)) (idx : ℕ),
    d ≤ b →
    (∀ j s, idx ≤ j → j < idx + d → lines.get? j = some (some s) →
      matchRetractA s = none) →
    (∀ j, idx ≤ j → j < idx + d → ∃ s, lines.get? j = some (some s)) →
    crGoF b lines idx = crGoF (b - d) lines (idx + d) := by
  intro d
  induction d with
  | zero => intro b lines idx _ _ _; rfl
  | succ d ih =>
    intro b lines idx hdb h hs
    obtain ⟨b2, hb2⟩ : ∃ b2, b = b2 + 1 := ⟨b - 1, by omega⟩
    subst hb2
    rw [crGoF]
    obtain ⟨s, hgs⟩ := hs idx le_rfl (by omega)
    have hlt : idx < lines.length := by
      have := List.get?_eq_some.mp hgs
      exact this.1
    rw [dif_pos hlt]
    have hq := List.get?_eq_get hlt
    have hget : lines.get ⟨idx, hlt⟩ = some s := by
      rw [hgs] at hq
      exact (Option.some.inj hq).symm
    rw [hget]
    simp only [h idx s le_rfl (by omega) hgs]
    rw [ih b2 lines (idx + 1) (by omega)
      (fun j s2 hj hj2 => h j s2 (by omega) (by omega))
      (fun j hj hj2 => hs j (by omega) (by omega))]
    rw [show b2 + 1 - (d + 1) = b2 - d from by omega,
      show idx + (d + 1) = idx + 1 + d from by omega]

theorem crFindTarget_at (lines : List (Option Str)) (p : ℕ)
    (hgetp : lines.get? p = some (some (( "G1 X10 Y10").toList))) :
    crFindTarget lines (p + 1) =
      some (some (p, ( "X10 Y10").toList)) := by
  rw [crFindTarget, hgetp]
  simp only [show headIsG (( "G1 X10 Y10").toList) = true from by
      with_unfolding_all decide,
    show hasSpaceE (( "G1 X10 Y10").toList) = false from by
      with_unfolding_all decide,
    show matchTravelA (( "G1 X10 Y10").toList) =
      some (( "X10 Y10").toList) from by with_unfolding_all decide,
    if_true, Bool.false_eq_true, if_false]

theorem set_append_zero {α : Type} (A : List α) (b : α) (B : List α) (v : α) :
    (A ++ (b :: B)).set A.length v = A ++ (v :: B) :=
  set_append_add A (b :: B) 0 v

theorem set_append_one {α : Type} (A : List α) (b c : α) (B : List α) (v : α) :
    (A ++ (b :: (c :: B))).set (A.length + 1) v = A ++ (b :: (v :: B)) :=
  set_append_add A (b :: (c :: B)) 1 v

theorem get?_cons2_add {α : Type} (a b : α) (l : List α) (k : ℕ) :
    (a :: (b :: l)).get? (k + 2) = l.get? k := rfl

theorem crGo_pair (pre post : List Str)
    (hpre : ∀ l ∈ pre, matchRetractA l = none)
    (hpost : ∀ l ∈ post, matchRetractA l = none) :
    crGo ((pre ++ ((( "G1 X10 Y10").toList) ::
        ((( "G1 E-2 F2400").toList) :: post))).map some) 0 =
      some ((pre.map some) ++
        ((some (( "G1 F2400 X10 Y10 E-2").toList)) :: (none :: (post.map some)))) := by
  have hL : (pre ++ ((( "G1 X10 Y10").toList) ::
        ((( "G1 E-2 F2400").toList) :: post))).map some
      = (pre.map some) ++ ((some (( "G1 X10 Y10").toList)) ::
        ((some (( "G1 E-2 F2400").toList)) :: (post.map some))) := by
    simp
  rw [crGo, hL]
  set L' := (pre.map some) ++ ((some (( "G1 X10 Y10").toList)) ::
    ((some (( "G1 E-2 F2400").toList)) :: (post.map some))) with hL'
  have hlen : L'.length = pre.length + 2 + post.length := by
    rw [hL']
    simp only [List.length_append, List.length_map, List.length_cons]
    omega
  have hget_pre : ∀ j (hj : j < pre.length),
      L'.get? j = some (some (pre.get ⟨j, hj⟩)) := by
    intro j hj
    rw [hL', List.get?_append (by simpa using hj), List.get?_map,
      List.get?_eq_get hj]
    rfl
  have hget_t : L'.get? pre.length = some (some (( "G1 X10 Y10").toList)) := by
    rw [hL', List.get?_append_right (by simp)]
    simp
  have hget_r : L'.get? (pre.length + 1) =
      some (some (( "G1 E-2 F2400").toList)) := by
    rw [hL', List.get?_append_right (by simp)]
    simp only [List.length_map]
    rw [show pre.length + 1 - pre.length = 1 from by omega]
    rfl
  have hmatch : ∀ j s, 0 ≤ j → j < 0 + (pre.length + 1) →
      L'.get? j = some (some s) → matchRetractA s = none := by
    intro j s hj0 hjlt hgs
    rcases Nat.lt_or_ge j pre.length with hc | hc
    · rw [hget_pre j hc] at hgs
      have hseq := Option.some.inj (Option.some.inj hgs)
      rw [← hseq]
      exact hpre _ (List.get_mem pre _ _)
    · have hj : j = pre.length := by omega
      subst hj
      rw [hget_t] at hgs
      have hseq := Option.some.inj (Option.some.inj hgs)
      rw [← hseq]
      with_unfolding_all decide
  have hexist : ∀ j, 0 ≤ j → j < 0 + (pre.length + 1) →
      ∃ s, L'.get? j = some (some s) := by
    intro j hj0 hjlt
    rcases Nat.lt_or_ge j pre.length with hc | hc
    · exact ⟨_, hget_pre j hc⟩
    · have hj : j = pre.length := by omega
      subst hj
      exact ⟨_, hget_t⟩
  have hadv := crGoF_advance (pre.length + 1) (L'.length - 0) L' 0
    (by omega) hmatch hexist
  rw [hadv]
  rw [show (L'.length - 0) - (pre.length + 1) = post.length + 1 from by omega,
    show 0 + (pre.length + 1) = pre.length + 1 from by omega]
  rw [crGoF]
  have hlt : pre.length + 1 < L'.length := by omega
  rw [dif_pos hlt]
  have hgetv : L'.get ⟨pre.length + 1, hlt⟩ =
      some (( "G1 E-2 F2400").toList) := by
    have hq := List.get?_eq_get hlt
    rw [hget_r] at hq
    exact (Option.some.inj hq).symm
  rw [hgetv]
  simp only [show matchRetractA (( "G1 E-2 F2400").toList)
      = some ((( "-2").toList, ( "2400").toList)) from by with_unfolding_all decide,
    crFindTarget_at L' pre.length hget_t,
    show crMerge (( "-2").toList) (( "2400").toList) (( "X10 Y10").toList)
      = some (( "G1 F2400 X10 Y10 E-2").toList) from by with_unfolding_all decide]
  have hset : (L'.set pre.length (some (( "G1 F2400 X10 Y10 E-2").toList))).set
        (pre.length + 1) none
      = (pre.map some) ++ ((some (( "G1 F2400 X10 Y10 E-2").toList)) ::
        (none :: (post.map some))) := by
    rw [hL']
    rw [show pre.length = (pre.map some).length from by simp]
    rw [set_append_zero, set_append_one]
  rw [hset]
  have hskip : ∀ j s, pre.length + 1 + 1 ≤ j →
      ((pre.map some) ++ ((some (( "G1 F2400 X10 Y10 E-2").toList)) ::
        (none :: (post.map some)))).get? j = some (some s) →
      matchRetractA s = none := by
    intro j s hj hgs
    obtain ⟨k, hk⟩ : ∃ k, j = pre.length + 2 + k := ⟨j - (pre.length + 2), by omega⟩
    subst hk
    rw [List.get?_append_right (by simp only [List.length_map]; omega),
      show pre.length + 2 + k - (pre.map some).length = k + 2 from by
        simp only [List.length_map]; omega,
      get?_cons2_add, List.get?_map] at hgs
    cases hpk : post.get? k with
    | none =>
      rw [hpk] at hgs
      exact absurd hgs (by simp)
    | some x =>
      rw [hpk] at hgs
      have hx2 : (some (some x) : Option (Option Str)) = some (some s) := hgs
      have hxs := Option.some.inj (Option.some.inj hx2)
      rw [← hxs]
      exact hpost x (List.get?_mem hpk)
  have hnone : ∀ j, pre.length + 1 + 1 ≤ j →
      j < ((pre.map some) ++ ((some (( "G1 F2400 X10 Y10 E-2").toList)) ::
        (none :: (post.map some)))).length →
      ((pre.map some) ++ ((some (( "G1 F2400 X10 Y10 E-2").toList)) ::
        (none :: (post.map some)))).get? j ≠ some none := by
    intro j hj hjlen hcon
    obtain ⟨k, hk⟩ : ∃ k, j = pre.length + 2 + k := ⟨j - (pre.length + 2), by omega⟩
    subst hk
    rw [List.get?_append_right (by simp only [List.length_map]; omega),
      show pre.length + 2 + k - (pre.map some).length = k + 2 from by
        simp only [List.length_map]; omega,
      get?_cons2_add, List.get?_map] at hcon
    cases hpk : post.get? k with
    | none =>
      rw [hpk] at hcon
      exact absurd hcon (by simp)
    | some x =>
      rw [hpk] at hcon
      have hx2 : (some (some x) : Option (Option Str)) = some none := hcon
      exact absurd (Option.some.inj hx2) (by simp)
  exact crGoF_skips post.length _ (pre.length + 1 + 1) hskip hnone

theorem crLayer_pair (layer : Str) (pre post : List Str)
    (hsplit : splitNl layer = pre ++ ((( "G1 X10 Y10").toList) ::
      ((( "G1 E-2 F2400").toList) :: post)))
    (hpre : ∀ l ∈ pre, matchRetractA l = none)
    (hpost : ∀ l ∈ post, matchRetractA l = none) :
    crLayer layer =
      some (joinNl (pre ++ ((( "G1 F2400 X10 Y10 E-2").toList) :: post))) := by
  have hfm : ((pre.map some) ++ ((some (( "G1 F2400 X10 Y10 E-2").toList)) ::
        (none :: (post.map some)))).filterMap id
      = pre ++ ((( "G1 F2400 X10 Y10 E-2").toList) :: post) := by
    simp [filterMap_id_map_some]
  rw [crLayer, hsplit, crGo_pair pre post hpre hpost]
  simp only [hfm]

theorem crExecute_get : ∀ (data out : List Str), crExecute data = some out →
    ∀ li layer, data.get? li = some layer →
      ∃ b, out.get? li = some b ∧ crLayer layer = some b := by
  intro data
  induction data with
  | nil =>
    intro out h li layer hg
    exact absurd hg (by simp)
  | cons a rest ih =>
    intro out h li layer hg
    rw [crExecute] at h
    cases h1 : crLayer a with
    | none =>
      rw [h1] at h
      exact absurd h (by simp)
    | some l2 =>
      cases h2 : crExecute rest with
      | none =>
        rw [h1, h2] at h
        exact absurd h (by simp)
      | some r2 =>
        rw [h1, h2] at h
        have hout : out = l2 :: r2 := (Option.some.inj h).symm
        subst hout
        cases li with
        | zero =>
          rw [List.get?_cons_zero] at hg
          have hla : layer = a := (Option.some.inj hg).symm
          subst hla
          exact ⟨l2, rfl, h1⟩
        | succ n =>
          rw [List.get?_cons_succ] at hg
          exact ih r2 h2 n layer hg

/-- C6: in dialect A, whenever a CoastRetract run succeeds on a stream, any
layer of it in which the travel line G1 X10 Y10 is immediately followed by
the retract line G1 E-2 F2400, with no other line of the layer matching the
retract template, comes out with those two lines replaced in place by the
single combined line G1 F2400 X10 Y10 E-2 - carrying the feed rate 2400, the
travel operands X10 Y10 and the extrusion amount -2 - while every other line
survives unchanged, and the original retract line no longer appears in the
output layer. -/
theorem c6_coast_retract_merge (data out : List Str) (li : ℕ) (layer : Str)
    (pre post : List Str)
    (hrun : crExecute data = some out)
    (hget : data.get? li = some layer)
    (hsplit : splitNl layer = pre ++ ((( "G1 X10 Y10").toList) ::
      ((( "G1 E-2 F2400").toList) :: post)))
    (hpre : ∀ l ∈ pre, matchRetractA l = none)
    (hpost : ∀ l ∈ post, matchRetractA l = none) :
    ∃ b, out.get? li = some b ∧
      splitNl b = pre ++ ((( "G1 F2400 X10 Y10 E-2").toList) :: post) ∧
      (( "G1 F2400 X10 Y10 E-2").toList) ∈ splitNl b ∧
      (( "G1 E-2 F2400").toList) ∉ splitNl b := by
  obtain ⟨b, hb1, hb2⟩ := crExecute_get data out hrun li layer hget
  rw [crLayer_pair layer pre post hsplit hpre hpost] at hb2
  have hbeq : b = joinNl (pre ++ ((( "G1 F2400 X10 Y10 E-2").toList) :: post)) :=
    (Option.some.inj hb2).symm
  subst hbeq
  have hnl : ∀ l ∈ pre ++ ((( "G1 F2400 X10 Y10 E-2").toList) :: post),
      '\n' ∉ l := by
    intro l hl
    rcases List.mem_append.mp hl with hl | hl
    · exact no_nl_of_mem_splitNl layer l (by
        rw [hsplit]
        exact List.mem_append_left _ hl)
    · rcases List.mem_cons.mp hl with hl | hl
      · subst hl
        with_unfolding_all decide
      · exact no_nl_of_mem_splitNl layer l (by
          rw [hsplit]
          exact List.mem_append_right _
            (List.mem_cons_of_mem _ (List.mem_cons_of_mem _ hl)))
  have hsb : splitNl (joinNl (pre ++ ((( "G1 F2400 X10 Y10 E-2").toList) :: post)))
      = pre ++ ((( "G1 F2400 X10 Y10 E-2").toList) :: post) :=
    splitNl_joinNl_id _ (by simp) hnl
  refine ⟨_, hb1, hsb, ?_, ?_⟩
  · rw [hsb]
    exact List.mem_append_right _ (List.mem_cons_self _ _)
  · rw [hsb]
    intro hmem
    rcases List.mem_append.mp hmem with hm | hm
    · have hr := hpre _ hm
      rw [show matchRetractA (( "G1 E-2 F2400").toList)
          = some ((( "-2").toList, ( "2400").toList)) from by
        with_unfolding_all decide] at hr
      exact absurd hr (by simp)
    · rcases List.mem_cons.mp hm with hm | hm
      · exact absurd hm (by with_unfolding_all decide)
      · have hr := hpost _ hm
        rw [show matchRetractA (( "G1 E-2 F2400").toList)
            = some ((( "-2").toList, ( "2400").toList)) from by
          with_unfolding_all decide] at hr
        exact absurd hr (by simp)

/-- Witness for c6: the single-layer stream around cCoastLayer satisfies
every hypothesis concretely and the merge produces the combined line. -/
theorem c6_witness :
    crExecute [cCoastLayer] =
      some [( "x\nG1 F2400 X10 Y10 E-2\ny\n").toList] ∧
    (∃ b, [( "x\nG1 F2400 X10 Y10 E-2\ny\n").toList].get? 0 = some b ∧
      splitNl b = [( "x").toList] ++
        ((( "G1 F2400 X10 Y10 E-2").toList) :: [( "y").toList, ([] : Str)]) ∧
      (( "G1 F2400 X10 Y10 E-2").toList) ∈ splitNl b ∧
      (( "G1 E-2 F2400").toList) ∉ splitNl b) :=
  ⟨by with_unfolding_all decide,
   c6_coast_retract_merge [cCoastLayer]
     [( "x\nG1 F2400 X10 Y10 E-2\ny\n").toList] 0 cCoastLayer
     [( "x").toList] [( "y").toList, ([] : Str)]
     (by with_unfolding_all decide)
     (by with_unfolding_all decide)
     (by with_unfolding_all decide)
     (by with_unfolding_all decide)
     (by with_unfolding_all decide)⟩

end Slicer
